import Mathlib

/-!
# A size-bounded blob cache with LRU, LFU and GDSF eviction

Shallow embedding of `cache/lru.go`, `cache/lfu.go` and `cache/gdsf.go`.

Modelling conventions

* Pointers.  Every node the program allocates lives in an arena (`elems`, `nodes`); a pointer is
  the position of the node in the arena and allocation appends.  The ordering structure
  (`container/list`, the slice behind `container/heap`) and the lookup table hold such handles,
  so aliasing between the table and the ordering structure is kept.
* `map[string]*T` is an association list with at most one binding per key.
* `time.Now()` is an argument `now` of `Put` and `Get`; an instant of time is a `Nat`.
* Go `int` is `Int`; a slice position is a `Nat`.  Slice reads use `List.getD`: the program
  panics where the model reads a default.
* `float64` priorities are `F64`: exact values together with NaN.
* Logging and the mutex have no effect on the state and are left out.
-/

namespace Cache

abbrev Bytes := List UInt8

/-! ## Go maps from keys to node handles -/

abbrev KeyMap := List (String × Nat)

/-- Lookup `m[k]`: the handle bound to `k`, if any. -/
def mapGet (m : KeyMap) (k : String) : Option Nat :=
  List.lookup k m

/-- Removal `delete(m, k)`. -/
def mapDelete (m : KeyMap) (k : String) : KeyMap :=
  m.filter (fun e => e.1 != k)

/-- Assignment `m[k] = h`: any earlier binding of `k` is replaced. -/
def mapSet (m : KeyMap) (k : String) (h : Nat) : KeyMap :=
  (k, h) :: mapDelete m k

/-- Result of `Put`: `nil`, or the error built by `fmt.Errorf` in `GDSFCache.Put` with the four
numbers it formats. -/
inductive PutError where
  | objectTooBig (size maxEvictions maxEvictSize cacheSize : Int) : PutError
deriving DecidableEq, Repr

/-- One call on a cache; `now` is what `time.Now().UTC()` returns during the call. -/
inductive Op where
  | put (key : String) (value : Bytes) (now : Nat) : Op
  | get (key : String) (now : Nat) : Op
  | has (key : String) : Op
deriving DecidableEq, Repr

/-! ## LRU (`lru.go`) -/

structure node where
  key : String
  value : Bytes
  lastUsed : Nat
deriving DecidableEq, Repr, Inhabited

/-- Fields of `LRUCache`.  `elems` is the arena of the `list.Element`s allocated so far, `list`
the `container/list` as element handles read front to back. -/
structure LRUCache where
  maxSize : Int
  currSize : Int
  elems : List node
  list : List Nat
  byKey : KeyMap
deriving DecidableEq, Repr

def NewLRUCache (size : Int) : LRUCache :=
  { maxSize := size, currSize := 0, elems := [], list := [], byKey := [] }

/-- Method `list.Back`, called on a non-empty list. -/
def listBack (l : List Nat) : Nat :=
  l.getLastD 0

/-- Method `list.Remove(e)`: unlinks `e` when it is an element of the list. -/
def listRemove (l : List Nat) (e : Nat) : List Nat :=
  l.erase e

/-- Method `list.MoveToFront(e)`: nothing happens when `e` is not an element of the list. -/
def listMoveToFront (l : List Nat) (e : Nat) : List Nat :=
  if e ∈ l then e :: l.erase e else l

def LRUCache.evict (cache : LRUCache) : LRUCache :=
  if cache.list.length > 0 then
    let elm := listBack cache.list
    let nd := cache.elems.getD elm default
    let size : Int := nd.value.length
    { cache with
      byKey := mapDelete cache.byKey nd.key
      list := listRemove cache.list elm
      currSize := cache.currSize - size }
  else cache

def LRUCache.Put (cache : LRUCache) (key : String) (value : Bytes) (now : Nat) :
    LRUCache × Option PutError :=
  let size : Int := value.length
  let cache := if size + cache.currSize > cache.maxSize then cache.evict else cache
  let elm := cache.elems.length
  ({ cache with
     elems := cache.elems ++ [{ key := key, value := value, lastUsed := now }]
     list := elm :: cache.list
     byKey := mapSet cache.byKey key elm
     currSize := cache.currSize + size }, none)

/-- Method `LRUCache.Get`.  The source assigns `lastUsed` on a copy of the element value, so the
stored element keeps its old time stamp. -/
def LRUCache.Get (cache : LRUCache) (key : String) (_now : Nat) : LRUCache × Bytes × Bool :=
  match mapGet cache.byKey key with
  | some elm =>
    ({ cache with list := listMoveToFront cache.list elm },
      (cache.elems.getD elm default).value, true)
  | none => (cache, [], false)

def LRUCache.Has (cache : LRUCache) (key : String) : Bool :=
  (mapGet cache.byKey key).isSome

def LRUCache.Size (cache : LRUCache) : Int :=
  cache.currSize

def LRUCache.step (cache : LRUCache) : Op → LRUCache
  | .put key value now => (cache.Put key value now).1
  | .get key now => (cache.Get key now).1
  | .has _ => cache

def LRUCache.run (cache : LRUCache) (ops : List Op) : LRUCache :=
  ops.foldl LRUCache.step cache

/-! ## Slices of node pointers and `container/heap` -/

/-- What `container/heap` needs to know of a node type: the comparison behind `Less` and the
`index` field written by `Swap`, `Push` and `Pop`. -/
class HeapNode (N : Type) where
  dflt : N
  less : N → N → Bool
  index : N → Int
  setIndex : N → Int → N

/-- A slice of node pointers (`PQ`, `gdsfPQ`) with the memory it points into: `nodes` is the
arena, `slots` the backing array of handles. -/
structure PtrSlice (N : Type) where
  nodes : List N
  slots : List Nat
deriving DecidableEq, Repr

namespace PtrSlice

variable {N : Type} [HeapNode N]

/-- The node a handle points to. -/
def deref (pq : PtrSlice N) (h : Nat) : N :=
  pq.nodes.getD h HeapNode.dflt

/-- The node `pq[i]`. -/
def node (pq : PtrSlice N) (i : Nat) : N :=
  pq.deref (pq.slots.getD i 0)

/-- Assignment through a pointer: `f` applied to the node behind `h`. -/
def update (pq : PtrSlice N) (h : Nat) (f : N → N) : PtrSlice N :=
  { pq with nodes := pq.nodes.set h (f (pq.deref h)) }

/-- Allocation of a node: the arena grows, the handle of the new node is its old length. -/
def alloc (pq : PtrSlice N) (x : N) : PtrSlice N :=
  { pq with nodes := pq.nodes ++ [x] }

def Len (pq : PtrSlice N) : Nat :=
  pq.slots.length

/-- Methods `PQ.Less` and `gdsfPQ.Less`, which differ in the comparison only. -/
def Less (pq : PtrSlice N) (i j : Nat) : Bool :=
  HeapNode.less (pq.node i) (pq.node j)

/-- Methods `PQ.Swap` and `gdsfPQ.Swap`. -/
def Swap (pq : PtrSlice N) (i j : Nat) : PtrSlice N :=
  let a := pq.slots.getD i 0
  let b := pq.slots.getD j 0
  let pq1 : PtrSlice N := { pq with slots := (pq.slots.set i b).set j a }
  let pq2 := pq1.update (pq1.slots.getD i 0) (fun x => HeapNode.setIndex x i)
  pq2.update (pq2.slots.getD j 0) (fun x => HeapNode.setIndex x j)

/-- Methods `PQ.Push` and `gdsfPQ.Push`, for the node behind handle `x`. -/
def Push (pq : PtrSlice N) (x : Nat) : PtrSlice N :=
  let n := pq.slots.length
  let pq1 := pq.update x (fun y => HeapNode.setIndex y n)
  { pq1 with slots := pq1.slots ++ [x] }

/-- Methods `PQ.Pop` and `gdsfPQ.Pop`: the last pointer leaves the slice and is returned. -/
def Pop (pq : PtrSlice N) : PtrSlice N × Nat :=
  let n := pq.slots.length
  let x := pq.slots.getD (n - 1) 0
  let pq1 := pq.update x (fun y => HeapNode.setIndex y (-1))
  ({ pq1 with slots := pq1.slots.take (n - 1) }, x)

/-- Method `gdsfPQ.kth`. -/
def kth (pq : PtrSlice N) (k : Nat) : N :=
  pq.node (pq.Len - k - 1)

end PtrSlice

namespace heap

variable {N : Type} [HeapNode N]

/-- Loop of `heap.up`; `fuel` bounds the iterations. -/
def upLoop : Nat → PtrSlice N → Nat → PtrSlice N
  | 0, h, _ => h
  | fuel + 1, h, j =>
    let i := (j - 1) / 2
    if i = j || !h.Less j i then h
    else upLoop fuel (h.Swap i j) i

/-- Function `heap.up`: the index at least halves in every iteration, `j` iterations suffice. -/
def up (h : PtrSlice N) (j : Nat) : PtrSlice N :=
  upLoop j h j

/-- The child `j` that `heap.down` compares with its parent `i`: the left child `j1 = 2*i + 1`,
or the right child `j2 = j1 + 1` when it lies below `n` and is less than the left child. -/
def minChild (h : PtrSlice N) (i n : Nat) : Nat :=
  let j1 := 2 * i + 1
  if j1 + 1 < n && h.Less (j1 + 1) j1 then j1 + 1 else j1

/-- Loop of `heap.down`; returns the slice and the final value of `i`.  The exit on `j1 < 0`
(overflow of `int`) is not modelled. -/
def downLoop : Nat → PtrSlice N → Nat → Nat → PtrSlice N × Nat
  | 0, h, i, _ => (h, i)
  | fuel + 1, h, i, n =>
    if 2 * i + 1 ≥ n then (h, i)
    else if !h.Less (minChild h i n) i then (h, i)
    else downLoop fuel (h.Swap i (minChild h i n)) (minChild h i n) n

/-- Function `heap.down`: `i` grows in every iteration and stays below `n`. -/
def down (h : PtrSlice N) (i0 n : Nat) : PtrSlice N × Bool :=
  let r := downLoop n h i0 n
  (r.1, decide (r.2 > i0))

def Push (h : PtrSlice N) (x : Nat) : PtrSlice N :=
  let h := h.Push x
  up h (h.Len - 1)

def Pop (h : PtrSlice N) : PtrSlice N × Nat :=
  let n := h.Len - 1
  let h := h.Swap 0 n
  let h := (down h 0 n).1
  h.Pop

def Fix (h : PtrSlice N) (i : Nat) : PtrSlice N :=
  let r := down h i h.Len
  if !r.2 then up r.1 i else r.1

/-- Call `heap.Fix(h, index)` with the `index` field of a node.  The field holds a slot or the
`-1` written by `Pop`; with `-1` neither `down` nor `up` reads the slice. -/
def FixAt (h : PtrSlice N) (index : Int) : PtrSlice N :=
  if index < 0 then h else Fix h index.toNat

end heap

/-! ## LFU (`lfu.go`) -/

structure lfuNode where
  key : String
  value : Bytes
  count : Int
  index : Int
  lastUsed : Nat
deriving DecidableEq, Repr, Inhabited

/-- Comparison of `PQ.Less`: lower count first, the earlier `lastUsed` first among equal counts. -/
def lfuNode.less (a b : lfuNode) : Bool :=
  decide (a.count < b.count) || (a.count == b.count && decide (a.lastUsed < b.lastUsed))

instance : HeapNode lfuNode where
  dflt := default
  less := lfuNode.less
  index := lfuNode.index
  setIndex := fun x i => { x with index := i }

abbrev PQ := PtrSlice lfuNode

structure LFUCache where
  maxSize : Int
  currSize : Int
  pq : PQ
  byKey : KeyMap
deriving DecidableEq, Repr

def NewLFUCache (size : Int) : LFUCache :=
  { maxSize := size, currSize := 0, pq := { nodes := [], slots := [] }, byKey := [] }

def LFUCache.evict (cache : LFUCache) : LFUCache :=
  if cache.pq.Len > 0 then
    let r := heap.Pop cache.pq
    let nd := r.1.deref r.2
    let size : Int := nd.value.length
    { cache with
      pq := r.1
      byKey := mapDelete cache.byKey nd.key
      currSize := cache.currSize - size }
  else cache

def LFUCache.Put (cache : LFUCache) (key : String) (value : Bytes) (now : Nat) :
    LFUCache × Option PutError :=
  let size : Int := value.length
  let cache := if size + cache.currSize > cache.maxSize then cache.evict else cache
  let x := cache.pq.nodes.length
  let pq := cache.pq.alloc { key := key, value := value, count := 1, index := 0, lastUsed := now }
  ({ cache with
     byKey := mapSet cache.byKey key x
     pq := heap.Push pq x
     currSize := cache.currSize + size }, none)

/-- The assignments `node.lastUsed = now` and `node.count++` of `LFUCache.Get`. -/
def lfuNode.touch (now : Nat) (nd : lfuNode) : lfuNode :=
  { nd with lastUsed := now, count := nd.count + 1 }

def LFUCache.Get (cache : LFUCache) (key : String) (now : Nat) : LFUCache × Bytes × Bool :=
  match mapGet cache.byKey key with
  | some x =>
    let pq := cache.pq.update x (lfuNode.touch now)
    let pq := heap.FixAt pq (pq.deref x).index
    ({ cache with pq := pq }, (pq.deref x).value, true)
  | none => (cache, [], false)

def LFUCache.Has (cache : LFUCache) (key : String) : Bool :=
  (mapGet cache.byKey key).isSome

def LFUCache.Size (cache : LFUCache) : Int :=
  cache.currSize

def LFUCache.step (cache : LFUCache) : Op → LFUCache
  | .put key value now => (cache.Put key value now).1
  | .get key now => (cache.Get key now).1
  | .has _ => cache

def LFUCache.run (cache : LFUCache) (ops : List Op) : LFUCache :=
  ops.foldl LFUCache.step cache

/-! ## GDSF (`gdsf.go`) -/

/-- Values of type `float64` in exact arithmetic: NaN or an exact number.  Every number the
program computes is an integer (`cost` divides `count * size` by `size`), and the only division
by zero it performs is `0 / 0`, which is NaN. -/
inductive F64 where
  | nan : F64
  | val (z : Int) : F64
deriving DecidableEq, Repr, Inhabited

def F64.ofInt (z : Int) : F64 :=
  .val z

/-- Sum; NaN propagates. -/
def F64.add : F64 → F64 → F64
  | .val a, .val b => .val (a + b)
  | _, _ => .nan

/-- Product; NaN propagates. -/
def F64.mul : F64 → F64 → F64
  | .val a, .val b => .val (a * b)
  | _, _ => .nan

/-- Quotient; a zero divisor and NaN operands give NaN. -/
def F64.div : F64 → F64 → F64
  | .val a, .val b => if b = 0 then .nan else .val (a / b)
  | _, _ => .nan

/-- Comparison `<`, false as soon as one side is NaN. -/
def F64.lt : F64 → F64 → Bool
  | .val a, .val b => decide (a < b)
  | _, _ => false

structure gdsfNode where
  key : String
  value : Bytes
  count : Int
  index : Int
  priority : F64
  size : Int
  lastUsed : Nat
deriving DecidableEq, Repr, Inhabited

/-- Comparison of `gdsfPQ.Less`. -/
def gdsfNode.less (a b : gdsfNode) : Bool :=
  F64.lt a.priority b.priority

instance : HeapNode gdsfNode where
  dflt := default
  less := gdsfNode.less
  index := gdsfNode.index
  setIndex := fun x i => { x with index := i }

abbrev gdsfPQ := PtrSlice gdsfNode

structure GDSFCache where
  maxSize : Int
  maxEvictions : Int
  usedSize : Int
  L : F64
  queue : gdsfPQ
  byKey : KeyMap
deriving DecidableEq, Repr

def NewGDSFCache (size : Int) (maxEvictions : Int) : GDSFCache :=
  { maxSize := size, maxEvictions := maxEvictions, usedSize := 0, L := .val 0,
    queue := { nodes := [], slots := [] }, byKey := [] }

def GDSFCache.aquisitionCost (_cache : GDSFCache) (size : Int) : F64 :=
  F64.ofInt size

def GDSFCache.cost (cache : GDSFCache) (count : Int) (size : Int) : F64 :=
  cache.L.add (((F64.ofInt count).mul (cache.aquisitionCost size)).div (F64.ofInt size))

/-- Method `GDSFCache.evict(k)` for `k ≥ 0`: the argument is the loop variable `i`. -/
def GDSFCache.evict (cache : GDSFCache) : Nat → GDSFCache
  | 0 => cache
  | i + 1 =>
    if cache.queue.Len > 0 then
      let r := heap.Pop cache.queue
      let nd := r.1.deref r.2
      let cache1 : GDSFCache :=
        { cache with
          queue := r.1
          byKey := mapDelete cache.byKey nd.key
          usedSize := cache.usedSize - nd.size
          L := if i + 1 = 1 then nd.priority else cache.L }
      cache1.evict i
    else cache

/-- The `for itemsToEvict` loop of `GDSFCache.Put`, entered with `itemsToEvict` and `evictSize`;
returns the cache and the final values of both variables.  `fuel` bounds the iterations. -/
def GDSFCache.scan (cache : GDSFCache) (size : Int) : Nat → Nat → Int → GDSFCache × Nat × Int
  | 0, itemsToEvict, evictSize => (cache, itemsToEvict, evictSize)
  | fuel + 1, itemsToEvict, evictSize =>
    if (itemsToEvict : Int) ≤ cache.maxEvictions && itemsToEvict < cache.queue.Len then
      let evictSize := evictSize + (cache.queue.kth (itemsToEvict - 1)).size
      if size + cache.usedSize - evictSize > cache.maxSize then
        (cache.evict itemsToEvict, itemsToEvict, evictSize)
      else cache.scan size fuel (itemsToEvict + 1) evictSize
    else (cache, itemsToEvict, evictSize)

/-- The part of `GDSFCache.Put` after the space check: the node is created, entered in the
table and pushed. -/
def GDSFCache.insert (cache : GDSFCache) (key : String) (value : Bytes) (now : Nat) :
    GDSFCache :=
  let size : Int := value.length
  let count : Int := 1
  let x := cache.queue.nodes.length
  let queue := cache.queue.alloc
    { key := key, value := value, count := count, index := 0,
      priority := cache.cost count size, size := size, lastUsed := now }
  { cache with
    byKey := mapSet cache.byKey key x
    queue := heap.Push queue x
    usedSize := cache.usedSize + size }

/-- Method `GDSFCache.Put`; the loop runs fewer than `queue.Len()` times. -/
def GDSFCache.Put (cache : GDSFCache) (key : String) (value : Bytes) (now : Nat) :
    GDSFCache × Option PutError :=
  let size : Int := value.length
  if size + cache.usedSize > cache.maxSize then
    let r := cache.scan size cache.queue.Len 1 0
    if (r.2.1 : Int) > cache.maxEvictions then
      (r.1, some (.objectTooBig size cache.maxEvictions r.2.2 cache.maxSize))
    else (r.1.insert key value now, none)
  else (cache.insert key value now, none)

/-- The assignments to `lastUsed`, `count` and `priority` of `GDSFCache.Get`. -/
def GDSFCache.touch (cache : GDSFCache) (now : Nat) (nd : gdsfNode) : gdsfNode :=
  { nd with lastUsed := now, count := nd.count + 1,
            priority := cache.cost (nd.count + 1) nd.size }

def GDSFCache.Get (cache : GDSFCache) (key : String) (now : Nat) : GDSFCache × Bytes × Bool :=
  match mapGet cache.byKey key with
  | some x =>
    let queue := cache.queue.update x (cache.touch now)
    let queue := heap.FixAt queue (queue.deref x).index
    ({ cache with queue := queue }, (queue.deref x).value, true)
  | none => (cache, [], false)

def GDSFCache.Has (cache : GDSFCache) (key : String) : Bool :=
  (mapGet cache.byKey key).isSome

def GDSFCache.Size (cache : GDSFCache) : Int :=
  cache.usedSize

def GDSFCache.step (cache : GDSFCache) : Op → GDSFCache
  | .put key value now => (cache.Put key value now).1
  | .get key now => (cache.Get key now).1
  | .has _ => cache

def GDSFCache.run (cache : GDSFCache) (ops : List Op) : GDSFCache :=
  ops.foldl GDSFCache.step cache

/-! ## Predicates on slices of node pointers -/

/-- What `Swap`, `Push` and `Pop` rely on: writing the `index` field sets it and does not change
the outcome of a comparison. -/
class LawfulHeapNode (N : Type) [HeapNode N] : Prop where
  index_setIndex : ∀ (x : N) (i : Int), HeapNode.index (HeapNode.setIndex x i) = i
  less_setIndex_left : ∀ (x y : N) (i : Int),
    HeapNode.less (HeapNode.setIndex x i) y = HeapNode.less x y
  less_setIndex_right : ∀ (x y : N) (i : Int),
    HeapNode.less x (HeapNode.setIndex y i) = HeapNode.less x y

/-- An observation of a node that does not read the `index` field. -/
def IndexFree {N α : Type} [HeapNode N] (f : N → α) : Prop :=
  ∀ (x : N) (i : Int), f (HeapNode.setIndex x i) = f x

/-- Slot `k` after slots `i` and `j` have been exchanged. -/
def swapIdx (i j k : Nat) : Nat :=
  if k = j then i else if k = i then j else k

/-- The slice `q2` comes from `q1` by calls of `Swap` on slots within the slice. -/
inductive Swaps {N : Type} [HeapNode N] : PtrSlice N → PtrSlice N → Prop where
  | refl (q : PtrSlice N) : Swaps q q
  | step {q1 q2 : PtrSlice N} (i j : Nat) :
      Swaps q1 q2 → i < q2.Len → j < q2.Len → Swaps q1 (q2.Swap i j)

/-- Every slot holds a pointer to an allocated node, and the `index` field of that node is the
slot. -/
structure PtrSlice.WF {N : Type} [HeapNode N] (q : PtrSlice N) : Prop where
  inRange : ∀ i, i < q.slots.length → q.slots.getD i 0 < q.nodes.length
  indexOK : ∀ i, i < q.slots.length → HeapNode.index (q.node i) = (i : Int)

/-- The first `n` slots are in heap order: no slot is less than its parent. -/
def PtrSlice.HeapOrdered {N : Type} [HeapNode N] (q : PtrSlice N) (n : Nat) : Prop :=
  ∀ i, 0 < i → i < n → q.Less i ((i - 1) / 2) = false

/-- On the slots of the slice, `Less` is a strict weak order. -/
structure PtrSlice.LessOrder {N : Type} [HeapNode N] (q : PtrSlice N) : Prop where
  asymm : ∀ a b, a < q.Len → b < q.Len → q.Less a b = true → q.Less b a = false
  trans : ∀ a b c, a < q.Len → b < q.Len → c < q.Len →
    q.Less a b = true → q.Less b c = true → q.Less a c = true
  negTrans : ∀ a b c, a < q.Len → b < q.Len → c < q.Len →
    q.Less b a = false → q.Less c b = false → q.Less c a = false

/-- Loop invariant of `heap.up` at slot `j`: every slot but `j` is in order with its parent,
and the children of `j` are in order with the parent of `j`. -/
def PtrSlice.UpInv {N : Type} [HeapNode N] (q : PtrSlice N) (n j : Nat) : Prop :=
  (∀ k, 0 < k → k < n → k ≠ j → q.Less k ((k - 1) / 2) = false) ∧
  (∀ c, 0 < c → c < n → (c - 1) / 2 = j → 0 < j → q.Less c ((j - 1) / 2) = false)

/-- Loop invariant of `heap.down` at slot `i`: every slot that is not a child of `i` is in
order with its parent, and the children of `i` are in order with the parent of `i`. -/
def PtrSlice.DownInv {N : Type} [HeapNode N] (q : PtrSlice N) (n i : Nat) : Prop :=
  (∀ k, 0 < k → k < n → (k - 1) / 2 ≠ i → q.Less k ((k - 1) / 2) = false) ∧
  (∀ c, 0 < c → c < n → (c - 1) / 2 = i → 0 < i → q.Less c ((i - 1) / 2) = false)

/-- State in which `heap.Fix` is called at slot `i`, whose node has changed: the other slots
are in order with their parents, and the children of `i` with the parent of `i`. -/
def PtrSlice.FixInv {N : Type} [HeapNode N] (q : PtrSlice N) (n i : Nat) : Prop :=
  (∀ k, 0 < k → k < n → k ≠ i → (k - 1) / 2 ≠ i → q.Less k ((k - 1) / 2) = false) ∧
  (∀ c, 0 < c → c < n → (c - 1) / 2 = i → 0 < i → q.Less c ((i - 1) / 2) = false)

instance : LawfulHeapNode lfuNode where
  index_setIndex := fun _ _ => rfl
  less_setIndex_left := fun _ _ _ => rfl
  less_setIndex_right := fun _ _ _ => rfl

instance : LawfulHeapNode gdsfNode where
  index_setIndex := fun _ _ => rfl
  less_setIndex_left := fun _ _ _ => rfl
  less_setIndex_right := fun _ _ _ => rfl

/-- Sum of `f` over the nodes the slots point to. -/
def PtrSlice.total {N : Type} [HeapNode N] (f : N → Int) (q : PtrSlice N) : Int :=
  (q.slots.map (fun h => f (q.deref h))).sum

/-- Every binding of the table leads to a node of the slice that carries the bound key. -/
def PtrSlice.TableOK {N : Type} [HeapNode N] (keyOf : N → String) (q : PtrSlice N)
    (byKey : KeyMap) : Prop :=
  ∀ k h, mapGet byKey k = some h → h ∈ q.slots ∧ keyOf (q.deref h) = k

/-- Invariant of the LFU cache. -/
structure LFUCache.Inv (c : LFUCache) : Prop where
  wf : c.pq.WF
  heap : c.pq.HeapOrdered c.pq.Len
  table : c.pq.TableOK lfuNode.key c.byKey
  size : c.currSize = c.pq.total (fun nd => (nd.value.length : Int))

/-- Invariant of the GDSF cache: slots and `index` fields agree, the table leads into the heap,
`usedSize` is the sum of the `size` fields, and each `size` field is the length of the value. -/
structure GDSFCache.Inv (c : GDSFCache) : Prop where
  wf : c.queue.WF
  table : c.queue.TableOK gdsfNode.key c.byKey
  size : c.usedSize = c.queue.total gdsfNode.size
  sizeField : ∀ h, h ∈ c.queue.slots →
    (c.queue.deref h).size = ((c.queue.deref h).value.length : Int)

/-- Sum of the value lengths over the elements of the recency list. -/
def LRUCache.held (c : LRUCache) : Int :=
  (c.list.map (fun e => ((c.elems.getD e default).value.length : Int))).sum

/-- Invariant of the LRU cache for arbitrary calls: the list holds allocated elements and
`currSize` is the sum of their value lengths. -/
structure LRUCache.SizeInv (c : LRUCache) : Prop where
  inRange : ∀ e, e ∈ c.list → e < c.elems.length
  size : c.currSize = c.held

/-! ## Traces and specification-side notions -/

def Op.putKey : Op → Option String
  | .put key _ _ => some key
  | _ => none

/-- The key of the entry behind an element handle. -/
def LRUCache.keyOf (cache : LRUCache) (e : Nat) : String :=
  (cache.elems.getD e default).key

/-- The keys of the recency list, read front to back. -/
def LRUCache.keys (cache : LRUCache) : List String :=
  cache.list.map cache.keyOf

/-- Whether the call `op`, made in state `cache`, is an access to `k`: a `Put` of `k`, or a
`Get` of `k` that hits. -/
def LRUCache.accessed (cache : LRUCache) (op : Op) (k : String) : Bool :=
  match op with
  | .put key _ _ => key == k
  | .get key now => key == k && (cache.Get key now).2.2
  | .has _ => false

/-- One step of `lastAccess`: the state, the number of calls made, the latest access to `k`. -/
def LRUCache.track (k : String) (s : LRUCache × Nat × Nat) (op : Op) : LRUCache × Nat × Nat :=
  (s.1.step op, s.2.1 + 1, if s.1.accessed op k then s.2.1 + 1 else s.2.2)

/-- Position, counted from 1, of the latest access to `k` among the calls `ops` made on `cache`
in this order; `0` when `k` was never accessed. -/
def LRUCache.lastAccess (cache : LRUCache) (ops : List Op) (k : String) : Nat :=
  (ops.foldl (LRUCache.track k) (cache, 0, 0)).2.2

/-- Invariant of the LRU cache after the calls `ops` with pairwise distinct `Put` keys. -/
structure LRUCache.Inv (cache : LRUCache) (ops : List Op) (la : String → Nat) : Prop where
  nodup : cache.list.Nodup
  inRange : ∀ e ∈ cache.list, e < cache.elems.length
  table : ∀ k h, mapGet cache.byKey k = some h ↔ (h ∈ cache.list ∧ cache.keyOf h = k)
  fromPut : ∀ e ∈ cache.list, cache.keyOf e ∈ ops.filterMap Op.putKey
  order : cache.list.Pairwise (fun a b => la (cache.keyOf a) > la (cache.keyOf b))
  bound : ∀ k, la k ≤ ops.length

/-- A value of `n` zero bytes. -/
def blob (n : Nat) : Bytes :=
  List.replicate n 0

/-- The calls of `TestLRUCache` that change the state, with a `Get` after each of the first
two `Put`s. -/
def lruScenario : List Op :=
  [.put "key1" (blob 50) 1, .get "key1" 2, .put "key2" (blob 40) 3, .get "key2" 4,
   .put "key3" (blob 30) 5]

/-- The calls of the test "priority queue check, lower count is evicted" before the last
`Put`: `key1` is read three times, `key2` once. -/
def lowerCountScenario : List Op :=
  [.put "key1" (blob 50) 1, .get "key1" 2, .get "key1" 3, .get "key1" 4,
   .put "key2" (blob 40) 5, .get "key2" 6]

/-- The calls of the test "basic check" before the last `Put`. -/
def basicScenario : List Op :=
  [.put "key1" (blob 50) 1, .get "key1" 2, .has "key1", .get "key2" 3, .has "key2",
   .put "key2" (blob 40) 4, .get "key2" 5]

/-- The calls of the test "priority queue check, same count" before the last `Put`. -/
def sameCountScenario : List Op :=
  [.put "key1" (blob 50) 1, .get "key1" 2, .get "key1" 3,
   .put "key2" (blob 40) 4, .get "key2" 5, .get "key2" 6]

/-- Two entries of 50 and 40 bytes are put and never read. -/
def fullScenario : List Op :=
  [.put "key1" (blob 50) 1, .put "key2" (blob 40) 2]

def Op.isHas : Op → Bool
  | .has _ => true
  | _ => false

/-- Two entries are put and the second one is read once. -/
def secondReadScenario : List Op :=
  [.put "key1" (blob 50) 1, .put "key2" (blob 40) 2, .get "key2" 3]

/-- The cache after one iteration of the loop of `GDSFCache.evict` whose loop variable is
`i + 1`, entered with a non-empty queue. -/
def GDSFCache.afterPop (c : GDSFCache) (i : Nat) : GDSFCache :=
  { c with
    queue := (heap.Pop c.queue).1
    byKey := mapDelete c.byKey ((heap.Pop c.queue).1.deref (heap.Pop c.queue).2).key
    usedSize := c.usedSize - ((heap.Pop c.queue).1.deref (heap.Pop c.queue).2).size
    L := if i + 1 = 1 then ((heap.Pop c.queue).1.deref (heap.Pop c.queue).2).priority
         else c.L }

/-- The nodes that `evict(k)` pops, in the order of their removal. -/
def GDSFCache.evicted (c : GDSFCache) : Nat → List Nat
  | 0 => []
  | i + 1 =>
    if c.queue.Len > 0 then (heap.Pop c.queue).2 :: (c.afterPop i).evicted i else []

/-- The argument with which the `for itemsToEvict` loop of `Put`, entered with `itemsToEvict`
and `evictSize`, calls `evict`; `0` when the loop ends without the call. -/
def GDSFCache.batch (c : GDSFCache) (size : Int) : Nat → Nat → Int → Nat
  | 0, _, _ => 0
  | fuel + 1, itemsToEvict, evictSize =>
    if (itemsToEvict : Int) ≤ c.maxEvictions && itemsToEvict < c.queue.Len then
      if size + c.usedSize - (evictSize + (c.queue.kth (itemsToEvict - 1)).size) > c.maxSize then
        itemsToEvict
      else c.batch size fuel (itemsToEvict + 1)
        (evictSize + (c.queue.kth (itemsToEvict - 1)).size)
    else 0

/-- The argument with which `Put(key, value)` calls `evict`; `0` when it does not call it. -/
def GDSFCache.putBatch (c : GDSFCache) (value : Bytes) : Nat :=
  if (value.length : Int) + c.usedSize > c.maxSize then
    c.batch (value.length : Int) c.queue.Len 1 0
  else 0

/-- Invariant of the LRU cache for arbitrary calls: the list holds distinct allocated elements
and every binding of the table leads to an element of the list that carries the bound key. -/
structure LRUCache.TableInv (c : LRUCache) : Prop where
  nodup : c.list.Nodup
  inRange : ∀ e, e ∈ c.list → e < c.elems.length
  table : ∀ k h, mapGet c.byKey k = some h → h ∈ c.list ∧ c.keyOf h = k

/-- Every node in the slots is the node that the table binds to its key. -/
def PtrSlice.Bound {N : Type} [HeapNode N] (keyOf : N → String) (q : PtrSlice N)
    (byKey : KeyMap) : Prop :=
  ∀ h, h ∈ q.slots → mapGet byKey (keyOf (q.deref h)) = some h

/-- The key `key1` is put twice, then a third `Put` goes over the budget of 100 bytes. -/
def duplicateKeyScenario : List Op :=
  [.put "key1" (blob 50) 1, .put "key1" (blob 40) 2, .put "key2" (blob 30) 3]

/-- The key `key1` is put twice, then a 90-byte value is put. -/
def duplicateKeyScenarioLarge : List Op :=
  [.put "key1" (blob 50) 1, .put "key1" (blob 40) 2, .put "key2" (blob 90) 3]

/-- The key `key1` is put, evicted by the `Put` of `key2`, and put again. -/
def reputScenario : List Op :=
  [.put "key1" (blob 50) 1, .put "key2" (blob 60) 2, .put "key1" (blob 30) 3]

/-- The call is not a `Put` of a key for which `has` answers true. -/
def Op.unbound (has : String → Bool) : Op → Bool
  | .put key _ _ => !has key
  | _ => true

/-- Every `Put` among the calls `ops`, made one after the other on `c`, is for a key for which
`Has` answers false when the call is made. -/
def LRUCache.putsUnbound (c : LRUCache) : List Op → Bool
  | [] => true
  | op :: ops => op.unbound c.Has && (c.step op).putsUnbound ops

/-- Every `Put` among the calls `ops`, made one after the other on `c`, is for a key for which
`Has` answers false when the call is made. -/
def LFUCache.putsUnbound (c : LFUCache) : List Op → Bool
  | [] => true
  | op :: ops => op.unbound c.Has && (c.step op).putsUnbound ops

/-- Every `Put` among the calls `ops`, made one after the other on `c`, is for a key for which
`Has` answers false when the call is made. -/
def GDSFCache.putsUnbound (c : GDSFCache) : List Op → Bool
  | [] => true
  | op :: ops => op.unbound c.Has && (c.step op).putsUnbound ops

/-- Invariant of the LRU cache when no `Put` is for a bound key: every element of the list is
the one the table binds to its key. -/
structure LRUCache.KeyInv (c : LRUCache) : Prop where
  inv : c.TableInv
  bound : ∀ e, e ∈ c.list → mapGet c.byKey (c.keyOf e) = some e

/-- Invariant of the LFU cache when no `Put` is for a bound key. -/
structure LFUCache.KeyInv (c : LFUCache) : Prop where
  inv : c.Inv
  bound : c.pq.Bound lfuNode.key c.byKey

/-- Invariant of the GDSF cache when no `Put` is for a bound key. -/
structure GDSFCache.KeyInv (c : GDSFCache) : Prop where
  inv : c.Inv
  bound : c.queue.Bound gdsfNode.key c.byKey

/-- One entry of 50 bytes is put under `key1`. -/
def singleScenario : List Op :=
  [.put "key1" (blob 50) 1]

/-- Comparison `<=` of `float64`, false as soon as one side is NaN. -/
def F64.le : F64 → F64 → Bool
  | .val a, .val b => decide (a ≤ b)
  | _, _ => false

/-- The call is not a `Put` of an empty value. -/
def Op.nonEmpty : Op → Bool
  | .put _ value _ => decide (value ≠ [])
  | _ => true

/-- Invariant of the GDSF cache when no empty value has been put: the queue is in heap order,
`L` is a number, no priority is below `L`, and `cost` divides by no zero. -/
structure GDSFCache.OrdInv (c : GDSFCache) : Prop where
  inv : c.Inv
  heap : c.queue.HeapOrdered c.queue.Len
  numeric : ∃ l : Int, c.L = .val l
  floor : ∀ h, h ∈ c.queue.slots → F64.le c.L (c.queue.deref h).priority = true
  count : ∀ h, h ∈ c.queue.slots → 0 ≤ (c.queue.deref h).count
  sizeNZ : ∀ h, h ∈ c.queue.slots → (c.queue.deref h).size ≠ 0

/-- Three entries of 30 bytes are put; then `key1` is read twice and `key2` once. -/
def threeEntryScenario : List Op :=
  [.put "key1" (blob 30) 1, .put "key2" (blob 30) 2, .put "key3" (blob 30) 3,
   .get "key1" 4, .get "key1" 5, .get "key2" 6]

/-! ## The Go map model -/

theorem mapGet_mapDelete (m : KeyMap) (k k' : String) :
    mapGet (mapDelete m k) k' = if k' = k then none else mapGet m k' := by
  induction m with
  | nil => simp [mapGet, mapDelete]
  | cons e m ih =>
    obtain ⟨a, b⟩ := e
    simp only [mapGet, mapDelete] at ih ⊢
    by_cases hak : a = k
    · subst hak
      simp only [List.filter_cons, bne_self_eq_false, Bool.false_eq_true, if_false, ih,
        List.lookup_cons]
      by_cases h : k' = a
      · simp [h]
      · have h2 : (k' == a) = false := by simpa using h
        simp [h, h2]
    · have h1 : (a != k) = true := by simpa using hak
      simp only [List.filter_cons, h1, if_true, List.lookup_cons, ih]
      by_cases h : k' = k
      · subst h
        have : (k' == a) = false := by simpa using fun h => hak h.symm
        simp [this]
      · simp [h]

theorem mapGet_mapSet (m : KeyMap) (k k' : String) (h : Nat) :
    mapGet (mapSet m k h) k' = if k' = k then some h else mapGet m k' := by
  have := mapGet_mapDelete m k k'
  simp only [mapGet, mapSet, List.lookup_cons] at this ⊢
  by_cases hk : k' = k
  · simp [hk]
  · have h1 : (k' == k) = false := by simpa using hk
    simp [h1, this, hk]

/-! ## LRU: the recency list is ordered by latest access -/

theorem LRUCache.run_append (c : LRUCache) (ops : List Op) (op : Op) :
    c.run (ops ++ [op]) = (c.run ops).step op := by
  simp [LRUCache.run, List.foldl_append]

theorem LRUCache.track_foldl (k : String) (ops : List Op) (c : LRUCache) (n l : Nat) :
    (ops.foldl (LRUCache.track k) (c, n, l)).1 = c.run ops ∧
    (ops.foldl (LRUCache.track k) (c, n, l)).2.1 = n + ops.length := by
  induction ops generalizing c n l with
  | nil => simp [LRUCache.run]
  | cons op ops ih =>
    simp only [List.foldl_cons, LRUCache.run, List.length_cons]
    have := ih (c.step op) (n + 1) (if c.accessed op k then n + 1 else l)
    simp only [LRUCache.run] at this
    simp only [LRUCache.track]
    constructor
    · exact this.1
    · rw [this.2]; omega

theorem LRUCache.lastAccess_append (c : LRUCache) (ops : List Op) (op : Op) (k : String) :
    c.lastAccess (ops ++ [op]) k =
      if (c.run ops).accessed op k then ops.length + 1 else c.lastAccess ops k := by
  have h := LRUCache.track_foldl k ops c 0 0
  simp only [LRUCache.lastAccess, List.foldl_append, List.foldl_cons, List.foldl_nil]
  simp only [LRUCache.track, h.1, h.2, Nat.zero_add]

theorem LRUCache.Inv.key_inj {c : LRUCache} {ops : List Op} {la : String → Nat}
    (hi : c.Inv ops la) {a b : Nat} (ha : a ∈ c.list) (hb : b ∈ c.list)
    (hab : c.keyOf a = c.keyOf b) : a = b := by
  have h1 := (hi.table (c.keyOf b) a).2 ⟨ha, hab⟩
  have h2 := (hi.table (c.keyOf b) b).2 ⟨hb, rfl⟩
  rw [h1] at h2
  exact Option.some.inj h2

theorem LRUCache.lru_inv_new (size : Int) :
    (NewLRUCache size).Inv [] ((NewLRUCache size).lastAccess []) := by
  constructor <;> simp [NewLRUCache, mapGet, LRUCache.lastAccess]

theorem getLastD_mem (l : List Nat) (d : Nat) (h : l ≠ []) : l.getLastD d ∈ l := by
  induction l generalizing d with
  | nil => exact absurd rfl h
  | cons a l ih =>
    rw [List.getLastD_cons]
    cases l with
    | nil => simp
    | cons b l => exact List.mem_cons_of_mem _ (ih a (by simp))

theorem listBack_mem (l : List Nat) (h : l.length > 0) : listBack l ∈ l :=
  getLastD_mem l 0 (by intro h0; simp [h0] at h)

theorem LRUCache.lru_inv_evict {c : LRUCache} {ops : List Op} {la : String → Nat}
    (hi : c.Inv ops la) : c.evict.Inv ops la := by
  unfold LRUCache.evict
  split
  · rename_i hlen
    have hb := listBack_mem c.list hlen
    refine ⟨?_, ?_, ?_, ?_, ?_, hi.bound⟩
    · exact hi.nodup.erase _
    · intro e he
      exact hi.inRange e (List.mem_of_mem_erase he)
    · intro k h
      simp only [listRemove, LRUCache.keyOf]
      rw [mapGet_mapDelete, hi.nodup.mem_erase_iff]
      constructor
      · intro hk
        split at hk
        · simp at hk
        · rename_i hne
          have := (hi.table k h).1 hk
          refine ⟨⟨?_, this.1⟩, this.2⟩
          intro heq
          apply hne
          rw [← this.2, heq]
          rfl
      · rintro ⟨⟨hne, hm⟩, hk⟩
        have hne2 : ¬ k = (c.elems.getD (listBack c.list) default).key := by
          intro heq
          apply hne
          exact hi.key_inj hm hb (by simp only [LRUCache.keyOf]; rw [hk, heq])
        rw [if_neg hne2]
        exact (hi.table k h).2 ⟨hm, hk⟩
    · intro e he
      exact hi.fromPut e (List.mem_of_mem_erase he)
    · exact hi.order.sublist (List.erase_sublist _ _)
  · exact hi

theorem LRUCache.lru_inv_put {c : LRUCache} {ops : List Op} {la : String → Nat}
    (hi : c.Inv ops la) (key : String) (value : Bytes) (now : Nat)
    (hfresh : key ∉ ops.filterMap Op.putKey) :
    (c.Put key value now).1.Inv (ops ++ [.put key value now])
      (fun k => if key = k then ops.length + 1 else la k) := by
  have h0 : (if (value.length : Int) + c.currSize > c.maxSize then c.evict else c).Inv ops la := by
    split
    · exact LRUCache.lru_inv_evict hi
    · exact hi
  simp only [LRUCache.Put]
  generalize (if (value.length : Int) + c.currSize > c.maxSize then c.evict else c) = c0 at h0
  have hx : c0.elems.length ∉ c0.list := fun hm => Nat.lt_irrefl _ (h0.inRange _ hm)
  have hkey : ∀ e ∈ c0.list,
      ({ c0 with elems := c0.elems ++ [{ key := key, value := value, lastUsed := now }],
                 list := c0.elems.length :: c0.list,
                 byKey := mapSet c0.byKey key c0.elems.length,
                 currSize := c0.currSize + (value.length : Int) } : LRUCache).keyOf e
        = c0.keyOf e := by
    intro e he
    simp [LRUCache.keyOf, List.getD_eq_getElem?_getD, List.getElem?_append_left (h0.inRange e he)]
  have hnew :
      ({ c0 with elems := c0.elems ++ [{ key := key, value := value, lastUsed := now }],
                 list := c0.elems.length :: c0.list,
                 byKey := mapSet c0.byKey key c0.elems.length,
                 currSize := c0.currSize + (value.length : Int) } : LRUCache).keyOf c0.elems.length
        = key := by
    simp [LRUCache.keyOf, List.getD_eq_getElem?_getD]
  have hne : ∀ e ∈ c0.list, key ≠ c0.keyOf e := by
    intro e he heq
    exact hfresh (heq ▸ h0.fromPut e he)
  refine ⟨?_, ?_, ?_, ?_, ?_, ?_⟩
  · exact List.nodup_cons.2 ⟨hx, h0.nodup⟩
  · intro e he
    simp only [List.mem_cons] at he
    simp only [List.length_append, List.length_singleton]
    rcases he with he | he
    · omega
    · have := h0.inRange e he
      omega
  · intro k h
    rw [mapGet_mapSet]
    simp only [List.mem_cons]
    constructor
    · intro hk
      split at hk
      · rename_i hkk
        have hh : h = c0.elems.length := (Option.some.inj hk).symm
        subst hh
        exact ⟨Or.inl rfl, by rw [hnew, hkk]⟩
      · have := (h0.table k h).1 hk
        exact ⟨Or.inr this.1, by rw [hkey h this.1]; exact this.2⟩
    · rintro ⟨hm | hm, hk⟩
      · subst hm
        rw [hnew] at hk
        simp [hk]
      · rw [hkey h hm] at hk
        have : ¬ k = key := fun heq => hne h hm (by rw [hk, heq])
        rw [if_neg this]
        exact (h0.table k h).2 ⟨hm, hk⟩
  · intro e he
    simp only [List.mem_cons] at he
    simp only [List.filterMap_append, List.mem_append]
    rcases he with he | he
    · right
      subst he
      rw [hnew]
      simp [Op.putKey]
    · left
      rw [hkey e he]
      exact h0.fromPut e he
  · refine List.pairwise_cons.2 ⟨?_, ?_⟩
    · intro e he
      rw [hnew, hkey e he, if_pos rfl, if_neg (hne e he)]
      have := h0.bound (c0.keyOf e)
      omega
    · refine h0.order.imp_of_mem ?_
      intro a b ha hb hab
      rw [hkey a ha, hkey b hb, if_neg (hne a ha), if_neg (hne b hb)]
      exact hab
  · intro k
    simp only [List.length_append, List.length_singleton]
    have := h0.bound k
    split <;> omega

theorem LRUCache.lru_inv_get {c : LRUCache} {ops : List Op} {la : String → Nat}
    (hi : c.Inv ops la) (key : String) (now : Nat) :
    (c.Get key now).1.Inv (ops ++ [.get key now])
      (fun k => if (key == k && (c.Get key now).2.2) = true then ops.length + 1 else la k) := by
  have hb : ∀ k, la k ≤ (ops ++ [Op.get key now]).length := by
    intro k
    have := hi.bound k
    simp only [List.length_append, List.length_singleton]
    omega
  have hp : (ops ++ [Op.get key now]).filterMap Op.putKey = ops.filterMap Op.putKey := by
    simp [List.filterMap_append, Op.putKey]
  cases hg : mapGet c.byKey key with
  | none =>
    simp only [LRUCache.Get, hg, Bool.and_false, Bool.false_eq_true, if_false]
    exact ⟨hi.nodup, hi.inRange, hi.table, hp ▸ hi.fromPut, hi.order, hb⟩
  | some h =>
    obtain ⟨hm, hk⟩ := (hi.table key h).1 hg
    simp only [LRUCache.Get, hg, Bool.and_true, beq_iff_eq, listMoveToFront, if_pos hm]
    have hmem : ∀ e, e ∈ h :: c.list.erase h ↔ e ∈ c.list := by
      intro e
      simp only [List.mem_cons, hi.nodup.mem_erase_iff]
      constructor
      · rintro (he | he)
        · exact he ▸ hm
        · exact he.2
      · intro he
        by_cases heq : e = h
        · exact Or.inl heq
        · exact Or.inr ⟨heq, he⟩
    have hne : ∀ e ∈ c.list.erase h, key ≠ c.keyOf e := by
      intro e he heq
      have he2 := (hi.nodup.mem_erase_iff).1 he
      exact he2.1 (hi.key_inj he2.2 hm (by rw [hk, heq]))
    refine ⟨?_, ?_, ?_, ?_, ?_, ?_⟩
    · refine List.nodup_cons.2 ⟨?_, hi.nodup.erase _⟩
      intro hmm
      exact ((hi.nodup.mem_erase_iff).1 hmm).1 rfl
    · intro e he
      exact hi.inRange e ((hmem e).1 he)
    · intro k h2
      rw [hmem h2]
      exact hi.table k h2
    · intro e he
      rw [hp]
      exact hi.fromPut e ((hmem e).1 he)
    · refine List.pairwise_cons.2 ⟨?_, ?_⟩
      · intro e he
        have hk2 : c.keyOf h = key := hk
        have h1 := hne e he
        have := hi.bound (c.keyOf e)
        simp only [LRUCache.keyOf] at hk2 h1 this ⊢
        rw [hk2, if_pos rfl, if_neg h1]
        omega
      · refine (hi.order.sublist (List.erase_sublist _ _)).imp_of_mem ?_
        intro a b ha hb2 hab
        have h1 := hne a ha
        have h2 := hne b hb2
        simp only [LRUCache.keyOf] at h1 h2 hab ⊢
        rw [if_neg h1, if_neg h2]
        exact hab
    · intro k
      have := hb k
      simp only [List.length_append, List.length_singleton] at this ⊢
      split <;> omega

theorem LRUCache.lru_inv_step {c : LRUCache} {ops : List Op} {la : String → Nat}
    (hi : c.Inv ops la) (op : Op) (hfresh : ∀ k, op.putKey = some k → k ∉ ops.filterMap Op.putKey) :
    (c.step op).Inv (ops ++ [op])
      (fun k => if c.accessed op k = true then ops.length + 1 else la k) := by
  cases op with
  | put key value now =>
    have := LRUCache.lru_inv_put hi key value now (hfresh key rfl)
    simpa only [LRUCache.step, LRUCache.accessed, beq_iff_eq] using this
  | get key now => exact LRUCache.lru_inv_get hi key now
  | has key =>
    simp only [LRUCache.step, LRUCache.accessed, Bool.false_eq_true, if_false]
    refine ⟨hi.nodup, hi.inRange, hi.table, ?_, hi.order, ?_⟩
    · intro e he
      simp only [List.filterMap_append, List.mem_append]
      exact Or.inl (hi.fromPut e he)
    · intro k
      have := hi.bound k
      simp only [List.length_append, List.length_singleton]
      omega

theorem LRUCache.lru_inv_run (size : Int) (ops : List Op) (hk : (ops.filterMap Op.putKey).Nodup) :
    ((NewLRUCache size).run ops).Inv ops ((NewLRUCache size).lastAccess ops) := by
  induction ops using List.reverseRecOn with
  | nil => exact LRUCache.lru_inv_new size
  | append_singleton ops op ih =>
    rw [List.filterMap_append, List.nodup_append] at hk
    have h := LRUCache.lru_inv_step (ih hk.1) op (by
      intro k hop hmem
      exact hk.2.2 hmem (by simp [hop]))
    rw [LRUCache.run_append]
    have hla : (NewLRUCache size).lastAccess (ops ++ [op]) =
        fun k => if ((NewLRUCache size).run ops).accessed op k = true then ops.length + 1
          else (NewLRUCache size).lastAccess ops k := by
      funext k
      exact LRUCache.lastAccess_append _ ops op k
    rw [hla]
    exact h

theorem pairwise_getLastD {R : Nat → Nat → Prop} (l : List Nat) (d : Nat)
    (hp : l.Pairwise R) : ∀ a ∈ l, a ≠ l.getLastD d → R a (l.getLastD d) := by
  induction l generalizing d with
  | nil => intro a ha; simp at ha
  | cons b l ih =>
    intro a ha hne
    rw [List.getLastD_cons] at hne ⊢
    obtain ⟨h1, h2⟩ := List.pairwise_cons.1 hp
    cases l with
    | nil =>
      simp only [List.mem_singleton] at ha
      exact absurd ha (by simpa using hne)
    | cons c l =>
      rcases List.mem_cons.1 ha with ha | ha
      · subst ha
        exact h1 _ (getLastD_mem _ _ (by simp))
      · exact ih a h2 a ha hne

/-- C1. After any calls on a fresh LRU cache whose `Put` keys are pairwise distinct, the keys
with `Has` true are exactly the keys of the recency list, the list read front to back is in
strictly decreasing order of latest access (a `Put` or a `Get` that hit), and an entry that a
further `Put` removes has an older latest access than every other entry held. -/
theorem lru_list_ordered_by_latest_access (size : Int) (ops : List Op)
    (hk : (ops.filterMap Op.putKey).Nodup) :
    (∀ k, ((NewLRUCache size).run ops).Has k = true ↔ k ∈ ((NewLRUCache size).run ops).keys) ∧
    ((NewLRUCache size).run ops).keys.Pairwise
      (fun a b => (NewLRUCache size).lastAccess ops a > (NewLRUCache size).lastAccess ops b) ∧
    (∀ key value now e, e ∈ ((NewLRUCache size).run ops).list →
      e ∉ (((NewLRUCache size).run ops).Put key value now).1.list →
      ∀ e2 ∈ ((NewLRUCache size).run ops).list, e2 ≠ e →
        (NewLRUCache size).lastAccess ops (((NewLRUCache size).run ops).keyOf e) <
        (NewLRUCache size).lastAccess ops (((NewLRUCache size).run ops).keyOf e2)) := by
  have hi := LRUCache.lru_inv_run size ops hk
  generalize (NewLRUCache size).run ops = c at hi
  generalize (NewLRUCache size).lastAccess ops = la at hi
  refine ⟨?_, ?_, ?_⟩
  · intro k
    simp only [LRUCache.Has, LRUCache.keys, List.mem_map, Option.isSome_iff_exists]
    constructor
    · rintro ⟨h, hh⟩
      exact ⟨h, (hi.table k h).1 hh⟩
    · rintro ⟨h, hh⟩
      exact ⟨h, (hi.table k h).2 hh⟩
  · exact List.pairwise_map.2 hi.order
  · intro key value now e he hne e2 he2 hne2
    simp only [LRUCache.Put, List.mem_cons, not_or] at hne
    have hlen : c.list.length > 0 := List.length_pos_of_mem he
    split at hne
    · simp only [LRUCache.evict, if_pos hlen, listRemove, hi.nodup.mem_erase_iff, not_and] at hne
      have heq : e = listBack c.list := by
        by_contra hcon
        exact hne.2 hcon he
      subst heq
      exact pairwise_getLastD c.list 0 hi.order e2 he2 hne2
    · exact absurd he hne.2

theorem lru_list_ordered_by_latest_access_witness :
    (lruScenario.filterMap Op.putKey).Nodup ∧
    ((NewLRUCache 100).run lruScenario).keys.Pairwise
      (fun a b => (NewLRUCache 100).lastAccess lruScenario a >
        (NewLRUCache 100).lastAccess lruScenario b) ∧
    ((NewLRUCache 100).run lruScenario).keys = ["key3", "key2"] ∧
    ((NewLRUCache 100).run lruScenario).Has "key1" = false ∧
    ((NewLRUCache 100).run lruScenario).Size = 70 :=
  ⟨by decide, (lru_list_ordered_by_latest_access 100 lruScenario (by decide)).2.1,
    by decide, by decide, by decide⟩

/-! ## GDSF: the admission loop on the scenarios of the tests -/

/-- C2. On both scenarios of the tests (`maxSize` 100, `maxEvictions` 100, 90 bytes held, a
30-byte value arrives and the removal of either entry would make it fit) `Put` returns `nil`
without evicting: all three keys are present, three entries are queued and `Size()` is 120. -/
theorem gdsf_put_fitting_eviction_skipped :
    ((((NewGDSFCache 100 100).run basicScenario).Put "key3" (blob 30) 6).2 = none ∧
      (((NewGDSFCache 100 100).run basicScenario).Put "key3" (blob 30) 6).1.Has "key1" = true ∧
      (((NewGDSFCache 100 100).run basicScenario).Put "key3" (blob 30) 6).1.queue.Len = 3 ∧
      (((NewGDSFCache 100 100).run basicScenario).Put "key3" (blob 30) 6).1.Size = 120) ∧
    ((((NewGDSFCache 100 100).run lowerCountScenario).Put "key3" (blob 30) 7).2 = none ∧
      (((NewGDSFCache 100 100).run lowerCountScenario).Put "key3" (blob 30) 7).1.Has "key2" = true ∧
      (((NewGDSFCache 100 100).run lowerCountScenario).Put "key3" (blob 30) 7).1.queue.Len = 3) := by
  decide

/-- C5. With `maxSize` 100, `maxEvictions` 1 and entries of 50 and 40 bytes held, `Put` of a
90-byte value returns `nil`: it evicts `key1`, keeps `key2` and leaves `Size()` at 130. -/
theorem gdsf_put_oversized_no_error :
    (((NewGDSFCache 100 1).run fullScenario).Put "key3" (blob 90) 3).2 = none ∧
    (((NewGDSFCache 100 1).run fullScenario).Put "key3" (blob 90) 3).1.Has "key1" = false ∧
    (((NewGDSFCache 100 1).run fullScenario).Put "key3" (blob 90) 3).1.Has "key2" = true ∧
    (((NewGDSFCache 100 1).run fullScenario).Put "key3" (blob 90) 3).1.Has "key3" = true ∧
    (((NewGDSFCache 100 1).run fullScenario).Put "key3" (blob 90) 3).1.Size = 130 := by
  decide

/-- C7. A `Put` that returns `nil` can leave the cache over budget: on the scenario of the test
"basic check" `Size()` is 120 with `maxSize` 100, and a fresh cache of `maxSize` 10 accepts a
20-byte value. -/
theorem gdsf_put_success_over_budget :
    ((((NewGDSFCache 100 100).run basicScenario).Put "key3" (blob 30) 6).2 = none ∧
      (((NewGDSFCache 100 100).run basicScenario).Put "key3" (blob 30) 6).1.Size = 120 ∧
      (((NewGDSFCache 100 100).run basicScenario).Put "key3" (blob 30) 6).1.maxSize = 100) ∧
    (((NewGDSFCache 10 100).Put "key1" (blob 20) 1).2 = none ∧
      ((NewGDSFCache 10 100).Put "key1" (blob 20) 1).1.Size = 20) := by
  decide

/-- C9. On the scenario of the test "priority queue check, same count" both entries have count
3 and equal priority, the last `Put` returns `nil` and evicts nothing: `key1` is still present.
The root of the heap, which `evict` would pop, is the entry of `key2`. -/
theorem gdsf_same_count_nothing_evicted :
    (((NewGDSFCache 100 100).run sameCountScenario).queue.nodes.map
        (fun nd => (nd.key, nd.count, nd.priority)) =
      [("key1", 3, F64.val 3), ("key2", 3, F64.val 3)]) ∧
    (((NewGDSFCache 100 100).run sameCountScenario).Put "key3" (blob 30) 7).2 = none ∧
    (((NewGDSFCache 100 100).run sameCountScenario).Put "key3" (blob 30) 7).1.Has "key1" = true ∧
    (((NewGDSFCache 100 100).run sameCountScenario).Put "key3" (blob 30) 7).1.Has "key2" = true ∧
    (((NewGDSFCache 100 100).run sameCountScenario).queue.node 0).key = "key2" := by
  decide

/-! ## GDSF: a failed `Put` changes nothing -/

/-- The admission loop either leaves the cache as it is, or has stopped at the `break` with
`itemsToEvict` within `maxEvictions`. -/
theorem GDSFCache.scan_unchanged_or_within (c : GDSFCache) (size : Int) (fuel it : Nat)
    (es : Int) :
    (c.scan size fuel it es).1 = c ∨ ((c.scan size fuel it es).2.1 : Int) ≤ c.maxEvictions := by
  induction fuel generalizing it es with
  | zero => exact Or.inl rfl
  | succ fuel ih =>
    simp only [GDSFCache.scan]
    split
    · rename_i hc
      split
      · right
        simp only [Bool.and_eq_true, decide_eq_true_eq] at hc
        exact hc.1
      · exact ih _ _
    · exact Or.inl rfl

/-- C6. In every state, a `Put` that returns an error returns the cache it was called on: table,
nodes, heap slots, `usedSize` and `L` are those before the call. -/
theorem gdsf_put_error_leaves_cache_unchanged (c : GDSFCache) (key : String) (value : Bytes)
    (now : Nat) (e : PutError) (herr : (c.Put key value now).2 = some e) :
    (c.Put key value now).1 = c := by
  unfold GDSFCache.Put at herr ⊢
  simp only at herr ⊢
  split at herr
  · rename_i hover
    rw [if_pos hover]
    split at herr
    · rename_i hmax
      rw [if_pos hmax]
      rcases GDSFCache.scan_unchanged_or_within c (value.length : Int) c.queue.Len 1 0 with h | h
      · exact h
      · omega
    · simp at herr
  · simp at herr

theorem gdsf_put_error_leaves_cache_unchanged_witness :
    (((NewGDSFCache 100 1).run fullScenario).Put "key3" (blob 30) 3).2 =
        some (.objectTooBig 30 1 40 100) ∧
    (((NewGDSFCache 100 1).run fullScenario).Put "key3" (blob 30) 3).1 =
        (NewGDSFCache 100 1).run fullScenario :=
  ⟨by decide, gdsf_put_error_leaves_cache_unchanged _ "key3" (blob 30) 3
    (.objectTooBig 30 1 40 100) (by decide)⟩

/-! ## Slices of node pointers: effect of `Swap` -/

theorem getD_set {α : Type} (l : List α) (h k : Nat) (v d : α) :
    (l.set h v).getD k d = if k = h ∧ h < l.length then v else l.getD k d := by
  simp only [List.getD_eq_getElem?_getD, List.getElem?_set]
  by_cases hk : h = k
  · subst hk
    by_cases hl : h < l.length
    · simp [hl]
    · simp [hl, List.getElem?_eq_none (Nat.le_of_not_lt hl)]
  · have hk2 : ¬ k = h := fun e => hk e.symm
    simp [hk, hk2]

theorem getD_swap (l : List Nat) (i j k : Nat) (hi : i < l.length) (hj : j < l.length) :
    ((l.set i (l.getD j 0)).set j (l.getD i 0)).getD k 0 = l.getD (swapIdx i j k) 0 := by
  rw [getD_set, getD_set]
  simp only [List.length_set, swapIdx]
  by_cases h1 : k = j
  · simp [h1, hj]
  · by_cases h2 : k = i
    · subst h2
      simp [h1, hi]
    · simp [h1, h2]

theorem mem_iff_getD (l : List Nat) (h : Nat) :
    h ∈ l ↔ ∃ i, i < l.length ∧ l.getD i 0 = h := by
  constructor
  · intro hm
    obtain ⟨i, hi, rfl⟩ := List.getElem_of_mem hm
    exact ⟨i, hi, by simp [List.getD_eq_getElem?_getD, List.getElem?_eq_getElem hi]⟩
  · rintro ⟨i, hi, rfl⟩
    simp [List.getD_eq_getElem?_getD, List.getElem?_eq_getElem hi]

theorem perm_swap (l : List Nat) (i j : Nat) (hi : i < l.length) (hj : j < l.length) :
    ((l.set i (l.getD j 0)).set j (l.getD i 0)).Perm l := by
  rw [List.perm_iff_count]
  intro a
  have hj2 : j < (l.set i (l.getD j 0)).length := by simpa using hj
  rw [List.count_set _ _ _ _ hj2, List.count_set _ _ _ _ hi]
  have e1 : l.getD i 0 = l[i] := by simp [List.getD_eq_getElem?_getD, hi]
  have e2 : l.getD j 0 = l[j] := by simp [List.getD_eq_getElem?_getD, hj]
  have e3 : (l.set i (l.getD j 0))[j] = l[j] := by
    rw [List.getElem_set]
    split
    · rename_i h; subst h; exact e2
    · rfl
  rw [e3, e1, e2]
  have c1 : (if (l[i] == a) = true then 1 else 0) ≤ l.count a := by
    split
    · rename_i h
      have : l[i] = a := by simpa using h
      exact List.count_pos_iff.2 (this ▸ List.getElem_mem hi)
    · omega
  have c2 : (if (l[j] == a) = true then 1 else 0) ≤
      l.count a - (if (l[i] == a) = true then 1 else 0) + (if (l[j] == a) = true then 1 else 0) := by
    omega
  omega

namespace PtrSlice

variable {N : Type} [HeapNode N]

theorem deref_update (q : PtrSlice N) (h k : Nat) (f : N → N) :
    (q.update h f).deref k = if k = h ∧ h < q.nodes.length then f (q.deref h) else q.deref k := by
  simp only [deref, update]
  exact getD_set _ _ _ _ _

theorem Swap_slots (q : PtrSlice N) (i j : Nat) :
    (q.Swap i j).slots = (q.slots.set i (q.slots.getD j 0)).set j (q.slots.getD i 0) := rfl

theorem Swap_Len (q : PtrSlice N) (i j : Nat) : (q.Swap i j).Len = q.Len := by
  simp [Len, Swap_slots]

theorem Swap_nodes_length (q : PtrSlice N) (i j : Nat) :
    (q.Swap i j).nodes.length = q.nodes.length := by
  simp [Swap, update]

theorem Swap_slots_getD (q : PtrSlice N) (i j k : Nat) (hi : i < q.Len) (hj : j < q.Len) :
    (q.Swap i j).slots.getD k 0 = q.slots.getD (swapIdx i j k) 0 :=
  getD_swap q.slots i j k hi hj

theorem Swap_slots_perm (q : PtrSlice N) (i j : Nat) (hi : i < q.Len) (hj : j < q.Len) :
    (q.Swap i j).slots.Perm q.slots :=
  perm_swap q.slots i j hi hj

theorem update_deref_indexFree {α : Type} (f : N → α) (hf : IndexFree f) (q : PtrSlice N)
    (h k : Nat) (i : Int) :
    f ((q.update h (fun x => HeapNode.setIndex x i)).deref k) = f (q.deref k) := by
  rw [deref_update]
  split
  · rename_i h1
    rw [hf, h1.1]
  · rfl

/-- After `Swap` a pointer leads to the node it led to before, up to its `index` field. -/
theorem Swap_deref_indexFree {α : Type} (f : N → α) (hf : IndexFree f) (q : PtrSlice N)
    (i j h : Nat) : f ((q.Swap i j).deref h) = f (q.deref h) := by
  simp only [Swap]
  rw [update_deref_indexFree f hf, update_deref_indexFree f hf]
  rfl

theorem indexFree_less_left [LawfulHeapNode N] (y : N) :
    IndexFree (fun x : N => HeapNode.less x y) :=
  fun x i => LawfulHeapNode.less_setIndex_left x y i

theorem indexFree_less_right [LawfulHeapNode N] (x : N) :
    IndexFree (fun y : N => HeapNode.less x y) :=
  fun y i => LawfulHeapNode.less_setIndex_right x y i

theorem swapIdx_lt (i j k n : Nat) (hi : i < n) (hj : j < n) (hk : k < n) :
    swapIdx i j k < n := by
  unfold swapIdx
  split
  · exact hi
  · split
    · exact hj
    · exact hk

theorem swapIdx_swapIdx (i j k : Nat) : swapIdx i j (swapIdx i j k) = k := by
  unfold swapIdx
  by_cases h1 : k = j
  · by_cases h2 : i = j
    · simp [h1, h2]
    · simp [h1, h2]
  · by_cases h2 : k = i
    · simp [h1, h2]
    · simp [h1, h2]

/-- Comparing two slots after `Swap` is comparing the exchanged slots before. -/
theorem Less_Swap [LawfulHeapNode N] (q : PtrSlice N) (i j a b : Nat) (hi : i < q.Len)
    (hj : j < q.Len) :
    (q.Swap i j).Less a b = q.Less (swapIdx i j a) (swapIdx i j b) := by
  simp only [Less, node]
  rw [Swap_slots_getD q i j a hi hj, Swap_slots_getD q i j b hi hj]
  rw [Swap_deref_indexFree (fun x => HeapNode.less x _) (indexFree_less_left _)]
  rw [Swap_deref_indexFree (fun y => HeapNode.less _ y) (indexFree_less_right _)]

theorem WF.slots_inj {q : PtrSlice N} (hw : q.WF) {a b : Nat} (ha : a < q.slots.length)
    (hb : b < q.slots.length) (hab : q.slots.getD a 0 = q.slots.getD b 0) : a = b := by
  have h1 := hw.indexOK a ha
  have h2 := hw.indexOK b hb
  simp only [node] at h1 h2
  rw [hab, h2] at h1
  exact_mod_cast h1.symm

theorem WF.nodup {q : PtrSlice N} (hw : q.WF) : q.slots.Nodup := by
  rw [List.nodup_iff_injective_get]
  intro a b hab
  apply Fin.ext
  apply hw.slots_inj a.2 b.2
  simp only [List.getD_eq_getElem?_getD, List.getElem?_eq_getElem a.2,
    List.getElem?_eq_getElem b.2, Option.getD_some]
  simpa using hab

theorem WF.mem_inRange {q : PtrSlice N} (hw : q.WF) {h : Nat} (hm : h ∈ q.slots) :
    h < q.nodes.length := by
  obtain ⟨i, hi, rfl⟩ := List.getElem_of_mem hm
  have := hw.inRange i hi
  simpa [List.getD_eq_getElem?_getD, List.getElem?_eq_getElem hi] using this

theorem WF.Swap [LawfulHeapNode N] {q : PtrSlice N} (hw : q.WF) (i j : Nat) (hi : i < q.Len)
    (hj : j < q.Len) : (q.Swap i j).WF := by
  have hlen : (q.Swap i j).slots.length = q.slots.length := Swap_Len q i j
  constructor
  · intro k hk
    rw [hlen] at hk
    rw [Swap_slots_getD q i j k hi hj, Swap_nodes_length]
    exact hw.inRange _ (swapIdx_lt i j k _ hi hj hk)
  · intro k hk
    rw [hlen] at hk
    simp only [node]
    rw [Swap_slots_getD q i j k hi hj]
    have hSi : ((q.slots.set i (q.slots.getD j 0)).set j (q.slots.getD i 0)).getD i 0 =
        q.slots.getD (swapIdx i j i) 0 := getD_swap q.slots i j i hi hj
    have hSj : ((q.slots.set i (q.slots.getD j 0)).set j (q.slots.getD i 0)).getD j 0 =
        q.slots.getD (swapIdx i j j) 0 := getD_swap q.slots i j j hi hj
    have hjj : swapIdx i j j = i := by simp [swapIdx]
    simp only [PtrSlice.Swap]
    rw [deref_update]
    simp only [update, hSi, hSj, hjj, List.length_set]
    split
    · rename_i h1
      have hk2 : swapIdx i j k = i :=
        hw.slots_inj (swapIdx_lt i j k _ hi hj hk) hi h1.1
      have hkj : k = j := by
        have := congrArg (swapIdx i j) hk2
        rw [swapIdx_swapIdx] at this
        rw [this]
        simp [swapIdx]
      rw [LawfulHeapNode.index_setIndex, hkj]
    · rename_i h1
      have hne : ¬ swapIdx i j k = i := by
        intro he
        apply h1
        rw [he]
        exact ⟨rfl, hw.inRange i hi⟩
      have hdu := deref_update ({ q with slots :=
        (q.slots.set i (q.slots.getD j 0)).set j (q.slots.getD i 0) } : PtrSlice N)
        (q.slots.getD (swapIdx i j i) 0) (q.slots.getD (swapIdx i j k) 0)
        (fun x => HeapNode.setIndex x (i : Int))
      simp only [update] at hdu
      rw [hdu]
      split
      · rename_i h2
        have hk2 : swapIdx i j k = swapIdx i j i :=
          hw.slots_inj (swapIdx_lt i j k _ hi hj hk) (swapIdx_lt i j i _ hi hj hi) h2.1
        have hki : k = i := by
          have := congrArg (swapIdx i j) hk2
          rwa [swapIdx_swapIdx, swapIdx_swapIdx] at this
        rw [LawfulHeapNode.index_setIndex, hki]
      · rename_i h2
        have hne2 : ¬ swapIdx i j k = swapIdx i j i := by
          intro he
          apply h2
          rw [he]
          exact ⟨rfl, hw.inRange _ (swapIdx_lt i j i _ hi hj hi)⟩
        have hkk : swapIdx i j k = k := by
          unfold swapIdx at hne hne2 ⊢
          by_cases e1 : k = j
          · simp [e1] at hne
          · by_cases e2 : k = i
            · simp [e2] at hne2
            · simp [e1, e2]
        rw [hkk]
        exact hw.indexOK k hk

end PtrSlice

/-! ## What every sequence of `Swap`s preserves -/

namespace Swaps

variable {N : Type} [HeapNode N]

theorem Len_eq {q1 q2 : PtrSlice N} (h : Swaps q1 q2) : q2.Len = q1.Len := by
  induction h with
  | refl => rfl
  | step i j _ _ _ ih => rw [PtrSlice.Swap_Len, ih]

theorem nodes_length {q1 q2 : PtrSlice N} (h : Swaps q1 q2) :
    q2.nodes.length = q1.nodes.length := by
  induction h with
  | refl => rfl
  | step i j _ _ _ ih => rw [PtrSlice.Swap_nodes_length, ih]

theorem perm {q1 q2 : PtrSlice N} (h : Swaps q1 q2) : q2.slots.Perm q1.slots := by
  induction h with
  | refl => exact List.Perm.refl _
  | step i j _ hi hj ih => exact (PtrSlice.Swap_slots_perm _ i j hi hj).trans ih

theorem deref_indexFree {α : Type} (f : N → α) (hf : IndexFree f) {q1 q2 : PtrSlice N}
    (h : Swaps q1 q2) (x : Nat) : f (q2.deref x) = f (q1.deref x) := by
  induction h with
  | refl => rfl
  | step i j _ _ _ ih => rw [PtrSlice.Swap_deref_indexFree f hf, ih]

theorem wf [LawfulHeapNode N] {q1 q2 : PtrSlice N} (h : Swaps q1 q2) (hw : q1.WF) : q2.WF := by
  induction h with
  | refl => exact hw
  | step i j _ hi hj ih => exact ih.Swap i j hi hj

theorem trans {q1 q2 q3 : PtrSlice N} (h12 : Swaps q1 q2) (h23 : Swaps q2 q3) : Swaps q1 q3 := by
  induction h23 with
  | refl => exact h12
  | step i j _ hi hj ih => exact Swaps.step i j ih hi hj

theorem lessOrder [LawfulHeapNode N] {q1 q2 : PtrSlice N} (h : Swaps q1 q2)
    (ho : q1.LessOrder) : q2.LessOrder := by
  induction h with
  | refl => exact ho
  | @step q2 i j _ hi hj ih =>
    have hs : ∀ k, k < (q2.Swap i j).Len → swapIdx i j k < q2.Len := by
      intro k hk
      rw [PtrSlice.Swap_Len] at hk
      exact PtrSlice.swapIdx_lt i j k _ hi hj hk
    constructor
    · intro a b ha hb
      rw [PtrSlice.Less_Swap q2 i j a b hi hj, PtrSlice.Less_Swap q2 i j b a hi hj]
      exact ih.asymm _ _ (hs a ha) (hs b hb)
    · intro a b c ha hb hc
      rw [PtrSlice.Less_Swap q2 i j a b hi hj, PtrSlice.Less_Swap q2 i j b c hi hj,
        PtrSlice.Less_Swap q2 i j a c hi hj]
      exact ih.trans _ _ _ (hs a ha) (hs b hb) (hs c hc)
    · intro a b c ha hb hc
      rw [PtrSlice.Less_Swap q2 i j b a hi hj, PtrSlice.Less_Swap q2 i j c b hi hj,
        PtrSlice.Less_Swap q2 i j c a hi hj]
      exact ih.negTrans _ _ _ (hs a ha) (hs b hb) (hs c hc)

end Swaps

namespace heap

variable {N : Type} [HeapNode N]

theorem upLoop_swaps (fuel : Nat) (q : PtrSlice N) (j : Nat) (hj : j < q.Len) :
    Swaps q (upLoop fuel q j) := by
  induction fuel generalizing q j with
  | zero => exact Swaps.refl q
  | succ fuel ih =>
    simp only [upLoop]
    split
    · exact Swaps.refl q
    · have hi : (j - 1) / 2 < q.Len := by omega
      have h1 : Swaps q (q.Swap ((j - 1) / 2) j) := Swaps.step _ _ (Swaps.refl q) hi hj
      exact h1.trans (ih _ _ (by rw [PtrSlice.Swap_Len]; exact hi))

theorem up_swaps (q : PtrSlice N) (j : Nat) (hj : j < q.Len) : Swaps q (up q j) :=
  upLoop_swaps j q j hj

theorem minChild_lt (q : PtrSlice N) (i n : Nat) (h : 2 * i + 1 < n) : minChild q i n < n := by
  simp only [minChild]
  split
  · rename_i hc
    simp only [Bool.and_eq_true, decide_eq_true_eq] at hc
    exact hc.1
  · exact h

theorem minChild_cases (q : PtrSlice N) (i n : Nat) :
    minChild q i n = 2 * i + 1 ∨ minChild q i n = 2 * i + 2 := by
  simp only [minChild]
  split
  · exact Or.inr rfl
  · exact Or.inl rfl

theorem downLoop_swaps (fuel : Nat) (q : PtrSlice N) (i n : Nat) (hn : n ≤ q.Len) :
    Swaps q (downLoop fuel q i n).1 := by
  induction fuel generalizing q i with
  | zero => exact Swaps.refl q
  | succ fuel ih =>
    simp only [downLoop]
    split
    · exact Swaps.refl q
    · rename_i hj1
      split
      · exact Swaps.refl q
      · have hjn : minChild q i n < n := minChild_lt q i n (by omega)
        have hji := minChild_cases q i n
        have h1 : Swaps q (q.Swap i (minChild q i n)) :=
          Swaps.step i _ (Swaps.refl q) (by omega) (Nat.lt_of_lt_of_le hjn hn)
        exact h1.trans (ih _ _ (by rw [PtrSlice.Swap_Len]; exact hn))

theorem down_swaps (q : PtrSlice N) (i n : Nat) (hn : n ≤ q.Len) : Swaps q (down q i n).1 :=
  downLoop_swaps n q i n hn

theorem Fix_swaps (q : PtrSlice N) (i : Nat) (hi : i < q.Len) : Swaps q (Fix q i) := by
  simp only [Fix]
  have h1 := down_swaps q i q.Len (Nat.le_refl _)
  split
  · exact h1.trans (up_swaps _ i (by rw [h1.Len_eq]; exact hi))
  · exact h1

end heap

/-! ## `Push` and `Pop` of the slice, `heap.Push`, `heap.Pop` and `heap.Fix` -/

namespace PtrSlice

variable {N : Type} [HeapNode N]

theorem Push_slots (q : PtrSlice N) (x : Nat) : (q.Push x).slots = q.slots ++ [x] := rfl

theorem Push_nodes_length (q : PtrSlice N) (x : Nat) :
    (q.Push x).nodes.length = q.nodes.length := by
  simp [Push, update]

theorem Push_deref_indexFree {α : Type} (f : N → α) (hf : IndexFree f) (q : PtrSlice N)
    (x h : Nat) : f ((q.Push x).deref h) = f (q.deref h) :=
  update_deref_indexFree f hf q x h _

theorem getD_append_singleton (l : List Nat) (x k : Nat) :
    (l ++ [x]).getD k 0 = if k < l.length then l.getD k 0 else if k = l.length then x else 0 := by
  simp only [List.getD_eq_getElem?_getD]
  by_cases h1 : k < l.length
  · simp [h1, List.getElem?_append_left h1]
  · by_cases h2 : k = l.length
    · subst h2
      simp
    · have h3 : l.length + 1 ≤ k := by omega
      have h4 : (l ++ [x]).length ≤ k := by simpa using h3
      simp [h1, h2, List.getElem?_eq_none h4]

theorem Push_deref (q : PtrSlice N) (x h : Nat) :
    (q.Push x).deref h =
      (q.update x (fun y => HeapNode.setIndex y (q.slots.length : Int))).deref h := rfl

theorem Pop_deref (q : PtrSlice N) (h : Nat) :
    q.Pop.1.deref h =
      (q.update (q.slots.getD (q.slots.length - 1) 0)
        (fun y => HeapNode.setIndex y (-1))).deref h := rfl

theorem WF.Push [LawfulHeapNode N] {q : PtrSlice N} (hw : q.WF) (x : Nat)
    (hx : x < q.nodes.length) (hnew : x ∉ q.slots) : (q.Push x).WF := by
  have hne : ∀ k, k < q.slots.length → q.slots.getD k 0 ≠ x := by
    intro k hk he
    apply hnew
    rw [← he]
    simp [List.getD_eq_getElem?_getD, List.getElem?_eq_getElem hk]
  constructor
  · intro k hk
    rw [Push_nodes_length, Push_slots, getD_append_singleton]
    rw [Push_slots, List.length_append, List.length_singleton] at hk
    split
    · rename_i h1
      exact hw.inRange k h1
    · rw [if_pos (by omega)]
      exact hx
  · intro k hk
    rw [Push_slots, List.length_append, List.length_singleton] at hk
    simp only [node, Push_slots, getD_append_singleton]
    rw [Push_deref, deref_update]
    by_cases h1 : k < q.slots.length
    · rw [if_pos h1, if_neg (fun h => hne k h1 h.1)]
      exact hw.indexOK k h1
    · have hk2 : k = q.slots.length := by omega
      rw [if_neg h1, if_pos hk2, if_pos ⟨rfl, hx⟩, LawfulHeapNode.index_setIndex, hk2]

theorem Pop_slots (q : PtrSlice N) : q.Pop.1.slots = q.slots.take (q.slots.length - 1) := rfl

theorem Pop_nodes_length (q : PtrSlice N) : q.Pop.1.nodes.length = q.nodes.length := by
  simp [Pop, update]

theorem Pop_deref_indexFree {α : Type} (f : N → α) (hf : IndexFree f) (q : PtrSlice N)
    (h : Nat) : f (q.Pop.1.deref h) = f (q.deref h) :=
  update_deref_indexFree f hf q _ h _

theorem Pop_slots_append (q : PtrSlice N) (hq : 0 < q.Len) :
    q.slots = q.Pop.1.slots ++ [q.Pop.2] := by
  have hne : q.slots ≠ [] := by
    intro h
    simp [Len, h] at hq
  have h1 := List.dropLast_append_getLast hne
  rw [Pop_slots, ← List.dropLast_eq_take]
  have h2 : q.Pop.2 = q.slots.getLast hne := by
    simp only [Pop, List.getD_eq_getElem?_getD]
    rw [List.getLast_eq_getElem]
    have : q.slots.length - 1 < q.slots.length := by
      simp only [Len] at hq
      omega
    simp [List.getElem?_eq_getElem this]
  rw [h2, h1]

theorem getD_take (l : List Nat) (n k : Nat) (hk : k < n) : (l.take n).getD k 0 = l.getD k 0 := by
  simp [List.getD_eq_getElem?_getD, List.getElem?_take_of_lt hk]

theorem WF.Pop [LawfulHeapNode N] {q : PtrSlice N} (hw : q.WF) : q.Pop.1.WF := by
  constructor
  · intro k hk
    rw [Pop_slots, List.length_take] at hk
    rw [Pop_nodes_length, Pop_slots, getD_take _ _ _ (by omega)]
    exact hw.inRange k (by omega)
  · intro k hk
    rw [Pop_slots, List.length_take] at hk
    simp only [node, Pop_slots]
    rw [getD_take _ _ _ (by omega)]
    rw [Pop_deref, deref_update]
    split
    · rename_i h1
      have hk1 : k < q.slots.length := by omega
      have hk2 : q.slots.length - 1 < q.slots.length := by omega
      have := hw.slots_inj hk1 hk2 h1.1
      omega
    · exact hw.indexOK k (by omega)

end PtrSlice

namespace heap

variable {N : Type} [HeapNode N]

theorem Push_swaps (q : PtrSlice N) (x : Nat) : Swaps (q.Push x) (Push q x) := by
  simp only [Push]
  exact up_swaps _ _ (by simp [PtrSlice.Len, PtrSlice.Push_slots])

theorem Push_perm (q : PtrSlice N) (x : Nat) : (Push q x).slots.Perm (x :: q.slots) := by
  refine (Push_swaps q x).perm.trans ?_
  rw [PtrSlice.Push_slots]
  exact List.perm_append_singleton x q.slots

theorem heapPush_nodes_length (q : PtrSlice N) (x : Nat) :
    (Push q x).nodes.length = q.nodes.length := by
  rw [(Push_swaps q x).nodes_length, PtrSlice.Push_nodes_length]

theorem heapPush_deref_indexFree {α : Type} (f : N → α) (hf : IndexFree f) (q : PtrSlice N)
    (x h : Nat) : f ((Push q x).deref h) = f (q.deref h) := by
  rw [(Push_swaps q x).deref_indexFree f hf, PtrSlice.Push_deref_indexFree f hf]

theorem Push_wf [LawfulHeapNode N] {q : PtrSlice N} (hw : q.WF) (x : Nat)
    (hx : x < q.nodes.length) (hnew : x ∉ q.slots) : (Push q x).WF :=
  (Push_swaps q x).wf (hw.Push x hx hnew)

/-- The slice on which `heap.Pop` calls the method `Pop`. -/
theorem Pop_swaps (q : PtrSlice N) (hq : 0 < q.Len) :
    Swaps q (down (q.Swap 0 (q.Len - 1)) 0 (q.Len - 1)).1 := by
  have h1 : Swaps q (q.Swap 0 (q.Len - 1)) :=
    Swaps.step 0 _ (Swaps.refl q) hq (by omega)
  exact h1.trans (down_swaps _ 0 _ (by rw [PtrSlice.Swap_Len]; omega))

theorem Pop_perm (q : PtrSlice N) (hq : 0 < q.Len) :
    q.slots.Perm ((Pop q).2 :: (Pop q).1.slots) := by
  have h1 := Pop_swaps q hq
  have h2 := PtrSlice.Pop_slots_append _ (by rw [h1.Len_eq]; exact hq)
  refine h1.perm.symm.trans ?_
  rw [h2]
  exact List.perm_append_singleton _ _

theorem heapPop_nodes_length (q : PtrSlice N) (hq : 0 < q.Len) :
    (Pop q).1.nodes.length = q.nodes.length := by
  simp only [Pop]
  rw [PtrSlice.Pop_nodes_length, (Pop_swaps q hq).nodes_length]

theorem heapPop_deref_indexFree {α : Type} (f : N → α) (hf : IndexFree f) (q : PtrSlice N)
    (hq : 0 < q.Len) (h : Nat) : f ((Pop q).1.deref h) = f (q.deref h) := by
  simp only [Pop]
  rw [PtrSlice.Pop_deref_indexFree f hf, (Pop_swaps q hq).deref_indexFree f hf]

theorem Pop_wf [LawfulHeapNode N] {q : PtrSlice N} (hw : q.WF) (hq : 0 < q.Len) :
    (Pop q).1.WF :=
  ((Pop_swaps q hq).wf hw).Pop

theorem FixAt_swaps (q : PtrSlice N) (index : Int) (hi : index < q.Len) :
    Swaps q (FixAt q index) := by
  simp only [FixAt]
  split
  · exact Swaps.refl q
  · exact Fix_swaps q _ (by omega)

end heap

/-! ## Heap order -/

theorem swapIdx_left (i j : Nat) : swapIdx i j i = j := by
  unfold swapIdx
  split
  · rename_i h; exact h
  · simp

theorem swapIdx_right (i j : Nat) : swapIdx i j j = i := by
  simp [swapIdx]

theorem swapIdx_of_ne (i j k : Nat) (h1 : k ≠ i) (h2 : k ≠ j) : swapIdx i j k = k := by
  simp [swapIdx, h1, h2]

namespace PtrSlice

variable {N : Type} [HeapNode N]

theorem LessOrder.irrefl {q : PtrSlice N} (ho : q.LessOrder) (a : Nat) (ha : a < q.Len) :
    q.Less a a = false := by
  cases h : q.Less a a with
  | false => rfl
  | true => exact (ho.asymm a a ha ha h).symm.trans h |>.symm ▸ rfl

/-- In a heap-ordered slice no slot is less than the root. -/
theorem HeapOrdered.root_min {q : PtrSlice N} {n : Nat} (hh : q.HeapOrdered n)
    (ho : q.LessOrder) (hn : n ≤ q.Len) : ∀ i, i < n → q.Less i 0 = false := by
  intro i
  induction i using Nat.strong_induction_on with
  | _ i ih =>
    intro hi
    by_cases h0 : i = 0
    · subst h0
      exact ho.irrefl 0 (by omega)
    · have hp : (i - 1) / 2 < i := by omega
      have h1 := ih _ hp (by omega)
      have h2 := hh i (by omega) hi
      exact ho.negTrans 0 ((i - 1) / 2) i (by omega) (by omega) (by omega) h1 h2

end PtrSlice

namespace heap

variable {N : Type} [HeapNode N]

theorem upLoop_heapOrdered [LawfulHeapNode N] (fuel : Nat) (q : PtrSlice N) (j : Nat)
    (ho : q.LessOrder) (hj : j < q.Len) (hf : j ≤ fuel) (hi : q.UpInv q.Len j) :
    (upLoop fuel q j).HeapOrdered q.Len := by
  induction fuel generalizing q j with
  | zero =>
    have hj0 : j = 0 := by omega
    subst hj0
    intro k hk0 hkn
    exact hi.1 k hk0 hkn (by omega)
  | succ fuel ih =>
    simp only [upLoop]
    split
    · rename_i hc
      simp only [Bool.or_eq_true, decide_eq_true_eq, Bool.not_eq_true'] at hc
      intro k hk0 hkn
      by_cases hkj : k = j
      · subst hkj
        rcases hc with hc | hc
        · omega
        · exact hc
      · exact hi.1 k hk0 hkn hkj
    · rename_i hc
      simp only [Bool.or_eq_true, decide_eq_true_eq, Bool.not_eq_true', not_or,
        Bool.not_eq_false] at hc
      obtain ⟨hne, hless⟩ := hc
      have hj0 : 0 < j := by omega
      have hpl : (j - 1) / 2 < q.Len := by omega
      have hinv : (q.Swap ((j - 1) / 2) j).UpInv (q.Swap ((j - 1) / 2) j).Len ((j - 1) / 2) := by
        rw [PtrSlice.Swap_Len]
        constructor
        · intro k hk0 hkn hki
          rw [PtrSlice.Less_Swap q _ _ _ _ hpl hj]
          by_cases hkj : k = j
          · subst hkj
            rw [swapIdx_right, swapIdx_left]
            exact ho.asymm _ _ hj hpl hless
          · rw [swapIdx_of_ne _ _ k hki hkj]
            by_cases hpj : (k - 1) / 2 = j
            · rw [hpj, swapIdx_right]
              exact hi.2 k hk0 hkn hpj hj0
            · by_cases hpi : (k - 1) / 2 = (j - 1) / 2
              · rw [hpi, swapIdx_left]
                have h1 := hi.1 k hk0 hkn hkj
                rw [hpi] at h1
                cases h2 : q.Less k j with
                | false => rfl
                | true =>
                  have := ho.trans k j ((j - 1) / 2) hkn hj hpl h2 hless
                  rw [h1] at this
                  exact absurd this (by simp)
              · rw [swapIdx_of_ne _ _ _ hpi hpj]
                exact hi.1 k hk0 hkn hkj
        · intro c hc0 hcn hpc hi0
          rw [PtrSlice.Less_Swap q _ _ _ _ hpl hj]
          have hpp : swapIdx ((j - 1) / 2) j (((j - 1) / 2 - 1) / 2) = ((j - 1) / 2 - 1) / 2 :=
            swapIdx_of_ne _ _ _ (by omega) (by omega)
          rw [hpp]
          have hip := hi.1 ((j - 1) / 2) hi0 hpl (by omega)
          by_cases hcj : c = j
          · subst hcj
            rw [swapIdx_right]
            exact hip
          · rw [swapIdx_of_ne _ _ c (by omega) hcj]
            have h1 := hi.1 c hc0 hcn hcj
            rw [hpc] at h1
            exact ho.negTrans _ _ _ (by omega) hpl hcn hip h1
      have hs : Swaps q (q.Swap ((j - 1) / 2) j) := Swaps.step _ _ (Swaps.refl q) hpl hj
      have := ih (q.Swap ((j - 1) / 2) j) ((j - 1) / 2) (hs.lessOrder ho)
        (by rw [PtrSlice.Swap_Len]; exact hpl) (by omega) hinv
      rwa [PtrSlice.Swap_Len] at this

/-- Both children of `i` are in order with `i` once the child chosen by `down` is. -/
theorem children_ordered (q : PtrSlice N) (i n : Nat) (ho : q.LessOrder) (hn : n ≤ q.Len)
    (hless : q.Less (minChild q i n) i = false) :
    ∀ c, 0 < c → c < n → (c - 1) / 2 = i → q.Less c i = false := by
  intro c hc0 hcn hpc
  have hc : c = 2 * i + 1 ∨ c = 2 * i + 2 := by omega
  simp only [minChild] at hless
  split at hless
  · rename_i hcond
    simp only [Bool.and_eq_true, decide_eq_true_eq] at hcond
    rcases hc with hc | hc
    · subst hc
      cases h2 : q.Less (2 * i + 1) i with
      | false => rfl
      | true =>
        have := ho.trans (2 * i + 1 + 1) (2 * i + 1) i (by omega) (by omega) (by omega) hcond.2 h2
        rw [hless] at this
        exact absurd this (by simp)
    · subst hc
      exact hless
  · rename_i hcond
    rcases hc with hc | hc
    · subst hc
      exact hless
    · subst hc
      have h3 : q.Less (2 * i + 1 + 1) (2 * i + 1) = false := by
        cases h4 : q.Less (2 * i + 1 + 1) (2 * i + 1) with
        | false => rfl
        | true =>
          exfalso
          apply hcond
          simp only [Bool.and_eq_true, decide_eq_true_eq]
          exact ⟨by omega, h4⟩
      exact ho.negTrans i (2 * i + 1) (2 * i + 2) (by omega) (by omega) (by omega) hless h3

/-- The child chosen by `down` is not greater than its sibling. -/
theorem sibling_ordered (q : PtrSlice N) (i n : Nat) (ho : q.LessOrder) (hn : n ≤ q.Len) :
    ∀ c, 0 < c → c < n → (c - 1) / 2 = i → c ≠ minChild q i n →
      q.Less c (minChild q i n) = false := by
  intro c hc0 hcn hpc hne
  have hc : c = 2 * i + 1 ∨ c = 2 * i + 2 := by omega
  simp only [minChild] at hne ⊢
  split
  · rename_i hcond
    rw [if_pos hcond] at hne
    simp only [Bool.and_eq_true, decide_eq_true_eq] at hcond
    have hc1 : c = 2 * i + 1 := by omega
    subst hc1
    exact ho.asymm _ _ (by omega) (by omega) hcond.2
  · rename_i hcond
    rw [if_neg hcond] at hne
    have hc2 : c = 2 * i + 2 := by omega
    subst hc2
    cases h4 : q.Less (2 * i + 2) (2 * i + 1) with
    | false => rfl
    | true =>
      exfalso
      apply hcond
      simp only [Bool.and_eq_true, decide_eq_true_eq]
      exact ⟨by omega, h4⟩

theorem downLoop_heapOrdered [LawfulHeapNode N] (fuel : Nat) (q : PtrSlice N) (i n : Nat)
    (ho : q.LessOrder) (hn : n ≤ q.Len) (hf : n ≤ fuel + i) (hi : q.DownInv n i) :
    (downLoop fuel q i n).1.HeapOrdered n := by
  induction fuel generalizing q i with
  | zero =>
    intro k hk0 hkn
    exact hi.1 k hk0 hkn (by omega)
  | succ fuel ih =>
    simp only [downLoop]
    split
    · intro k hk0 hkn
      exact hi.1 k hk0 hkn (by omega)
    · rename_i hj1
      have hlt : 2 * i + 1 < n := by omega
      have hjn := minChild_lt q i n hlt
      have hjc := minChild_cases q i n
      split
      · rename_i hc
        simp only [Bool.not_eq_true'] at hc
        intro k hk0 hkn
        by_cases hpk : (k - 1) / 2 = i
        · rw [hpk]
          exact children_ordered q i n ho hn hc k hk0 hkn hpk
        · exact hi.1 k hk0 hkn hpk
      · rename_i hc
        simp only [Bool.not_eq_true', Bool.not_eq_false] at hc
        have hil : i < q.Len := by omega
        have hjl : minChild q i n < q.Len := by omega
        have hpj : (minChild q i n - 1) / 2 = i := by omega
        have hinv : (q.Swap i (minChild q i n)).DownInv n (minChild q i n) := by
          constructor
          · intro k hk0 hkn hpk
            rw [PtrSlice.Less_Swap q _ _ _ _ hil hjl]
            by_cases hkj : k = minChild q i n
            · subst hkj
              rw [swapIdx_right, hpj, swapIdx_left]
              exact ho.asymm _ _ hjl hil hc
            · by_cases hki : k = i
              · subst hki
                rw [swapIdx_left, swapIdx_of_ne _ _ _ (by omega) (by omega)]
                exact hi.2 _ (by omega) hjn hpj hk0
              · rw [swapIdx_of_ne _ _ k hki hkj]
                by_cases hpi : (k - 1) / 2 = i
                · rw [hpi, swapIdx_left]
                  exact sibling_ordered q i n ho hn k hk0 hkn hpi hkj
                · rw [swapIdx_of_ne _ _ _ hpi hpk]
                  exact hi.1 k hk0 hkn hpi
          · intro c hc0 hcn hpc hj0
            rw [PtrSlice.Less_Swap q _ _ _ _ hil hjl, hpj, swapIdx_left,
              swapIdx_of_ne _ _ c (by omega) (by omega)]
            have := hi.1 c hc0 hcn (by omega)
            rwa [hpc] at this
        have hs : Swaps q (q.Swap i (minChild q i n)) :=
          Swaps.step _ _ (Swaps.refl q) hil hjl
        exact ih (q.Swap i (minChild q i n)) (minChild q i n) (hs.lessOrder ho)
          (by rw [PtrSlice.Swap_Len]; exact hn) (by omega) hinv

/-- The loop of `down` leaves the slots from `n` on as they are. -/
theorem downLoop_slots_ge (fuel : Nat) (q : PtrSlice N) (i n : Nat) (hn : n ≤ q.Len)
    (k : Nat) (hk : n ≤ k) : (downLoop fuel q i n).1.slots.getD k 0 = q.slots.getD k 0 := by
  induction fuel generalizing q i with
  | zero => rfl
  | succ fuel ih =>
    simp only [downLoop]
    split
    · rfl
    · rename_i hj1
      have hjn := minChild_lt q i n (by omega)
      have hjc := minChild_cases q i n
      split
      · rfl
      · rw [ih _ _ (by rw [PtrSlice.Swap_Len]; exact hn),
          PtrSlice.Swap_slots_getD q _ _ _ (by omega) (by omega),
          swapIdx_of_ne _ _ k (by omega) (by omega)]

/-- When no child of `i` is less than `i`, `down` changes nothing and reports so. -/
theorem down_noop (q : PtrSlice N) (i n : Nat)
    (h : 2 * i + 1 < n → q.Less (minChild q i n) i = false) : down q i n = (q, false) := by
  simp only [down]
  cases n with
  | zero => simp [downLoop]
  | succ n =>
    simp only [downLoop]
    split
    · simp
    · rename_i hj1
      rw [h (by omega)]
      simp

end heap

namespace PtrSlice

variable {N : Type} [HeapNode N]

theorem Less_Push [LawfulHeapNode N] (q : PtrSlice N) (x a b : Nat) (ha : a < q.Len)
    (hb : b < q.Len) : (q.Push x).Less a b = q.Less a b := by
  simp only [Less, node, Push_slots, getD_append_singleton]
  simp only [Len] at ha hb
  rw [if_pos ha, if_pos hb]
  rw [Push_deref_indexFree (fun y => HeapNode.less y _) (indexFree_less_left _)]
  rw [Push_deref_indexFree (fun y => HeapNode.less _ y) (indexFree_less_right _)]

theorem Less_Pop [LawfulHeapNode N] (q : PtrSlice N) (a b : Nat) (ha : a < q.Len - 1)
    (hb : b < q.Len - 1) : q.Pop.1.Less a b = q.Less a b := by
  simp only [Less, node, Pop_slots]
  simp only [Len] at ha hb
  rw [getD_take _ _ _ ha, getD_take _ _ _ hb]
  rw [Pop_deref_indexFree (fun y => HeapNode.less y _) (indexFree_less_left _)]
  rw [Pop_deref_indexFree (fun y => HeapNode.less _ y) (indexFree_less_right _)]

theorem HeapOrdered.upInv {q : PtrSlice N} {n : Nat} (hh : q.HeapOrdered n) (ho : q.LessOrder)
    (hn : n ≤ q.Len) (j : Nat) : q.UpInv n j := by
  constructor
  · intro k hk0 hkn _
    exact hh k hk0 hkn
  · intro c hc0 hcn hpc hj0
    have h1 := hh c hc0 hcn
    rw [hpc] at h1
    have h2 := hh j hj0 (by omega)
    exact ho.negTrans _ _ _ (by omega) (by omega) (by omega) h2 h1

end PtrSlice

namespace heap

variable {N : Type} [HeapNode N]

theorem up_heapOrdered [LawfulHeapNode N] (q : PtrSlice N) (j : Nat) (ho : q.LessOrder)
    (hj : j < q.Len) (hi : q.UpInv q.Len j) : (up q j).HeapOrdered q.Len :=
  upLoop_heapOrdered j q j ho hj (Nat.le_refl _) hi

/-- Function `heap.Push` keeps the heap order. -/
theorem Push_heapOrdered [LawfulHeapNode N] (q : PtrSlice N) (x : Nat)
    (hh : q.HeapOrdered q.Len) (ho : (q.Push x).LessOrder) :
    (Push q x).HeapOrdered (q.Len + 1) := by
  have hlen : (q.Push x).Len = q.Len + 1 := by simp [PtrSlice.Len, PtrSlice.Push_slots]
  have hinv : (q.Push x).UpInv (q.Push x).Len ((q.Push x).Len - 1) := by
    rw [hlen]
    constructor
    · intro k hk0 hkn hne
      rw [PtrSlice.Less_Push q x _ _ (by omega) (by omega)]
      exact hh k hk0 (by omega)
    · intro c hc0 hcn hpc _
      omega
  have := up_heapOrdered (q.Push x) ((q.Push x).Len - 1) ho (by omega) hinv
  rw [hlen] at this
  simpa only [Push, hlen] using this

/-- Function `heap.Pop` removes the pointer in slot 0 and keeps the heap order. -/
theorem Pop_heapOrdered [LawfulHeapNode N] (q : PtrSlice N) (hq : 0 < q.Len)
    (hh : q.HeapOrdered q.Len) (ho : q.LessOrder) :
    (Pop q).1.HeapOrdered (q.Len - 1) ∧ (Pop q).2 = q.slots.getD 0 0 := by
  have hl : q.Len - 1 < q.Len := by omega
  have hs1 : Swaps q (q.Swap 0 (q.Len - 1)) := Swaps.step 0 _ (Swaps.refl q) hq hl
  have hinv : (q.Swap 0 (q.Len - 1)).DownInv (q.Len - 1) 0 := by
    constructor
    · intro k hk0 hkn hpk
      rw [PtrSlice.Less_Swap q _ _ _ _ hq hl, swapIdx_of_ne _ _ k (by omega) (by omega),
        swapIdx_of_ne _ _ _ (by omega) (by omega)]
      exact hh k hk0 (by omega)
    · intro c _ _ _ h0
      omega
  have hd := downLoop_heapOrdered (q.Len - 1) (q.Swap 0 (q.Len - 1)) 0 (q.Len - 1)
    (hs1.lessOrder ho) (by rw [PtrSlice.Swap_Len]; omega) (by omega) hinv
  have hs2 := Pop_swaps q hq
  constructor
  · intro k hk0 hkn
    simp only [Pop]
    rw [PtrSlice.Less_Pop _ _ _ (by rw [hs2.Len_eq]; exact hkn) (by rw [hs2.Len_eq]; omega)]
    exact hd k hk0 hkn
  · simp only [Pop, PtrSlice.Pop]
    have e1 : (down (q.Swap 0 (q.Len - 1)) 0 (q.Len - 1)).1.slots.length = q.Len := hs2.Len_eq
    rw [e1]
    simp only [down]
    rw [downLoop_slots_ge _ _ _ _ (by rw [PtrSlice.Swap_Len]; omega) _ (Nat.le_refl _),
      PtrSlice.Swap_slots_getD q _ _ _ hq hl, swapIdx_right]

/-- Function `heap.Fix` restores the heap order after the node in slot `i` has changed. -/
theorem Fix_heapOrdered [LawfulHeapNode N] (q : PtrSlice N) (i : Nat) (hi : i < q.Len)
    (ho : q.LessOrder) (hinv : q.FixInv q.Len i) : (Fix q i).HeapOrdered q.Len := by
  by_cases hedge : 0 < i ∧ q.Less i ((i - 1) / 2) = true
  · have hchild : ∀ c, 0 < c → c < q.Len → (c - 1) / 2 = i → q.Less c i = false := by
      intro c hc0 hcn hpc
      have h1 := hinv.2 c hc0 hcn hpc hedge.1
      cases h2 : q.Less c i with
      | false => rfl
      | true =>
        have := ho.trans c i ((i - 1) / 2) hcn hi (by omega) h2 hedge.2
        rw [h1] at this
        exact absurd this (by simp)
    have hno : down q i q.Len = (q, false) := by
      apply down_noop
      intro hlt
      have hjn := minChild_lt q i q.Len hlt
      have hjc := minChild_cases q i q.Len
      exact hchild _ (by omega) hjn (by omega)
    simp only [Fix, hno]
    apply up_heapOrdered q i ho hi
    constructor
    · intro k hk0 hkn hne
      by_cases hpk : (k - 1) / 2 = i
      · rw [hpk]
        exact hchild k hk0 hkn hpk
      · exact hinv.1 k hk0 hkn hne hpk
    · exact hinv.2
  · have hedge2 : 0 < i → q.Less i ((i - 1) / 2) = false := by
      intro h0
      cases h2 : q.Less i ((i - 1) / 2) with
      | false => rfl
      | true => exact absurd ⟨h0, h2⟩ hedge
    have hdinv : q.DownInv q.Len i := by
      constructor
      · intro k hk0 hkn hpk
        by_cases hki : k = i
        · subst hki
          exact hedge2 hk0
        · exact hinv.1 k hk0 hkn hki hpk
      · exact hinv.2
    have hd : (down q i q.Len).1.HeapOrdered q.Len :=
      downLoop_heapOrdered q.Len q i q.Len ho (Nat.le_refl _) (by omega) hdinv
    have hs := down_swaps q i q.Len (Nat.le_refl _)
    simp only [Fix]
    split
    · have := up_heapOrdered (down q i q.Len).1 i (hs.lessOrder ho)
        (by rw [hs.Len_eq]; exact hi)
        (by
          rw [hs.Len_eq]
          exact PtrSlice.HeapOrdered.upInv hd (hs.lessOrder ho) (by rw [hs.Len_eq]) i)
      rwa [hs.Len_eq] at this
    · exact hd

end heap

/-! ## Node updates, allocation, sums and the table -/

namespace PtrSlice

variable {N : Type} [HeapNode N]

theorem total_congr (f : N → Int) {q q2 : PtrSlice N} (hp : q2.slots.Perm q.slots)
    (hd : ∀ h, f (q2.deref h) = f (q.deref h)) : q2.total f = q.total f := by
  simp only [total]
  have : (fun h => f (q2.deref h)) = (fun h => f (q.deref h)) := funext hd
  rw [this]
  exact (hp.map _).sum_eq

theorem total_cons (f : N → Int) {q q2 : PtrSlice N} (x : Nat)
    (hp : q2.slots.Perm (x :: q.slots)) (hd : ∀ h, f (q2.deref h) = f (q.deref h)) :
    q2.total f = f (q.deref x) + q.total f := by
  simp only [total]
  have : (fun h => f (q2.deref h)) = (fun h => f (q.deref h)) := funext hd
  rw [this, (hp.map _).sum_eq]
  simp

theorem TableOK.congr (keyOf : N → String) {q q2 : PtrSlice N} {byKey : KeyMap}
    (ht : q.TableOK keyOf byKey) (hm : ∀ h, h ∈ q.slots → h ∈ q2.slots)
    (hd : ∀ h, h ∈ q.slots → keyOf (q2.deref h) = keyOf (q.deref h)) :
    q2.TableOK keyOf byKey := by
  intro k h hk
  obtain ⟨h1, h2⟩ := ht k h hk
  exact ⟨hm h h1, by rw [hd h h1, h2]⟩

theorem update_deref_fixed {α : Type} (f : N → α) (g : N → N) (hfg : ∀ y, f (g y) = f y)
    (q : PtrSlice N) (x h : Nat) : f ((q.update x g).deref h) = f (q.deref h) := by
  rw [deref_update]
  split
  · rename_i h1
    rw [hfg, h1.1]
  · rfl

theorem update_deref_of_ne (g : N → N) (q : PtrSlice N) (x h : Nat) (hne : h ≠ x) :
    (q.update x g).deref h = q.deref h := by
  rw [deref_update, if_neg (fun hh => hne hh.1)]

theorem WF.update_node {q : PtrSlice N} (hw : q.WF) (x : Nat) (g : N → N)
    (hg : ∀ y, HeapNode.index (g y) = HeapNode.index y) : (q.update x g).WF := by
  constructor
  · intro i hi
    simpa [PtrSlice.update] using hw.inRange i hi
  · intro i hi
    have := hw.indexOK i hi
    simp only [node] at this ⊢
    show HeapNode.index ((q.update x g).deref (q.slots.getD i 0)) = _
    rw [update_deref_fixed HeapNode.index g hg]
    exact this

theorem alloc_deref (q : PtrSlice N) (nd : N) (h : Nat) (hh : h < q.nodes.length) :
    (q.alloc nd).deref h = q.deref h := by
  simp [deref, alloc, List.getD_eq_getElem?_getD, List.getElem?_append_left hh]

theorem alloc_deref_new (q : PtrSlice N) (nd : N) :
    (q.alloc nd).deref q.nodes.length = nd := by
  simp [deref, alloc, List.getD_eq_getElem?_getD]

theorem WF.alloc {q : PtrSlice N} (hw : q.WF) (nd : N) : (q.alloc nd).WF := by
  constructor
  · intro i hi
    have := hw.inRange i hi
    simp only [PtrSlice.alloc, List.length_append, List.length_singleton]
    omega
  · intro i hi
    have := hw.indexOK i hi
    simp only [node] at this ⊢
    show HeapNode.index ((q.alloc nd).deref (q.slots.getD i 0)) = _
    rw [alloc_deref q nd _ (hw.inRange i hi)]
    exact this

theorem WF.fresh {q : PtrSlice N} (hw : q.WF) : q.nodes.length ∉ q.slots :=
  fun hm => Nat.lt_irrefl _ (hw.mem_inRange hm)

theorem Less_alloc {q : PtrSlice N} (hw : q.WF) (nd : N) (a b : Nat) (ha : a < q.Len)
    (hb : b < q.Len) : (q.alloc nd).Less a b = q.Less a b := by
  simp only [Less, node]
  show HeapNode.less ((q.alloc nd).deref (q.slots.getD a 0))
    ((q.alloc nd).deref (q.slots.getD b 0)) = _
  rw [alloc_deref q nd _ (hw.inRange a ha), alloc_deref q nd _ (hw.inRange b hb)]

/-- After the node in slot `i` has changed, the slice is in the state `heap.Fix` expects. -/
theorem FixInv.of_update {q : PtrSlice N} (hw : q.WF) (hh : q.HeapOrdered q.Len)
    (ho : q.LessOrder) (i : Nat) (hi : i < q.Len) (g : N → N) :
    (q.update (q.slots.getD i 0) g).FixInv q.Len i := by
  have hne : ∀ k, k < q.Len → k ≠ i → q.slots.getD k 0 ≠ q.slots.getD i 0 :=
    fun k hk hki he => hki (hw.slots_inj hk hi he)
  have hless : ∀ a b, a < q.Len → b < q.Len → a ≠ i → b ≠ i →
      (q.update (q.slots.getD i 0) g).Less a b = q.Less a b := by
    intro a b ha hb hai hbi
    simp only [Less, node]
    show HeapNode.less ((q.update (q.slots.getD i 0) g).deref (q.slots.getD a 0))
      ((q.update (q.slots.getD i 0) g).deref (q.slots.getD b 0)) = _
    rw [update_deref_of_ne g q _ _ (hne a ha hai), update_deref_of_ne g q _ _ (hne b hb hbi)]
  constructor
  · intro k hk0 hkn hki hpk
    rw [hless k _ hkn (by omega) hki hpk]
    exact hh k hk0 hkn
  · intro c hc0 hcn hpc hi0
    rw [hless c _ hcn (by omega) (by omega) (by omega)]
    exact (hh.upInv ho (Nat.le_refl _) i).2 c hc0 hcn hpc hi0

end PtrSlice

/-! ## LFU: the invariant -/

theorem lfuNode.less_iff (a b : lfuNode) :
    a.less b = true ↔
      a.count < b.count ∨ (a.count = b.count ∧ a.lastUsed < b.lastUsed) := by
  simp [lfuNode.less]

theorem lfuNode.less_eq_false_iff (a b : lfuNode) :
    a.less b = false ↔
      ¬ (a.count < b.count ∨ (a.count = b.count ∧ a.lastUsed < b.lastUsed)) := by
  rw [← lfuNode.less_iff]
  simp

theorem lfu_lessOrder (q : PQ) : q.LessOrder := by
  constructor
  · intro a b _ _
    simp only [PtrSlice.Less, HeapNode.less]
    rw [lfuNode.less_iff, lfuNode.less_eq_false_iff]
    intro h1 h2
    omega
  · intro a b c _ _ _
    simp only [PtrSlice.Less, HeapNode.less]
    rw [lfuNode.less_iff, lfuNode.less_iff, lfuNode.less_iff]
    intro h1 h2
    omega
  · intro a b c _ _ _
    simp only [PtrSlice.Less, HeapNode.less]
    rw [lfuNode.less_eq_false_iff, lfuNode.less_eq_false_iff, lfuNode.less_eq_false_iff]
    intro h1 h2 h3
    omega

theorem lfu_indexFree_key : IndexFree (fun nd : lfuNode => nd.key) := fun _ _ => rfl

theorem lfu_indexFree_size : IndexFree (fun nd : lfuNode => (nd.value.length : Int)) :=
  fun _ _ => rfl

theorem lfu_indexFree_value : IndexFree (fun nd : lfuNode => nd.value) := fun _ _ => rfl

theorem LFUCache.lfu_inv_new (size : Int) : (NewLFUCache size).Inv := by
  constructor
  · constructor <;> intro i hi <;> simp [NewLFUCache] at hi
  · intro i _ hi
    simp [NewLFUCache, PtrSlice.Len] at hi
  · intro k h hk
    simp [NewLFUCache, mapGet] at hk
  · simp [NewLFUCache, PtrSlice.total]

theorem LFUCache.evict_of_pos (c : LFUCache) (hq : 0 < c.pq.Len) :
    c.evict =
      { c with
        pq := (heap.Pop c.pq).1
        byKey := mapDelete c.byKey ((heap.Pop c.pq).1.deref (heap.Pop c.pq).2).key
        currSize := c.currSize -
          (((heap.Pop c.pq).1.deref (heap.Pop c.pq).2).value.length : Int) } := by
  simp [LFUCache.evict, hq]

theorem LFUCache.evict_of_empty (c : LFUCache) (hq : ¬ 0 < c.pq.Len) : c.evict = c := by
  simp [LFUCache.evict, hq]

theorem LFUCache.lfu_inv_evict {c : LFUCache} (hi : c.Inv) : c.evict.Inv := by
  by_cases hq : 0 < c.pq.Len
  · rw [LFUCache.evict_of_pos c hq]
    have hperm := heap.Pop_perm c.pq hq
    have hlen : (heap.Pop c.pq).1.Len = c.pq.Len - 1 := by
      have := hperm.length_eq
      simp only [List.length_cons, PtrSlice.Len] at this ⊢
      omega
    have hkey := heap.heapPop_deref_indexFree (fun nd : lfuNode => nd.key) lfu_indexFree_key c.pq hq
    have hval := heap.heapPop_deref_indexFree (fun nd : lfuNode => (nd.value.length : Int))
      lfu_indexFree_size c.pq hq
    simp only at hkey hval
    refine ⟨heap.Pop_wf hi.wf hq, ?_, ?_, ?_⟩
    · simp only [hlen]
      exact (heap.Pop_heapOrdered c.pq hq hi.heap (lfu_lessOrder _)).1
    · intro k h hk
      simp only [mapGet_mapDelete] at hk
      split at hk
      · simp at hk
      · rename_i hne
        obtain ⟨h1, h2⟩ := hi.table k h hk
        have hm := hperm.mem_iff.1 h1
        simp only [List.mem_cons] at hm
        rcases hm with hm | hm
        · exfalso
          apply hne
          rw [hkey, ← hm, h2]
        · exact ⟨hm, by rw [hkey, h2]⟩
    · simp only
      have h1 := @PtrSlice.total_cons lfuNode _ (fun nd : lfuNode => (nd.value.length : Int))
        (heap.Pop c.pq).1 c.pq (heap.Pop c.pq).2 hperm
        (fun h => (hval h).symm)
      beta_reduce at h1
      rw [hi.size, h1]
      omega
  · rw [LFUCache.evict_of_empty c hq]
    exact hi

theorem LFUCache.Put_eq (c : LFUCache) (key : String) (value : Bytes) (now : Nat) :
    (c.Put key value now).1 =
      { (if (value.length : Int) + c.currSize > c.maxSize then c.evict else c) with
        byKey := mapSet (if (value.length : Int) + c.currSize > c.maxSize then c.evict else c).byKey
          key (if (value.length : Int) + c.currSize > c.maxSize then c.evict else c).pq.nodes.length
        pq := heap.Push
          ((if (value.length : Int) + c.currSize > c.maxSize then c.evict else c).pq.alloc
            { key := key, value := value, count := 1, index := 0, lastUsed := now })
          (if (value.length : Int) + c.currSize > c.maxSize then c.evict else c).pq.nodes.length
        currSize := (if (value.length : Int) + c.currSize > c.maxSize then c.evict else c).currSize
          + (value.length : Int) } := rfl

/-- The insertion that ends `LFUCache.Put` keeps the invariant. -/
theorem LFUCache.lfu_inv_insert {c : LFUCache} (hi : c.Inv) (key : String) (value : Bytes)
    (now : Nat) :
    ({ c with
        byKey := mapSet c.byKey key c.pq.nodes.length
        pq := heap.Push
          (c.pq.alloc { key := key, value := value, count := 1, index := 0, lastUsed := now })
          c.pq.nodes.length
        currSize := c.currSize + (value.length : Int) } : LFUCache).Inv := by
  have hwa := hi.wf.alloc { key := key, value := value, count := 1, index := 0, lastUsed := now }
  have hfresh := hi.wf.fresh
  have hperm := heap.Push_perm
    (c.pq.alloc { key := key, value := value, count := 1, index := 0, lastUsed := now })
    c.pq.nodes.length
  have hold : ∀ {α : Type} (f : lfuNode → α), IndexFree f → ∀ h, h ∈ c.pq.slots →
      f ((heap.Push
          (c.pq.alloc { key := key, value := value, count := 1, index := 0, lastUsed := now })
          c.pq.nodes.length).deref h) = f (c.pq.deref h) := by
    intro α f hf h hm
    rw [heap.heapPush_deref_indexFree f hf, PtrSlice.alloc_deref _ _ _ (hi.wf.mem_inRange hm)]
  have hnew : ∀ {α : Type} (f : lfuNode → α), IndexFree f →
      f ((heap.Push
          (c.pq.alloc { key := key, value := value, count := 1, index := 0, lastUsed := now })
          c.pq.nodes.length).deref c.pq.nodes.length) =
        f { key := key, value := value, count := 1, index := 0, lastUsed := now } := by
    intro α f hf
    rw [heap.heapPush_deref_indexFree f hf, PtrSlice.alloc_deref_new]
  refine ⟨?_, ?_, ?_, ?_⟩
  · exact heap.Push_wf hwa _ (by simp [PtrSlice.alloc]) hfresh
  · have hlen : (heap.Push
          (c.pq.alloc { key := key, value := value, count := 1, index := 0, lastUsed := now })
          c.pq.nodes.length).Len = c.pq.Len + 1 := by
      have := hperm.length_eq
      simpa [PtrSlice.Len, PtrSlice.alloc] using this
    simp only [hlen]
    apply heap.Push_heapOrdered _ _ _ (lfu_lessOrder _)
    intro k hk0 hkn
    have hkn2 : k < c.pq.Len := hkn
    rw [PtrSlice.Less_alloc hi.wf _ _ _ hkn2 (by omega)]
    exact hi.heap k hk0 hkn2
  · intro k h hk
    simp only [mapGet_mapSet] at hk
    split at hk
    · rename_i hkk
      have hh : h = c.pq.nodes.length := (Option.some.inj hk).symm
      subst hh
      refine ⟨hperm.mem_iff.2 (List.mem_cons_self _ _), ?_⟩
      rw [hnew (fun nd => nd.key) lfu_indexFree_key, hkk]
    · obtain ⟨h1, h2⟩ := hi.table k h hk
      exact ⟨hperm.mem_iff.2 (List.mem_cons_of_mem _ h1),
        by rw [hold (fun nd => nd.key) lfu_indexFree_key h h1, h2]⟩
  · simp only [PtrSlice.total]
    rw [(hperm.map _).sum_eq, List.map_cons, List.sum_cons]
    rw [hnew (fun nd => (nd.value.length : Int)) lfu_indexFree_size]
    have : List.map (fun h => (((heap.Push
          (c.pq.alloc { key := key, value := value, count := 1, index := 0, lastUsed := now })
          c.pq.nodes.length).deref h).value.length : Int)) c.pq.slots =
        List.map (fun h => ((c.pq.deref h).value.length : Int)) c.pq.slots := by
      apply List.map_congr_left
      intro h hm
      exact hold (fun nd => (nd.value.length : Int)) lfu_indexFree_size h hm
    have hsz := hi.size
    simp only [PtrSlice.total] at hsz
    simp only [PtrSlice.alloc] at this ⊢
    rw [this, hsz]
    omega

theorem LFUCache.lfu_inv_put {c : LFUCache} (hi : c.Inv) (key : String) (value : Bytes)
    (now : Nat) : (c.Put key value now).1.Inv := by
  rw [LFUCache.Put_eq]
  apply LFUCache.lfu_inv_insert
  split
  · exact LFUCache.lfu_inv_evict hi
  · exact hi

theorem LFUCache.lfu_Get_hit (c : LFUCache) (key : String) (now x : Nat)
    (hg : mapGet c.byKey key = some x) :
    c.Get key now =
      ({ c with pq := (heap.FixAt (c.pq.update x (lfuNode.touch now))
            ((c.pq.update x (lfuNode.touch now)).deref x).index) },
        ((heap.FixAt (c.pq.update x (lfuNode.touch now))
            ((c.pq.update x (lfuNode.touch now)).deref x).index).deref x).value, true) := by
  simp only [LFUCache.Get, hg]

theorem LFUCache.lfu_Get_miss (c : LFUCache) (key : String) (now : Nat)
    (hg : mapGet c.byKey key = none) : c.Get key now = (c, [], false) := by
  simp only [LFUCache.Get, hg]

/-- In a state that satisfies the invariant, `Get` calls `heap.Fix` with the slot of the node
it found. -/
theorem LFUCache.lfu_Get_index {c : LFUCache} (hi : c.Inv) (key : String) (now x : Nat)
    (hg : mapGet c.byKey key = some x) :
    ∃ i, i < c.pq.Len ∧ c.pq.slots.getD i 0 = x ∧
      ((c.pq.update x (lfuNode.touch now)).deref x).index = (i : Int) := by
  obtain ⟨hm, _⟩ := hi.table key x hg
  obtain ⟨i, hil, hix⟩ := (mem_iff_getD _ _).1 hm
  refine ⟨i, hil, hix, ?_⟩
  have h1 := PtrSlice.update_deref_fixed (fun nd : lfuNode => nd.index) (lfuNode.touch now)
    (fun _ => rfl) c.pq x x
  have h2 := hi.wf.indexOK i hil
  simp only [PtrSlice.node, hix] at h2
  exact h1.trans h2

theorem LFUCache.lfu_inv_get {c : LFUCache} (hi : c.Inv) (key : String) (now : Nat) :
    (c.Get key now).1.Inv := by
  cases hg : mapGet c.byKey key with
  | none =>
    rw [LFUCache.lfu_Get_miss c key now hg]
    exact hi
  | some x =>
    rw [LFUCache.lfu_Get_hit c key now x hg]
    obtain ⟨i, hil, hix, hidx⟩ := LFUCache.lfu_Get_index hi key now x hg
    rw [hidx]
    have hfix : heap.FixAt (c.pq.update x (lfuNode.touch now)) (i : Int) =
        heap.Fix (c.pq.update x (lfuNode.touch now)) i := by
      simp [heap.FixAt]
    rw [hfix]
    have hil2 : i < (c.pq.update x (lfuNode.touch now)).Len := hil
    have hs := heap.Fix_swaps (c.pq.update x (lfuNode.touch now)) i hil2
    have hlen : (heap.Fix (c.pq.update x (lfuNode.touch now)) i).Len = c.pq.Len := hs.Len_eq
    have hperm : (heap.Fix (c.pq.update x (lfuNode.touch now)) i).slots.Perm c.pq.slots :=
      hs.perm
    refine ⟨?_, ?_, ?_, ?_⟩
    · exact hs.wf (hi.wf.update_node x _ (fun _ => rfl))
    · simp only [hlen]
      have hinv := PtrSlice.FixInv.of_update hi.wf hi.heap (lfu_lessOrder _) i hil
        (lfuNode.touch now)
      rw [hix] at hinv
      exact heap.Fix_heapOrdered (c.pq.update x (lfuNode.touch now)) i hil2
        (lfu_lessOrder _) hinv
    · apply hi.table.congr
      · intro h hm
        exact hperm.mem_iff.2 hm
      · intro h _
        rw [hs.deref_indexFree (fun nd => nd.key) lfu_indexFree_key,
          PtrSlice.update_deref_fixed (fun nd : lfuNode => nd.key) (lfuNode.touch now)
            (fun _ => rfl)]
    · simp only
      rw [hi.size]
      symm
      apply PtrSlice.total_congr _ hperm
      intro h
      rw [hs.deref_indexFree (fun nd => (nd.value.length : Int)) lfu_indexFree_size,
        PtrSlice.update_deref_fixed (fun nd : lfuNode => (nd.value.length : Int))
          (lfuNode.touch now) (fun _ => rfl)]

theorem LFUCache.lfu_inv_step {c : LFUCache} (hi : c.Inv) (op : Op) : (c.step op).Inv := by
  cases op with
  | put key value now => exact LFUCache.lfu_inv_put hi key value now
  | get key now => exact LFUCache.lfu_inv_get hi key now
  | has key => exact hi

theorem LFUCache.lfu_inv_run_from {c : LFUCache} (hi : c.Inv) (ops : List Op) :
    (c.run ops).Inv := by
  induction ops generalizing c with
  | nil => exact hi
  | cons op ops ih => exact ih (LFUCache.lfu_inv_step hi op)

theorem LFUCache.lfu_inv_run (size : Int) (ops : List Op) : ((NewLFUCache size).run ops).Inv :=
  LFUCache.lfu_inv_run_from (LFUCache.lfu_inv_new size) ops

/-! ## LFU: the evicted entry -/

/-- An entry that `Put` removes from the heap is the one `evict` popped, the root of the heap. -/
theorem LFUCache.Put_removed {c : LFUCache} (key : String) (value : Bytes) (now : Nat)
    (e : Nat) (he : e ∈ c.pq.slots) (hgone : e ∉ (c.Put key value now).1.pq.slots) :
    (value.length : Int) + c.currSize > c.maxSize ∧ 0 < c.pq.Len ∧ e = (heap.Pop c.pq).2 := by
  rw [LFUCache.Put_eq] at hgone
  simp only at hgone
  have hperm := fun (c0 : LFUCache) => heap.Push_perm
    (c0.pq.alloc { key := key, value := value, count := 1, index := 0, lastUsed := now })
    c0.pq.nodes.length
  have hq : 0 < c.pq.Len := List.length_pos_of_mem he
  split at hgone
  · rename_i hover
    refine ⟨hover, hq, ?_⟩
    have h1 : e ∉ c.evict.pq.slots := by
      intro hm
      exact hgone ((hperm c.evict).mem_iff.2 (List.mem_cons_of_mem _ hm))
    rw [LFUCache.evict_of_pos c hq] at h1
    have h2 := (heap.Pop_perm c.pq hq).mem_iff.1 he
    simp only [List.mem_cons] at h2
    rcases h2 with h2 | h2
    · exact h2
    · exact absurd h2 h1
  · exact absurd ((hperm c).mem_iff.2 (List.mem_cons_of_mem _ he)) hgone

/-- C8. In every state of an LFU cache reached from a fresh one, with any time stamps, an entry
`e` that `Put` removes from the heap is minimal for (count, lastUsed): no entry `h` held before
the `Put` has a smaller count, or the same count and an earlier `lastUsed`. -/
theorem lfu_evicted_entry_is_minimal (size : Int) (ops : List Op) (key : String)
    (value : Bytes) (now : Nat) (e : Nat)
    (he : e ∈ ((NewLFUCache size).run ops).pq.slots)
    (hgone : e ∉ (((NewLFUCache size).run ops).Put key value now).1.pq.slots) :
    ∀ h ∈ ((NewLFUCache size).run ops).pq.slots,
      ¬ ((((NewLFUCache size).run ops).pq.deref h).count <
            (((NewLFUCache size).run ops).pq.deref e).count ∨
          ((((NewLFUCache size).run ops).pq.deref h).count =
              (((NewLFUCache size).run ops).pq.deref e).count ∧
            (((NewLFUCache size).run ops).pq.deref h).lastUsed <
              (((NewLFUCache size).run ops).pq.deref e).lastUsed)) := by
  have hi := LFUCache.lfu_inv_run size ops
  generalize (NewLFUCache size).run ops = c at hi he hgone
  obtain ⟨_, hq, hroot⟩ := LFUCache.Put_removed key value now e he hgone
  rw [(heap.Pop_heapOrdered c.pq hq hi.heap (lfu_lessOrder _)).2] at hroot
  intro h hm
  obtain ⟨i, hil, hih⟩ := (mem_iff_getD _ _).1 hm
  have hmin := hi.heap.root_min (lfu_lessOrder _) (Nat.le_refl _) i hil
  simp only [PtrSlice.Less, PtrSlice.node, hih, ← hroot, HeapNode.less] at hmin
  exact (lfuNode.less_eq_false_iff _ _).1 hmin

theorem lfu_evicted_entry_is_minimal_witness :
    (((NewLFUCache 100).run lowerCountScenario).pq.deref 1).key = "key2" ∧
    (((NewLFUCache 100).run lowerCountScenario).Put "key3" (blob 30) 7).1.Has "key2" = false ∧
    (((NewLFUCache 100).run lowerCountScenario).Put "key3" (blob 30) 7).1.Has "key1" = true ∧
    ∀ h ∈ ((NewLFUCache 100).run lowerCountScenario).pq.slots,
      ¬ ((((NewLFUCache 100).run lowerCountScenario).pq.deref h).count <
            (((NewLFUCache 100).run lowerCountScenario).pq.deref 1).count ∨
          ((((NewLFUCache 100).run lowerCountScenario).pq.deref h).count =
              (((NewLFUCache 100).run lowerCountScenario).pq.deref 1).count ∧
            (((NewLFUCache 100).run lowerCountScenario).pq.deref h).lastUsed <
              (((NewLFUCache 100).run lowerCountScenario).pq.deref 1).lastUsed)) :=
  ⟨by decide, by decide, by decide,
    lfu_evicted_entry_is_minimal 100 lowerCountScenario "key3" (blob 30) 7 1
      (by decide) (by decide)⟩

/-! ## GDSF: the invariant -/

theorem gdsf_indexFree_key : IndexFree (fun nd : gdsfNode => nd.key) := fun _ _ => rfl

theorem gdsf_indexFree_size : IndexFree gdsfNode.size := fun _ _ => rfl

theorem gdsf_indexFree_value : IndexFree (fun nd : gdsfNode => nd.value) := fun _ _ => rfl

theorem GDSFCache.gdsf_inv_new (size maxEvictions : Int) : (NewGDSFCache size maxEvictions).Inv := by
  constructor
  · constructor <;> intro i hi <;> simp [NewGDSFCache] at hi
  · intro k h hk
    simp [NewGDSFCache, mapGet] at hk
  · simp [NewGDSFCache, PtrSlice.total]
  · intro h hm
    simp [NewGDSFCache] at hm

/-- One iteration of the loop of `GDSFCache.evict`: the state after the pop. -/
theorem GDSFCache.evict_succ (c : GDSFCache) (i : Nat) (hq : 0 < c.queue.Len) :
    c.evict (i + 1) =
      ({ c with
          queue := (heap.Pop c.queue).1
          byKey := mapDelete c.byKey ((heap.Pop c.queue).1.deref (heap.Pop c.queue).2).key
          usedSize := c.usedSize - ((heap.Pop c.queue).1.deref (heap.Pop c.queue).2).size
          L := if i + 1 = 1 then ((heap.Pop c.queue).1.deref (heap.Pop c.queue).2).priority
               else c.L } : GDSFCache).evict i := by
  simp [GDSFCache.evict, hq]

theorem GDSFCache.evict_empty (c : GDSFCache) (i : Nat) (hq : ¬ 0 < c.queue.Len) :
    c.evict i = c := by
  cases i with
  | zero => rfl
  | succ i => simp [GDSFCache.evict, hq]

/-- The pop made by one iteration of `evict` keeps the invariant. -/
theorem GDSFCache.inv_pop {c : GDSFCache} (hi : c.Inv) (hq : 0 < c.queue.Len) (l : F64) :
    ({ c with
        queue := (heap.Pop c.queue).1
        byKey := mapDelete c.byKey ((heap.Pop c.queue).1.deref (heap.Pop c.queue).2).key
        usedSize := c.usedSize - ((heap.Pop c.queue).1.deref (heap.Pop c.queue).2).size
        L := l } : GDSFCache).Inv := by
  have hperm := heap.Pop_perm c.queue hq
  have hkey := heap.heapPop_deref_indexFree (fun nd : gdsfNode => nd.key) gdsf_indexFree_key
    c.queue hq
  have hsize := heap.heapPop_deref_indexFree gdsfNode.size gdsf_indexFree_size c.queue hq
  have hval := heap.heapPop_deref_indexFree (fun nd : gdsfNode => nd.value) gdsf_indexFree_value
    c.queue hq
  simp only at hkey hval
  refine ⟨heap.Pop_wf hi.wf hq, ?_, ?_, ?_⟩
  · intro k h hk
    simp only [mapGet_mapDelete] at hk
    split at hk
    · simp at hk
    · rename_i hne
      obtain ⟨h1, h2⟩ := hi.table k h hk
      have hm := hperm.mem_iff.1 h1
      simp only [List.mem_cons] at hm
      rcases hm with hm | hm
      · exfalso
        apply hne
        rw [hkey, ← hm, h2]
      · exact ⟨hm, by rw [hkey, h2]⟩
  · simp only
    have h1 := @PtrSlice.total_cons gdsfNode _ gdsfNode.size
      (heap.Pop c.queue).1 c.queue (heap.Pop c.queue).2 hperm
      (fun h => (hsize h).symm)
    rw [hi.size, h1]
    omega
  · intro h hm
    simp only at hm ⊢
    rw [hsize, hval]
    exact hi.sizeField h (hperm.mem_iff.2 (List.mem_cons_of_mem _ hm))

theorem GDSFCache.gdsf_inv_evict {c : GDSFCache} (hi : c.Inv) (k : Nat) : (c.evict k).Inv := by
  induction k generalizing c with
  | zero => exact hi
  | succ i ih =>
    by_cases hq : 0 < c.queue.Len
    · rw [GDSFCache.evict_succ c i hq]
      exact ih (GDSFCache.inv_pop hi hq _)
    · rw [GDSFCache.evict_empty c _ hq]
      exact hi

theorem GDSFCache.inv_scan {c : GDSFCache} (hi : c.Inv) (size : Int) (fuel it : Nat)
    (es : Int) : (c.scan size fuel it es).1.Inv := by
  induction fuel generalizing it es with
  | zero => exact hi
  | succ fuel ih =>
    simp only [GDSFCache.scan]
    split
    · split
      · exact GDSFCache.gdsf_inv_evict hi it
      · exact ih _ _
    · exact hi

theorem GDSFCache.gdsf_inv_insert {c : GDSFCache} (hi : c.Inv) (key : String) (value : Bytes)
    (now : Nat) : (c.insert key value now).Inv := by
  have hwa := hi.wf.alloc
    { key := key, value := value, count := 1, index := 0,
      priority := c.cost 1 (value.length : Int), size := (value.length : Int), lastUsed := now }
  have hfresh := hi.wf.fresh
  have hperm := heap.Push_perm
    (c.queue.alloc
      { key := key, value := value, count := 1, index := 0,
        priority := c.cost 1 (value.length : Int), size := (value.length : Int),
        lastUsed := now })
    c.queue.nodes.length
  have hold : ∀ {α : Type} (f : gdsfNode → α), IndexFree f → ∀ h, h ∈ c.queue.slots →
      f ((c.insert key value now).queue.deref h) = f (c.queue.deref h) := by
    intro α f hf h hm
    simp only [GDSFCache.insert]
    rw [heap.heapPush_deref_indexFree f hf, PtrSlice.alloc_deref _ _ _ (hi.wf.mem_inRange hm)]
  have hnew : ∀ {α : Type} (f : gdsfNode → α), IndexFree f →
      f ((c.insert key value now).queue.deref c.queue.nodes.length) =
        f { key := key, value := value, count := 1, index := 0,
            priority := c.cost 1 (value.length : Int), size := (value.length : Int),
            lastUsed := now } := by
    intro α f hf
    simp only [GDSFCache.insert]
    rw [heap.heapPush_deref_indexFree f hf, PtrSlice.alloc_deref_new]
  have hperm2 : (c.insert key value now).queue.slots.Perm (c.queue.nodes.length :: c.queue.slots) :=
    hperm
  refine ⟨?_, ?_, ?_, ?_⟩
  · exact heap.Push_wf hwa _ (by simp [PtrSlice.alloc]) hfresh
  · intro k h hk
    simp only [GDSFCache.insert, mapGet_mapSet] at hk
    split at hk
    · rename_i hkk
      have hh : h = c.queue.nodes.length := (Option.some.inj hk).symm
      subst hh
      refine ⟨hperm2.mem_iff.2 (List.mem_cons_self _ _), ?_⟩
      rw [hnew (fun nd => nd.key) gdsf_indexFree_key, hkk]
    · obtain ⟨h1, h2⟩ := hi.table k h hk
      exact ⟨hperm2.mem_iff.2 (List.mem_cons_of_mem _ h1),
        by rw [hold (fun nd => nd.key) gdsf_indexFree_key h h1, h2]⟩
  · simp only [PtrSlice.total]
    rw [(hperm2.map _).sum_eq, List.map_cons, List.sum_cons]
    rw [hnew gdsfNode.size gdsf_indexFree_size]
    have : List.map (fun h => ((c.insert key value now).queue.deref h).size) c.queue.slots =
        List.map (fun h => (c.queue.deref h).size) c.queue.slots := by
      apply List.map_congr_left
      intro h hm
      exact hold gdsfNode.size gdsf_indexFree_size h hm
    have hsz := hi.size
    simp only [PtrSlice.total] at hsz
    rw [this, ← hsz]
    simp only [GDSFCache.insert]
    omega
  · intro h hm
    have hm2 := hperm2.mem_iff.1 hm
    simp only [List.mem_cons] at hm2
    rcases hm2 with hm2 | hm2
    · subst hm2
      rw [hnew gdsfNode.size gdsf_indexFree_size,
        hnew (fun nd => nd.value) gdsf_indexFree_value]
    · rw [hold gdsfNode.size gdsf_indexFree_size h hm2,
        hold (fun nd => nd.value) gdsf_indexFree_value h hm2]
      exact hi.sizeField h hm2

theorem GDSFCache.gdsf_inv_put {c : GDSFCache} (hi : c.Inv) (key : String) (value : Bytes)
    (now : Nat) : (c.Put key value now).1.Inv := by
  simp only [GDSFCache.Put]
  split
  · split
    · exact GDSFCache.inv_scan hi _ _ _ _
    · exact GDSFCache.gdsf_inv_insert (GDSFCache.inv_scan hi _ _ _ _) key value now
  · exact GDSFCache.gdsf_inv_insert hi key value now

theorem GDSFCache.gdsf_Get_hit (c : GDSFCache) (key : String) (now x : Nat)
    (hg : mapGet c.byKey key = some x) :
    c.Get key now =
      ({ c with queue := (heap.FixAt (c.queue.update x (c.touch now))
            ((c.queue.update x (c.touch now)).deref x).index) },
        ((heap.FixAt (c.queue.update x (c.touch now))
            ((c.queue.update x (c.touch now)).deref x).index).deref x).value, true) := by
  simp only [GDSFCache.Get, hg]

theorem GDSFCache.gdsf_Get_miss (c : GDSFCache) (key : String) (now : Nat)
    (hg : mapGet c.byKey key = none) : c.Get key now = (c, [], false) := by
  simp only [GDSFCache.Get, hg]

/-- In a state that satisfies the invariant, `Get` calls `heap.Fix` with the slot of the node
it found. -/
theorem GDSFCache.gdsf_Get_index {c : GDSFCache} (hi : c.Inv) (key : String) (now x : Nat)
    (hg : mapGet c.byKey key = some x) :
    ∃ i, i < c.queue.Len ∧ c.queue.slots.getD i 0 = x ∧
      ((c.queue.update x (c.touch now)).deref x).index = (i : Int) := by
  obtain ⟨hm, _⟩ := hi.table key x hg
  obtain ⟨i, hil, hix⟩ := (mem_iff_getD _ _).1 hm
  refine ⟨i, hil, hix, ?_⟩
  have h1 := PtrSlice.update_deref_fixed (fun nd : gdsfNode => nd.index) (c.touch now)
    (fun _ => rfl) c.queue x x
  have h2 := hi.wf.indexOK i hil
  simp only [PtrSlice.node, hix] at h2
  exact h1.trans h2

/-- On a hit, the heap after `Get` comes from the heap with the updated node by `Swap`s. -/
theorem GDSFCache.Get_swaps {c : GDSFCache} (hi : c.Inv) (key : String) (now x : Nat)
    (hg : mapGet c.byKey key = some x) :
    Swaps (c.queue.update x (c.touch now)) (c.Get key now).1.queue := by
  rw [GDSFCache.gdsf_Get_hit c key now x hg]
  obtain ⟨i, hil, _, hidx⟩ := GDSFCache.gdsf_Get_index hi key now x hg
  rw [hidx]
  have hil2 : ((i : Nat) : Int) < ((c.queue.update x (c.touch now)).Len : Int) := by
    have : (c.queue.update x (c.touch now)).Len = c.queue.Len := rfl
    rw [this]
    exact_mod_cast hil
  exact heap.FixAt_swaps _ _ hil2

theorem GDSFCache.gdsf_inv_get {c : GDSFCache} (hi : c.Inv) (key : String) (now : Nat) :
    (c.Get key now).1.Inv := by
  cases hg : mapGet c.byKey key with
  | none =>
    rw [GDSFCache.gdsf_Get_miss c key now hg]
    exact hi
  | some x =>
    have hs := GDSFCache.Get_swaps hi key now x hg
    have hperm : (c.Get key now).1.queue.slots.Perm c.queue.slots := hs.perm
    have hfix : ∀ {α : Type} (f : gdsfNode → α), IndexFree f → (∀ y, f (c.touch now y) = f y) →
        ∀ h, f ((c.Get key now).1.queue.deref h) = f (c.queue.deref h) := by
      intro α f hf hft h
      rw [hs.deref_indexFree f hf, PtrSlice.update_deref_fixed f (c.touch now) hft]
    have hbk : (c.Get key now).1.byKey = c.byKey := by
      rw [GDSFCache.gdsf_Get_hit c key now x hg]
    have hus : (c.Get key now).1.usedSize = c.usedSize := by
      rw [GDSFCache.gdsf_Get_hit c key now x hg]
    refine ⟨?_, ?_, ?_, ?_⟩
    · exact hs.wf (hi.wf.update_node x _ (fun _ => rfl))
    · rw [hbk]
      apply hi.table.congr
      · intro h hm
        exact hperm.mem_iff.2 hm
      · intro h _
        exact hfix (fun nd => nd.key) gdsf_indexFree_key (fun _ => rfl) h
    · rw [hus, hi.size]
      symm
      exact PtrSlice.total_congr _ hperm (hfix gdsfNode.size gdsf_indexFree_size (fun _ => rfl))
    · intro h hm
      rw [hfix gdsfNode.size gdsf_indexFree_size (fun _ => rfl),
        hfix (fun nd => nd.value) gdsf_indexFree_value (fun _ => rfl)]
      exact hi.sizeField h (hperm.mem_iff.1 hm)

theorem GDSFCache.gdsf_inv_step {c : GDSFCache} (hi : c.Inv) (op : Op) : (c.step op).Inv := by
  cases op with
  | put key value now => exact GDSFCache.gdsf_inv_put hi key value now
  | get key now => exact GDSFCache.gdsf_inv_get hi key now
  | has key => exact hi

theorem GDSFCache.gdsf_inv_run_from {c : GDSFCache} (hi : c.Inv) (ops : List Op) :
    (c.run ops).Inv := by
  induction ops generalizing c with
  | nil => exact hi
  | cons op ops ih => exact ih (GDSFCache.gdsf_inv_step hi op)

theorem GDSFCache.gdsf_inv_run (size maxEvictions : Int) (ops : List Op) :
    ((NewGDSFCache size maxEvictions).run ops).Inv :=
  GDSFCache.gdsf_inv_run_from (GDSFCache.gdsf_inv_new size maxEvictions) ops

/-! ## The size counter is the sum of the value lengths held -/

theorem LRUCache.sizeInv_evict {c : LRUCache} (hi : c.SizeInv) : c.evict.SizeInv := by
  unfold LRUCache.evict
  split
  · rename_i hlen
    have hb := listBack_mem c.list hlen
    constructor
    · intro e he
      exact hi.inRange e (List.mem_of_mem_erase he)
    · have hp := (List.perm_cons_erase hb).map
        (fun e => ((c.elems.getD e default).value.length : Int))
      have hs := hp.sum_eq
      simp only [List.map_cons, List.sum_cons] at hs
      simp only [LRUCache.held, listRemove]
      have h0 := hi.size
      simp only [LRUCache.held] at h0
      omega
  · exact hi

theorem LRUCache.sizeInv_put {c : LRUCache} (hi : c.SizeInv) (key : String) (value : Bytes)
    (now : Nat) : (c.Put key value now).1.SizeInv := by
  have h0 : (if (value.length : Int) + c.currSize > c.maxSize then c.evict else c).SizeInv := by
    split
    · exact LRUCache.sizeInv_evict hi
    · exact hi
  simp only [LRUCache.Put]
  generalize (if (value.length : Int) + c.currSize > c.maxSize then c.evict else c) = c0 at h0
  constructor
  · intro e he
    simp only [List.mem_cons] at he
    simp only [List.length_append, List.length_singleton]
    rcases he with he | he
    · omega
    · have := h0.inRange e he
      omega
  · simp only [LRUCache.held, List.map_cons, List.sum_cons]
    have h1 : ((c0.elems ++ [({ key := key, value := value, lastUsed := now } : node)]).getD
        c0.elems.length default).value.length = value.length := by
      simp [List.getD_eq_getElem?_getD]
    have h2 : List.map (fun e => (((c0.elems ++
          [({ key := key, value := value, lastUsed := now } : node)]).getD e default).value.length
            : Int)) c0.list =
        List.map (fun e => ((c0.elems.getD e default).value.length : Int)) c0.list := by
      apply List.map_congr_left
      intro e he
      simp [List.getD_eq_getElem?_getD, List.getElem?_append_left (h0.inRange e he)]
    rw [h1, h2]
    have := h0.size
    simp only [LRUCache.held] at this
    omega

theorem LRUCache.sizeInv_get {c : LRUCache} (hi : c.SizeInv) (key : String) (now : Nat) :
    (c.Get key now).1.SizeInv := by
  cases hg : mapGet c.byKey key with
  | none =>
    simp only [LRUCache.Get, hg]
    exact hi
  | some x =>
    simp only [LRUCache.Get, hg, listMoveToFront]
    split
    · rename_i hm
      constructor
      · intro e he
        simp only [List.mem_cons] at he
        rcases he with he | he
        · exact he ▸ hi.inRange x hm
        · exact hi.inRange e (List.mem_of_mem_erase he)
      · have hp := (List.perm_cons_erase hm).map
          (fun e => ((c.elems.getD e default).value.length : Int))
        have hs := hp.sum_eq
        simp only [LRUCache.held]
        rw [← hs]
        exact hi.size
    · exact hi

theorem LRUCache.sizeInv_run (size : Int) (ops : List Op) :
    ((NewLRUCache size).run ops).SizeInv := by
  have hnew : (NewLRUCache size).SizeInv := by
    constructor
    · intro e he
      simp [NewLRUCache] at he
    · simp [NewLRUCache, LRUCache.held]
  generalize NewLRUCache size = c at hnew
  induction ops generalizing c with
  | nil => exact hnew
  | cons op ops ih =>
    apply ih
    cases op with
    | put key value now => exact LRUCache.sizeInv_put hnew key value now
    | get key now => exact LRUCache.sizeInv_get hnew key now
    | has key => exact hnew

/-- C4. After any calls on a fresh cache, `Size()` is the sum of the value lengths over the
elements of the recency list (LRU), respectively over the nodes in the slots of the heap (LFU
and GDSF). -/
theorem size_is_sum_of_held_values (ops : List Op) :
    (∀ size : Int,
      ((NewLRUCache size).run ops).Size =
        (((NewLRUCache size).run ops).list.map
          (fun e => ((((NewLRUCache size).run ops).elems.getD e default).value.length : Int))).sum) ∧
    (∀ size : Int,
      ((NewLFUCache size).run ops).Size =
        (((NewLFUCache size).run ops).pq.slots.map
          (fun h => ((((NewLFUCache size).run ops).pq.deref h).value.length : Int))).sum) ∧
    (∀ size maxEvictions : Int,
      ((NewGDSFCache size maxEvictions).run ops).Size =
        (((NewGDSFCache size maxEvictions).run ops).queue.slots.map
          (fun h =>
            ((((NewGDSFCache size maxEvictions).run ops).queue.deref h).value.length : Int))).sum) := by
  refine ⟨?_, ?_, ?_⟩
  · intro size
    exact (LRUCache.sizeInv_run size ops).size
  · intro size
    exact (LFUCache.lfu_inv_run size ops).size
  · intro size maxEvictions
    have hi := GDSFCache.gdsf_inv_run size maxEvictions ops
    generalize (NewGDSFCache size maxEvictions).run ops = c at hi
    have h1 := hi.size
    simp only [PtrSlice.total] at h1
    simp only [GDSFCache.Size]
    rw [h1]
    congr 1
    apply List.map_congr_left
    intro h hm
    exact hi.sizeField h hm

/-! ## `Get` after `Put` -/

namespace heap

variable {N : Type} [HeapNode N]

theorem upLoop_deref_indexFree {α : Type} (f : N → α) (hf : IndexFree f) (fuel : Nat)
    (q : PtrSlice N) (j h : Nat) : f ((upLoop fuel q j).deref h) = f (q.deref h) := by
  induction fuel generalizing q j with
  | zero => rfl
  | succ fuel ih =>
    simp only [upLoop]
    split
    · rfl
    · rw [ih, PtrSlice.Swap_deref_indexFree f hf]

theorem downLoop_deref_indexFree {α : Type} (f : N → α) (hf : IndexFree f) (fuel : Nat)
    (q : PtrSlice N) (i n h : Nat) : f ((downLoop fuel q i n).1.deref h) = f (q.deref h) := by
  induction fuel generalizing q i with
  | zero => rfl
  | succ fuel ih =>
    simp only [downLoop]
    split
    · rfl
    · split
      · rfl
      · rw [ih, PtrSlice.Swap_deref_indexFree f hf]

theorem FixAt_deref_indexFree {α : Type} (f : N → α) (hf : IndexFree f) (q : PtrSlice N)
    (index : Int) (h : Nat) : f ((FixAt q index).deref h) = f (q.deref h) := by
  simp only [FixAt, Fix, down, up]
  split
  · rfl
  · split
    · rw [upLoop_deref_indexFree f hf, downLoop_deref_indexFree f hf]
    · rw [downLoop_deref_indexFree f hf]

end heap

theorem LRUCache.lru_get_after_put (c : LRUCache) (key : String) (value : Bytes) (now now2 : Nat) :
    ((c.Put key value now).1.Get key now2).2 = (value, true) := by
  simp only [LRUCache.Put]
  generalize (if (value.length : Int) + c.currSize > c.maxSize then c.evict else c) = c0
  simp only [LRUCache.Get, mapGet_mapSet, if_true]
  simp [List.getD_eq_getElem?_getD]

theorem LFUCache.lfu_get_after_put (c : LFUCache) (key : String) (value : Bytes) (now now2 : Nat) :
    ((c.Put key value now).1.Get key now2).2 = (value, true) := by
  rw [LFUCache.Put_eq]
  generalize (if (value.length : Int) + c.currSize > c.maxSize then c.evict else c) = c0
  have hg : mapGet (mapSet c0.byKey key c0.pq.nodes.length) key = some c0.pq.nodes.length := by
    rw [mapGet_mapSet, if_pos rfl]
  rw [LFUCache.lfu_Get_hit _ key now2 _ hg]
  simp only
  rw [heap.FixAt_deref_indexFree (fun nd : lfuNode => nd.value) lfu_indexFree_value,
    PtrSlice.update_deref_fixed (fun nd : lfuNode => nd.value) (lfuNode.touch now2)
      (fun _ => rfl),
    heap.heapPush_deref_indexFree (fun nd : lfuNode => nd.value) lfu_indexFree_value,
    PtrSlice.alloc_deref_new]

theorem GDSFCache.get_after_insert (c : GDSFCache) (key : String) (value : Bytes)
    (now now2 : Nat) : ((c.insert key value now).Get key now2).2 = (value, true) := by
  have hg : mapGet (c.insert key value now).byKey key = some c.queue.nodes.length := by
    simp only [GDSFCache.insert, mapGet_mapSet, if_true]
  rw [GDSFCache.gdsf_Get_hit _ key now2 _ hg]
  simp only
  rw [heap.FixAt_deref_indexFree (fun nd : gdsfNode => nd.value) gdsf_indexFree_value,
    PtrSlice.update_deref_fixed (fun nd : gdsfNode => nd.value)
      ((c.insert key value now).touch now2) (fun _ => rfl)]
  simp only [GDSFCache.insert]
  rw [heap.heapPush_deref_indexFree (fun nd : gdsfNode => nd.value) gdsf_indexFree_value,
    PtrSlice.alloc_deref_new]

/-- C3. In every state of each of the three caches, `Get(key)` right after a `Put(key, value)`
that returned `nil` reports found and returns `value`.  `Put` of the LRU and of the LFU cache
always returns `nil`. -/
theorem get_after_put_returns_value (key : String) (value : Bytes) (now now2 : Nat) :
    (∀ c : LRUCache, (c.Put key value now).2 = none ∧
      ((c.Put key value now).1.Get key now2).2 = (value, true)) ∧
    (∀ c : LFUCache, (c.Put key value now).2 = none ∧
      ((c.Put key value now).1.Get key now2).2 = (value, true)) ∧
    (∀ c : GDSFCache, (c.Put key value now).2 = none →
      ((c.Put key value now).1.Get key now2).2 = (value, true)) := by
  refine ⟨fun c => ⟨rfl, LRUCache.lru_get_after_put c key value now now2⟩,
    fun c => ⟨rfl, LFUCache.lfu_get_after_put c key value now now2⟩, ?_⟩
  intro c
  simp only [GDSFCache.Put]
  split
  · split
    · intro h
      simp at h
    · intro _
      exact GDSFCache.get_after_insert _ key value now now2
  · intro _
    exact GDSFCache.get_after_insert _ key value now now2

theorem get_after_put_returns_value_witness :
    ((NewGDSFCache 100 100).Put "key1" (blob 50) 1).2 = none ∧
    (((NewGDSFCache 100 100).Put "key1" (blob 50) 1).1.Get "key1" 2).2 = (blob 50, true) :=
  ⟨by decide,
    (get_after_put_returns_value "key1" (blob 50) 1 2).2.2 (NewGDSFCache 100 100) (by decide)⟩

/-! ## `Put` of the LRU and of the LFU cache: one eviction at most, never an error -/

theorem LRUCache.lru_put_effect (c : LRUCache) (key : String) (value : Bytes) (now : Nat) :
    ((value.length : Int) + c.currSize > c.maxSize ∧ c.list ≠ [] →
      ∃ e, e ∈ c.list ∧
        (c.Put key value now).1.list = c.elems.length :: c.list.erase e ∧
        (c.Put key value now).1.Size =
          c.Size - ((c.elems.getD e default).value.length : Int) + (value.length : Int)) ∧
    (¬ ((value.length : Int) + c.currSize > c.maxSize ∧ c.list ≠ []) →
      (c.Put key value now).1.list = c.elems.length :: c.list ∧
      (c.Put key value now).1.Size = c.Size + (value.length : Int)) := by
  constructor
  · rintro ⟨hover, hne⟩
    have hlen : c.list.length > 0 := List.length_pos.2 hne
    refine ⟨listBack c.list, listBack_mem c.list hlen, ?_, ?_⟩
    · simp [LRUCache.Put, hover, LRUCache.evict, hlen, listRemove]
    · simp [LRUCache.Put, hover, LRUCache.evict, hlen, LRUCache.Size]
  · intro hn
    by_cases hover : (value.length : Int) + c.currSize > c.maxSize
    · have hnil : c.list = [] := by
        by_contra hne
        exact hn ⟨hover, hne⟩
      simp [LRUCache.Put, hover, LRUCache.evict, hnil, LRUCache.Size]
    · simp [LRUCache.Put, hover, LRUCache.Size]

theorem LFUCache.lfu_put_effect (c : LFUCache) (key : String) (value : Bytes) (now : Nat) :
    ((value.length : Int) + c.currSize > c.maxSize ∧ 0 < c.pq.Len →
      ∃ e, e ∈ c.pq.slots ∧
        (c.Put key value now).1.pq.slots.Perm (c.pq.nodes.length :: c.pq.slots.erase e) ∧
        (c.Put key value now).1.Size =
          c.Size - ((c.pq.deref e).value.length : Int) + (value.length : Int)) ∧
    (¬ ((value.length : Int) + c.currSize > c.maxSize ∧ 0 < c.pq.Len) →
      (c.Put key value now).1.pq.slots.Perm (c.pq.nodes.length :: c.pq.slots) ∧
      (c.Put key value now).1.Size = c.Size + (value.length : Int)) := by
  have hperm := fun (c0 : LFUCache) => heap.Push_perm
    (c0.pq.alloc { key := key, value := value, count := 1, index := 0, lastUsed := now })
    c0.pq.nodes.length
  constructor
  · rintro ⟨hover, hq⟩
    have hpop := heap.Pop_perm c.pq hq
    refine ⟨(heap.Pop c.pq).2, hpop.mem_iff.2 (List.mem_cons_self _ _), ?_, ?_⟩
    · rw [LFUCache.Put_eq]
      simp only [if_pos hover]
      rw [LFUCache.evict_of_pos c hq]
      simp only
      have h1 := hperm { c with pq := (heap.Pop c.pq).1 }
      simp only [PtrSlice.alloc] at h1 ⊢
      rw [heap.heapPop_nodes_length c.pq hq] at h1 ⊢
      refine h1.trans (List.Perm.cons _ ?_)
      have h2 := hpop.erase (heap.Pop c.pq).2
      rw [List.erase_cons_head] at h2
      exact h2.symm
    · rw [LFUCache.Put_eq]
      simp only [if_pos hover, LFUCache.Size]
      rw [LFUCache.evict_of_pos c hq]
      simp only
      rw [heap.heapPop_deref_indexFree (fun nd : lfuNode => nd.value) lfu_indexFree_value c.pq hq]
  · intro hn
    have h0 : (if (value.length : Int) + c.currSize > c.maxSize then c.evict else c) = c := by
      split
      · rename_i hover
        exact LFUCache.evict_of_empty c (fun hq => hn ⟨hover, hq⟩)
      · rfl
    rw [LFUCache.Put_eq, h0]
    exact ⟨hperm c, rfl⟩

/-- C10. In every state, `Put` of the LRU and of the LFU cache returns `nil`.  When
`len(value) + currSize > maxSize` and the list, respectively the heap, is not empty, it removes
one entry `e` that was held and `Size()` becomes the old `Size()` minus the length of the value
of `e` plus `len(value)`; otherwise it removes nothing and `Size()` grows by `len(value)`.  The
new size can exceed `maxSize`: a cache of `maxSize` 10 holds 20 bytes after one `Put`. -/
theorem lru_lfu_put_succeeds_with_one_eviction_at_most (key : String) (value : Bytes)
    (now : Nat) :
    (∀ c : LRUCache, (c.Put key value now).2 = none ∧
      ((value.length : Int) + c.currSize > c.maxSize ∧ c.list ≠ [] →
        ∃ e, e ∈ c.list ∧
          (c.Put key value now).1.list = c.elems.length :: c.list.erase e ∧
          (c.Put key value now).1.Size =
            c.Size - ((c.elems.getD e default).value.length : Int) + (value.length : Int)) ∧
      (¬ ((value.length : Int) + c.currSize > c.maxSize ∧ c.list ≠ []) →
        (c.Put key value now).1.list = c.elems.length :: c.list ∧
        (c.Put key value now).1.Size = c.Size + (value.length : Int))) ∧
    (∀ c : LFUCache, (c.Put key value now).2 = none ∧
      ((value.length : Int) + c.currSize > c.maxSize ∧ 0 < c.pq.Len →
        ∃ e, e ∈ c.pq.slots ∧
          (c.Put key value now).1.pq.slots.Perm (c.pq.nodes.length :: c.pq.slots.erase e) ∧
          (c.Put key value now).1.Size =
            c.Size - ((c.pq.deref e).value.length : Int) + (value.length : Int)) ∧
      (¬ ((value.length : Int) + c.currSize > c.maxSize ∧ 0 < c.pq.Len) →
        (c.Put key value now).1.pq.slots.Perm (c.pq.nodes.length :: c.pq.slots) ∧
        (c.Put key value now).1.Size = c.Size + (value.length : Int))) ∧
    (((NewLRUCache 10).Put "key1" (blob 20) 1).1.Size = 20 ∧
      ((NewLFUCache 10).Put "key1" (blob 20) 1).1.Size = 20) :=
  ⟨fun c => ⟨rfl, LRUCache.lru_put_effect c key value now⟩,
    fun c => ⟨rfl, LFUCache.lfu_put_effect c key value now⟩, by decide⟩

theorem lru_lfu_put_succeeds_with_one_eviction_at_most_witness :
    (((blob 30).length : Int) + ((NewLFUCache 100).run lowerCountScenario).currSize >
        ((NewLFUCache 100).run lowerCountScenario).maxSize ∧
      0 < ((NewLFUCache 100).run lowerCountScenario).pq.Len) ∧
    (((NewLFUCache 100).run lowerCountScenario).Put "key3" (blob 30) 7).1.Size = 80 ∧
    ∃ e, e ∈ ((NewLFUCache 100).run lowerCountScenario).pq.slots ∧
      (((NewLFUCache 100).run lowerCountScenario).Put "key3" (blob 30) 7).1.pq.slots.Perm
        (((NewLFUCache 100).run lowerCountScenario).pq.nodes.length ::
          ((NewLFUCache 100).run lowerCountScenario).pq.slots.erase e) ∧
      (((NewLFUCache 100).run lowerCountScenario).Put "key3" (blob 30) 7).1.Size =
        ((NewLFUCache 100).run lowerCountScenario).Size -
          ((((NewLFUCache 100).run lowerCountScenario).pq.deref e).value.length : Int) +
          ((blob 30).length : Int) :=
  ⟨by decide, by decide,
    ((lru_lfu_put_succeeds_with_one_eviction_at_most "key3" (blob 30) 7).2.1
      ((NewLFUCache 100).run lowerCountScenario)).2.1 (by decide)⟩

/-! ## The loops run to their exit: the fuel is never used up -/

namespace heap

variable {N : Type} [HeapNode N]

theorem upLoop_fuel (f1 f2 : Nat) (q : PtrSlice N) (j : Nat) (h1 : j ≤ f1) (h2 : j ≤ f2) :
    upLoop f1 q j = upLoop f2 q j := by
  induction f1 generalizing f2 q j with
  | zero =>
    have hj : j = 0 := by omega
    subst hj
    cases f2 with
    | zero => rfl
    | succ f2 => simp [upLoop]
  | succ f1 ih =>
    cases f2 with
    | zero =>
      have hj : j = 0 := by omega
      subst hj
      simp [upLoop]
    | succ f2 =>
      simp only [upLoop]
      split
      · rfl
      · exact ih f2 _ _ (by omega) (by omega)

/-- The loop of `heap.up`, one iteration unfolded. -/
theorem up_eq (q : PtrSlice N) (j : Nat) :
    up q j =
      if ((j - 1) / 2 = j || !q.Less j ((j - 1) / 2)) = true then q
      else up (q.Swap ((j - 1) / 2) j) ((j - 1) / 2) := by
  cases j with
  | zero => simp [up, upLoop]
  | succ j =>
    simp only [up, upLoop]
    split
    · rfl
    · exact upLoop_fuel _ _ _ _ (by omega) (Nat.le_refl _)

theorem downLoop_fuel (f1 f2 : Nat) (q : PtrSlice N) (i n : Nat) (h1 : n ≤ f1 + i)
    (h2 : n ≤ f2 + i) : downLoop f1 q i n = downLoop f2 q i n := by
  induction f1 generalizing f2 q i with
  | zero =>
    cases f2 with
    | zero => rfl
    | succ f2 =>
      simp only [downLoop]
      rw [if_pos (by omega)]
  | succ f1 ih =>
    cases f2 with
    | zero =>
      simp only [downLoop]
      rw [if_pos (by omega)]
    | succ f2 =>
      simp only [downLoop]
      split
      · rfl
      · split
        · rfl
        · have hjc := minChild_cases q i n
          exact ih f2 _ _ (by omega) (by omega)

/-- The loop of `heap.down`, one iteration unfolded. -/
theorem downLoop_eq (q : PtrSlice N) (i n : Nat) :
    downLoop n q i n =
      if 2 * i + 1 ≥ n then (q, i)
      else if (!q.Less (minChild q i n) i) = true then (q, i)
      else downLoop n (q.Swap i (minChild q i n)) (minChild q i n) n := by
  cases n with
  | zero => simp [downLoop]
  | succ n =>
    simp only [downLoop]
    split
    · rfl
    · split
      · rfl
      · have hjc := minChild_cases q i (n + 1)
        exact downLoop_fuel n (n + 1) _ _ _ (by omega) (by omega)

end heap

theorem GDSFCache.scan_fuel (c : GDSFCache) (size : Int) (f1 f2 it : Nat) (es : Int)
    (h1 : c.queue.Len ≤ f1 + it) (h2 : c.queue.Len ≤ f2 + it) :
    c.scan size f1 it es = c.scan size f2 it es := by
  induction f1 generalizing f2 it es with
  | zero =>
    cases f2 with
    | zero => rfl
    | succ f2 =>
      simp only [GDSFCache.scan]
      rw [if_neg]
      simp only [Bool.and_eq_true, decide_eq_true_eq, not_and]
      intro _
      omega
  | succ f1 ih =>
    cases f2 with
    | zero =>
      simp only [GDSFCache.scan]
      rw [if_neg]
      simp only [Bool.and_eq_true, decide_eq_true_eq, not_and]
      intro _
      omega
    | succ f2 =>
      simp only [GDSFCache.scan]
      split
      · split
        · rfl
        · exact ih f2 _ _ (by omega) (by omega)
      · rfl

/-- The `for itemsToEvict` loop of `Put`, one iteration unfolded. -/
theorem GDSFCache.scan_eq (c : GDSFCache) (size : Int) (fuel it : Nat) (es : Int)
    (hf : c.queue.Len ≤ fuel + it) :
    c.scan size fuel it es =
      if ((it : Int) ≤ c.maxEvictions && it < c.queue.Len) = true then
        if size + c.usedSize - (es + (c.queue.kth (it - 1)).size) > c.maxSize then
          (c.evict it, it, es + (c.queue.kth (it - 1)).size)
        else c.scan size fuel (it + 1) (es + (c.queue.kth (it - 1)).size)
      else (c, it, es) := by
  cases fuel with
  | zero =>
    simp only [GDSFCache.scan]
    rw [if_neg]
    simp only [Bool.and_eq_true, decide_eq_true_eq, not_and]
    intro _
    omega
  | succ n =>
    simp only [GDSFCache.scan]
    split
    · split
      · rfl
      · exact GDSFCache.scan_fuel c size n (n + 1) (it + 1) _ (by omega) (by omega)
    · rfl

/-- The priority is `L + count` when the size is not zero and NaN when it is zero. -/
theorem GDSFCache.cost_eq (c : GDSFCache) (count size : Int) :
    c.cost count size = if size = 0 then F64.nan else c.L.add (F64.val count) := by
  simp only [GDSFCache.cost, GDSFCache.aquisitionCost, F64.ofInt, F64.mul, F64.div]
  split
  · cases c.L <;> rfl
  · rename_i h
    rw [Int.mul_ediv_cancel _ h]

/-! ## `Has` is a lookup without effect -/

theorem foldl_without_has {σ : Type} (step : σ → Op → σ)
    (hstep : ∀ c key, step c (.has key) = c) (ops : List Op) (c : σ) :
    ops.foldl step c = (ops.filter (fun op => !op.isHas)).foldl step c := by
  induction ops generalizing c with
  | nil => rfl
  | cons op ops ih =>
    cases op with
    | put key value now => simp [Op.isHas, ih]
    | get key now => simp [Op.isHas, ih]
    | has key => simp [Op.isHas, hstep, ih]

/-- C11. For each of the three caches and in every state, `Has(key)` is true exactly when the
table binds `key`, the call returns the cache as it was (list or heap, every node, the size
counter and `L`), and a sequence of calls leads to the same state as the sequence without its
`Has` calls, so a later `Put` evicts the same entries and returns the same cache. -/
theorem has_is_lookup_without_effect (ops : List Op) :
    (∀ c : LRUCache,
      (∀ key, c.Has key = true ↔ ∃ h, mapGet c.byKey key = some h) ∧
      (∀ key, c.step (.has key) = c) ∧
      c.run ops = c.run (ops.filter (fun op => !op.isHas)) ∧
      (∀ key value now, (c.run ops).Put key value now =
        (c.run (ops.filter (fun op => !op.isHas))).Put key value now)) ∧
    (∀ c : LFUCache,
      (∀ key, c.Has key = true ↔ ∃ h, mapGet c.byKey key = some h) ∧
      (∀ key, c.step (.has key) = c) ∧
      c.run ops = c.run (ops.filter (fun op => !op.isHas)) ∧
      (∀ key value now, (c.run ops).Put key value now =
        (c.run (ops.filter (fun op => !op.isHas))).Put key value now)) ∧
    (∀ c : GDSFCache,
      (∀ key, c.Has key = true ↔ ∃ h, mapGet c.byKey key = some h) ∧
      (∀ key, c.step (.has key) = c) ∧
      c.run ops = c.run (ops.filter (fun op => !op.isHas)) ∧
      (∀ key value now, (c.run ops).Put key value now =
        (c.run (ops.filter (fun op => !op.isHas))).Put key value now)) := by
  refine ⟨fun c => ?_, fun c => ?_, fun c => ?_⟩
  · have h := foldl_without_has LRUCache.step (fun _ _ => rfl) ops c
    refine ⟨fun key => ?_, fun _ => rfl, h, fun key value now => ?_⟩
    · simp only [LRUCache.Has, Option.isSome_iff_exists]
    · simp only [LRUCache.run, h]
  · have h := foldl_without_has LFUCache.step (fun _ _ => rfl) ops c
    refine ⟨fun key => ?_, fun _ => rfl, h, fun key value now => ?_⟩
    · simp only [LFUCache.Has, Option.isSome_iff_exists]
    · simp only [LFUCache.run, h]
  · have h := foldl_without_has GDSFCache.step (fun _ _ => rfl) ops c
    refine ⟨fun key => ?_, fun _ => rfl, h, fun key value now => ?_⟩
    · simp only [GDSFCache.Has, Option.isSome_iff_exists]
    · simp only [GDSFCache.run, h]

/-! ## The `index` field of a node is its slot -/

/-- C17. After any calls on a fresh LFU or GDSF cache, the node in slot `i` of the heap has
`index` field `i`, every node `h` bound in the table carries the bound key and sits in the slot
its `index` field records, and the index that `Get` passes to `heap.Fix` is that slot. -/
theorem heap_index_fields_track_slots (ops : List Op) :
    (∀ size : Int,
      (∀ i, i < ((NewLFUCache size).run ops).pq.Len →
        (((NewLFUCache size).run ops).pq.node i).index = (i : Int)) ∧
      (∀ key h now, mapGet ((NewLFUCache size).run ops).byKey key = some h →
        (((NewLFUCache size).run ops).pq.deref h).key = key ∧
        ∃ i, i < ((NewLFUCache size).run ops).pq.Len ∧
          ((NewLFUCache size).run ops).pq.slots.getD i 0 = h ∧
          (((NewLFUCache size).run ops).pq.deref h).index = (i : Int) ∧
          ((((NewLFUCache size).run ops).pq.update h (lfuNode.touch now)).deref h).index
            = (i : Int))) ∧
    (∀ size maxEvictions : Int,
      (∀ i, i < ((NewGDSFCache size maxEvictions).run ops).queue.Len →
        (((NewGDSFCache size maxEvictions).run ops).queue.node i).index = (i : Int)) ∧
      (∀ key h now, mapGet ((NewGDSFCache size maxEvictions).run ops).byKey key = some h →
        (((NewGDSFCache size maxEvictions).run ops).queue.deref h).key = key ∧
        ∃ i, i < ((NewGDSFCache size maxEvictions).run ops).queue.Len ∧
          ((NewGDSFCache size maxEvictions).run ops).queue.slots.getD i 0 = h ∧
          (((NewGDSFCache size maxEvictions).run ops).queue.deref h).index = (i : Int) ∧
          ((((NewGDSFCache size maxEvictions).run ops).queue.update h
            (((NewGDSFCache size maxEvictions).run ops).touch now)).deref h).index
            = (i : Int))) := by
  constructor
  · intro size
    have hi := LFUCache.lfu_inv_run size ops
    generalize (NewLFUCache size).run ops = c at hi
    refine ⟨fun i hil => hi.wf.indexOK i hil, fun key h now hg => ?_⟩
    obtain ⟨i, hil, hix, hidx⟩ := LFUCache.lfu_Get_index hi key now h hg
    refine ⟨(hi.table key h hg).2, i, hil, hix, ?_, hidx⟩
    have h2 := hi.wf.indexOK i hil
    simp only [PtrSlice.node, hix] at h2
    exact h2
  · intro size maxEvictions
    have hi := GDSFCache.gdsf_inv_run size maxEvictions ops
    generalize (NewGDSFCache size maxEvictions).run ops = c at hi
    refine ⟨fun i hil => hi.wf.indexOK i hil, fun key h now hg => ?_⟩
    obtain ⟨i, hil, hix, hidx⟩ := GDSFCache.gdsf_Get_index hi key now h hg
    refine ⟨(hi.table key h hg).2, i, hil, hix, ?_, hidx⟩
    have h2 := hi.wf.indexOK i hil
    simp only [PtrSlice.node, hix] at h2
    exact h2

theorem heap_index_fields_track_slots_witness :
    mapGet ((NewLFUCache 100).run lowerCountScenario).byKey "key1" = some 0 ∧
    (((NewLFUCache 100).run lowerCountScenario).pq.deref 0).key = "key1" ∧
    ∃ i, i < ((NewLFUCache 100).run lowerCountScenario).pq.Len ∧
      ((NewLFUCache 100).run lowerCountScenario).pq.slots.getD i 0 = 0 ∧
      (((NewLFUCache 100).run lowerCountScenario).pq.deref 0).index = (i : Int) ∧
      ((((NewLFUCache 100).run lowerCountScenario).pq.update 0 (lfuNode.touch 9)).deref 0).index
        = (i : Int) :=
  ⟨by decide,
    ((heap_index_fields_track_slots lowerCountScenario).1 100).2 "key1" 0 9 (by decide)⟩

/-! ## GDSF: the candidate read by `kth` and the priority of an empty value -/

/-- C18. With `key1` and `key2` put and `key2` read once, the heap holds two entries and
`kth(0)` is the entry of `key2` with priority 2, while the root of the heap is the entry of
`key1` with priority 1, and `evict(1)` removes `key1` and keeps `key2`. -/
theorem gdsf_kth_zero_is_not_the_minimum :
    ((NewGDSFCache 100 100).run secondReadScenario).queue.Len = 2 ∧
    (((NewGDSFCache 100 100).run secondReadScenario).queue.kth 0).key = "key2" ∧
    (((NewGDSFCache 100 100).run secondReadScenario).queue.kth 0).priority = F64.val 2 ∧
    (((NewGDSFCache 100 100).run secondReadScenario).queue.node 0).key = "key1" ∧
    (((NewGDSFCache 100 100).run secondReadScenario).queue.node 0).priority = F64.val 1 ∧
    (((NewGDSFCache 100 100).run secondReadScenario).evict 1).Has "key1" = false ∧
    (((NewGDSFCache 100 100).run secondReadScenario).evict 1).Has "key2" = true := by
  decide

/-- C19. `Put` of an empty value on a fresh cache returns `nil` and stores the priority NaN,
not `L + count = 1`; a `Get` of the key leaves the priority NaN with count 2. -/
theorem gdsf_priority_of_empty_value_is_nan :
    ((NewGDSFCache 100 100).Put "key1" [] 1).2 = none ∧
    ((NewGDSFCache 100 100).Put "key1" [] 1).1.L = F64.val 0 ∧
    (((NewGDSFCache 100 100).Put "key1" [] 1).1.queue.node 0).count = 1 ∧
    (((NewGDSFCache 100 100).Put "key1" [] 1).1.queue.node 0).priority = F64.nan ∧
    ((((NewGDSFCache 100 100).Put "key1" [] 1).1.Get "key1" 2).1.queue.node 0).count = 2 ∧
    ((((NewGDSFCache 100 100).Put "key1" [] 1).1.Get "key1" 2).1.queue.node 0).priority
      = F64.nan := by
  decide

/-! ## GDSF: the entries a `Put` removes -/

theorem GDSFCache.evict_zero (c : GDSFCache) : c.evict 0 = c := rfl

theorem GDSFCache.evict_afterPop (c : GDSFCache) (i : Nat) (hq : 0 < c.queue.Len) :
    c.evict (i + 1) = (c.afterPop i).evict i :=
  GDSFCache.evict_succ c i hq

theorem heap.Pop_Len {N : Type} [HeapNode N] (q : PtrSlice N) (hq : 0 < q.Len) :
    (heap.Pop q).1.Len + 1 = q.Len := by
  have := (heap.Pop_perm q hq).length_eq
  simp only [List.length_cons] at this
  exact this.symm

/-- The slots before `evict(k)` are the popped nodes and the slots left; `k` nodes are popped
when the queue holds that many. -/
theorem GDSFCache.evict_perm (c : GDSFCache) (k : Nat) :
    c.queue.slots.Perm (c.evicted k ++ (c.evict k).queue.slots) ∧
    (c.evicted k).length = min k c.queue.Len ∧
    (c.evict k).queue.nodes.length = c.queue.nodes.length := by
  induction k generalizing c with
  | zero => simp [GDSFCache.evicted, GDSFCache.evict]
  | succ i ih =>
    by_cases hq : 0 < c.queue.Len
    · rw [GDSFCache.evict_afterPop c i hq]
      obtain ⟨h1, h2, h3⟩ := ih (c.afterPop i)
      have hl := heap.Pop_Len c.queue hq
      have hl2 : (c.afterPop i).queue.Len + 1 = c.queue.Len := hl
      refine ⟨?_, ?_, ?_⟩
      · simp only [GDSFCache.evicted, hq, if_true, List.cons_append]
        exact (heap.Pop_perm c.queue hq).trans (List.Perm.cons _ h1)
      · simp only [GDSFCache.evicted, hq, if_true, List.length_cons, h2]
        omega
      · rw [h3]
        exact heap.heapPop_nodes_length c.queue hq
    · rw [GDSFCache.evict_empty c _ hq]
      have h0 : c.queue.Len = 0 := by omega
      simp [GDSFCache.evicted, hq, h0]

/-- The loop of `Put` returns the cache after `evict(batch)`; a non-zero `batch` is the final
`itemsToEvict`, within `maxEvictions` and below the length of the queue. -/
theorem GDSFCache.scan_batch (c : GDSFCache) (size : Int) (fuel it : Nat) (es : Int)
    (hit : 1 ≤ it) :
    (c.scan size fuel it es).1 = c.evict (c.batch size fuel it es) ∧
    (c.batch size fuel it es = 0 ∨
      (c.batch size fuel it es = (c.scan size fuel it es).2.1 ∧
        1 ≤ c.batch size fuel it es ∧
        (c.batch size fuel it es : Int) ≤ c.maxEvictions ∧
        c.batch size fuel it es < c.queue.Len)) := by
  induction fuel generalizing it es with
  | zero => exact ⟨rfl, Or.inl rfl⟩
  | succ fuel ih =>
    simp only [GDSFCache.scan, GDSFCache.batch]
    split
    · rename_i hc
      simp only [Bool.and_eq_true, decide_eq_true_eq] at hc
      split
      · exact ⟨rfl, Or.inr ⟨rfl, hit, hc.1, hc.2⟩⟩
      · exact ih (it + 1) _ (by omega)
    · exact ⟨rfl, Or.inl rfl⟩

theorem GDSFCache.putBatch_bound (c : GDSFCache) (value : Bytes) :
    c.putBatch value = 0 ∨
      (1 ≤ c.putBatch value ∧ (c.putBatch value : Int) ≤ c.maxEvictions ∧
        c.putBatch value < c.queue.Len) := by
  simp only [GDSFCache.putBatch]
  split
  · rcases (GDSFCache.scan_batch c (value.length : Int) c.queue.Len 1 0 (Nat.le_refl _)).2
      with h | h
    · exact Or.inl h
    · exact Or.inr ⟨h.2.1, h.2.2.1, h.2.2.2⟩
  · exact Or.inl rfl

/-- The two outcomes of `Put`: the value is inserted after `evict(putBatch)`, or an error is
returned and the cache is the one `Put` was called on. -/
theorem GDSFCache.Put_cases (c : GDSFCache) (key : String) (value : Bytes) (now : Nat) :
    ((c.Put key value now).2 = none ∧
      (c.Put key value now).1 = (c.evict (c.putBatch value)).insert key value now) ∨
    ((c.Put key value now).2 ≠ none ∧ (c.Put key value now).1 = c ∧ c.putBatch value = 0) := by
  simp only [GDSFCache.Put, GDSFCache.putBatch]
  split
  · obtain ⟨h1, h2⟩ := GDSFCache.scan_batch c (value.length : Int) c.queue.Len 1 0 (Nat.le_refl _)
    split
    · rename_i hmax
      right
      have hb : c.batch (value.length : Int) c.queue.Len 1 0 = 0 := by
        rcases h2 with h2 | h2
        · exact h2
        · rw [← h2.1] at hmax
          omega
      refine ⟨by simp, ?_, hb⟩
      simp only [h1, hb, GDSFCache.evict_zero]
    · left
      exact ⟨rfl, by simp only [h1]⟩
  · left
    exact ⟨rfl, rfl⟩

theorem GDSFCache.insert_perm (c : GDSFCache) (key : String) (value : Bytes) (now : Nat) :
    (c.insert key value now).queue.slots.Perm (c.queue.nodes.length :: c.queue.slots) :=
  heap.Push_perm _ _

/-- The entries `ev` that a `Put` removes and the entries `rest` that it keeps. -/
theorem GDSFCache.put_removes (c : GDSFCache) (key : String) (value : Bytes) (now : Nat) :
    ∃ ev rest : List Nat,
      (ev.length : Int) ≤ max c.maxEvictions 0 ∧
      ev.length < max 1 c.queue.Len ∧
      c.queue.slots.Perm (ev ++ rest) ∧
      ((c.Put key value now).2 = none →
        (c.Put key value now).1.queue.slots.Perm (c.queue.nodes.length :: rest)) ∧
      ((c.Put key value now).2 ≠ none → (c.Put key value now).1.queue.slots = rest) := by
  obtain ⟨hp, hl, hn⟩ := GDSFCache.evict_perm c (c.putBatch value)
  have hb := GDSFCache.putBatch_bound c value
  refine ⟨c.evicted (c.putBatch value), (c.evict (c.putBatch value)).queue.slots, ?_, ?_, hp,
    ?_, ?_⟩
  · rw [hl]
    rcases hb with hb | hb
    · rw [hb]
      simp
    · have : min (c.putBatch value) c.queue.Len = c.putBatch value := by omega
      rw [this]
      omega
  · rw [hl]
    omega
  · intro hok
    rcases GDSFCache.Put_cases c key value now with h | h
    · rw [h.2, ← hn]
      exact GDSFCache.insert_perm _ key value now
    · exact absurd hok h.1
  · intro herr
    rcases GDSFCache.Put_cases c key value now with h | h
    · exact absurd h.1 herr
    · rw [h.2.1, h.2.2, GDSFCache.evict_zero]

/-- C13. In every state, a `Put` of the GDSF cache removes the entries `ev` and keeps the
entries `rest` of the heap, where `ev` has at most `maxEvictions` members, and none when
`maxEvictions <= 0`; after success the heap holds `rest` and the new node, after an error it
holds `rest`. -/
theorem gdsf_put_removes_at_most_maxEvictions (c : GDSFCache) (key : String) (value : Bytes)
    (now : Nat) :
    ∃ ev rest : List Nat,
      (ev.length : Int) ≤ max c.maxEvictions 0 ∧
      (c.maxEvictions ≤ 0 → ev = []) ∧
      c.queue.slots.Perm (ev ++ rest) ∧
      ((c.Put key value now).2 = none →
        (c.Put key value now).1.queue.slots.Perm (c.queue.nodes.length :: rest)) ∧
      ((c.Put key value now).2 ≠ none → (c.Put key value now).1.queue.slots = rest) := by
  obtain ⟨ev, rest, h1, _, h3, h4, h5⟩ := GDSFCache.put_removes c key value now
  refine ⟨ev, rest, h1, ?_, h3, h4, h5⟩
  intro hle
  have : ev.length = 0 := by omega
  exact List.length_eq_zero.1 this

namespace heap

variable {N : Type} [HeapNode N]

theorem upLoop_Len (fuel : Nat) (q : PtrSlice N) (j : Nat) : (upLoop fuel q j).Len = q.Len := by
  induction fuel generalizing q j with
  | zero => rfl
  | succ fuel ih =>
    simp only [upLoop]
    split
    · rfl
    · rw [ih, PtrSlice.Swap_Len]

theorem downLoop_Len (fuel : Nat) (q : PtrSlice N) (i n : Nat) :
    (downLoop fuel q i n).1.Len = q.Len := by
  induction fuel generalizing q i with
  | zero => rfl
  | succ fuel ih =>
    simp only [downLoop]
    split
    · rfl
    · split
      · rfl
      · rw [ih, PtrSlice.Swap_Len]

theorem FixAt_Len (q : PtrSlice N) (index : Int) : (FixAt q index).Len = q.Len := by
  simp only [FixAt, Fix, down, up]
  split
  · rfl
  · split
    · rw [upLoop_Len, downLoop_Len]
    · rw [downLoop_Len]

end heap

theorem GDSFCache.Get_Len (c : GDSFCache) (key : String) (now : Nat) :
    (c.Get key now).1.queue.Len = c.queue.Len := by
  cases hg : mapGet c.byKey key with
  | none => rw [GDSFCache.gdsf_Get_miss c key now hg]
  | some x =>
    rw [GDSFCache.gdsf_Get_hit c key now x hg]
    simp only
    rw [heap.FixAt_Len]
    rfl

theorem GDSFCache.Put_Len_pos (c : GDSFCache) (key : String) (value : Bytes) (now : Nat)
    (hq : 0 < c.queue.Len) : 0 < (c.Put key value now).1.queue.Len := by
  obtain ⟨ev, rest, _, h2, h3, h4, h5⟩ := GDSFCache.put_removes c key value now
  have hl := h3.length_eq
  simp only [List.length_append] at hl
  simp only [PtrSlice.Len] at hq h2 ⊢
  by_cases hok : (c.Put key value now).2 = none
  · have := (h4 hok).length_eq
    simp only [List.length_cons] at this
    omega
  · rw [h5 hok]
    omega

theorem GDSFCache.run_Len_pos (c : GDSFCache) (ops : List Op) (hq : 0 < c.queue.Len) :
    0 < (c.run ops).queue.Len := by
  induction ops generalizing c with
  | nil => exact hq
  | cons op ops ih =>
    apply ih
    cases op with
    | put k v t => exact GDSFCache.Put_Len_pos c k v t hq
    | get k t =>
      simp only [GDSFCache.step]
      rw [GDSFCache.Get_Len]
      exact hq
    | has k => exact hq

/-- C20. In every state, the entries `ev` that a `Put` of the GDSF cache removes are fewer than
the entries held before the call when the heap is not empty (and none when it is empty); a
heap of one entry keeps it, and a heap that is not empty is not empty after any further
calls. -/
theorem gdsf_put_never_empties_the_heap (c : GDSFCache) (key : String) (value : Bytes)
    (now : Nat) :
    (∃ ev rest : List Nat,
      ev.length < max 1 c.queue.Len ∧
      c.queue.slots.Perm (ev ++ rest) ∧
      ((c.Put key value now).2 = none →
        (c.Put key value now).1.queue.slots.Perm (c.queue.nodes.length :: rest)) ∧
      ((c.Put key value now).2 ≠ none → (c.Put key value now).1.queue.slots = rest)) ∧
    (c.queue.Len = 1 → ∀ e, e ∈ c.queue.slots → e ∈ (c.Put key value now).1.queue.slots) ∧
    (∀ ops : List Op, 0 < c.queue.Len → 0 < (c.run ops).queue.Len) := by
  obtain ⟨ev, rest, _, h2, h3, h4, h5⟩ := GDSFCache.put_removes c key value now
  refine ⟨⟨ev, rest, h2, h3, h4, h5⟩, ?_, ?_⟩
  · intro h1 e he
    have hev : ev = [] := by
      apply List.length_eq_zero.1
      rw [h1] at h2
      omega
    subst hev
    have her : e ∈ rest := h3.mem_iff.1 he
    by_cases hok : (c.Put key value now).2 = none
    · exact (h4 hok).mem_iff.2 (List.mem_cons_of_mem _ her)
    · rw [h5 hok]
      exact her
  · exact fun ops hq => GDSFCache.run_Len_pos c ops hq

theorem gdsf_put_never_empties_the_heap_witness :
    ((NewGDSFCache 10 100).run [.put "key1" (blob 20) 1]).queue.Len = 1 ∧
    (((NewGDSFCache 10 100).run [.put "key1" (blob 20) 1]).Put "key2" (blob 30) 2).1.Has "key1"
      = true ∧
    ∀ e, e ∈ ((NewGDSFCache 10 100).run [.put "key1" (blob 20) 1]).queue.slots →
      e ∈ (((NewGDSFCache 10 100).run [.put "key1" (blob 20) 1]).Put "key2"
        (blob 30) 2).1.queue.slots :=
  ⟨by decide, by decide,
    (gdsf_put_never_empties_the_heap ((NewGDSFCache 10 100).run [.put "key1" (blob 20) 1])
      "key2" (blob 30) 2).2.1 (by decide)⟩

/-! ## The table and the ordering structure -/

theorem LRUCache.tableInv_evict {c : LRUCache} (hi : c.TableInv) : c.evict.TableInv := by
  unfold LRUCache.evict
  split
  · refine ⟨hi.nodup.erase _, fun e he => hi.inRange e (List.mem_of_mem_erase he), ?_⟩
    intro k h hk
    rw [mapGet_mapDelete] at hk
    split at hk
    · simp at hk
    · rename_i hne
      obtain ⟨h1, h2⟩ := hi.table k h hk
      refine ⟨?_, h2⟩
      apply (List.mem_erase_of_ne ?_).2 h1
      intro heq
      apply hne
      rw [← h2, heq]
      rfl
  · exact hi

theorem LRUCache.tableInv_put {c : LRUCache} (hi : c.TableInv) (key : String) (value : Bytes)
    (now : Nat) : (c.Put key value now).1.TableInv := by
  have h0 : (if (value.length : Int) + c.currSize > c.maxSize then c.evict else c).TableInv := by
    split
    · exact LRUCache.tableInv_evict hi
    · exact hi
  simp only [LRUCache.Put]
  generalize (if (value.length : Int) + c.currSize > c.maxSize then c.evict else c) = c0 at h0
  have hx : c0.elems.length ∉ c0.list := fun hm => Nat.lt_irrefl _ (h0.inRange _ hm)
  refine ⟨List.nodup_cons.2 ⟨hx, h0.nodup⟩, ?_, ?_⟩
  · intro e he
    simp only [List.mem_cons] at he
    simp only [List.length_append, List.length_singleton]
    rcases he with he | he
    · omega
    · have := h0.inRange e he
      omega
  · intro k h hk
    rw [mapGet_mapSet] at hk
    simp only [List.mem_cons, LRUCache.keyOf]
    split at hk
    · rename_i hkk
      have hh : h = c0.elems.length := (Option.some.inj hk).symm
      subst hh
      refine ⟨Or.inl rfl, ?_⟩
      simp [List.getD_eq_getElem?_getD, hkk]
    · obtain ⟨h1, h2⟩ := h0.table k h hk
      refine ⟨Or.inr h1, ?_⟩
      simp only [LRUCache.keyOf] at h2
      simp [List.getD_eq_getElem?_getD, List.getElem?_append_left (h0.inRange h h1)] at h2 ⊢
      exact h2

theorem LRUCache.tableInv_get {c : LRUCache} (hi : c.TableInv) (key : String) (now : Nat) :
    (c.Get key now).1.TableInv := by
  cases hg : mapGet c.byKey key with
  | none =>
    simp only [LRUCache.Get, hg]
    exact hi
  | some x =>
    obtain ⟨hm, _⟩ := hi.table key x hg
    simp only [LRUCache.Get, hg, listMoveToFront, if_pos hm]
    have hmem : ∀ e, e ∈ x :: c.list.erase x ↔ e ∈ c.list := by
      intro e
      exact (List.perm_cons_erase hm).mem_iff.symm
    refine ⟨(List.perm_cons_erase hm).nodup_iff.1 hi.nodup, ?_, ?_⟩
    · intro e he
      exact hi.inRange e ((hmem e).1 he)
    · intro k h hk
      obtain ⟨h1, h2⟩ := hi.table k h hk
      exact ⟨(hmem h).2 h1, h2⟩

theorem LRUCache.tableInv_run (size : Int) (ops : List Op) :
    ((NewLRUCache size).run ops).TableInv := by
  have hnew : (NewLRUCache size).TableInv := by
    refine ⟨?_, ?_, ?_⟩
    · simp [NewLRUCache]
    · intro e he
      simp [NewLRUCache] at he
    · intro k h hk
      simp [NewLRUCache, mapGet] at hk
  generalize NewLRUCache size = c at hnew
  induction ops generalizing c with
  | nil => exact hnew
  | cons op ops ih =>
    apply ih
    cases op with
    | put key value now => exact LRUCache.tableInv_put hnew key value now
    | get key now => exact LRUCache.tableInv_get hnew key now
    | has key => exact hnew

/-- C12, as stated, fails. After `key1` is put twice and a third `Put` evicts the older of the
two entries, an entry with key `key1` is in the list, respectively in the heap, while `Has`
reports `key1` absent: in the LRU, the LFU and the GDSF cache. -/
theorem key_held_but_absent_from_table :
    (¬ ∀ k, ((NewLRUCache 100).run duplicateKeyScenario).Has k = true ↔
        ∃ e, e ∈ ((NewLRUCache 100).run duplicateKeyScenario).list ∧
          ((NewLRUCache 100).run duplicateKeyScenario).keyOf e = k) ∧
    (¬ ∀ k, ((NewLFUCache 100).run duplicateKeyScenario).Has k = true ↔
        ∃ h, h ∈ ((NewLFUCache 100).run duplicateKeyScenario).pq.slots ∧
          (((NewLFUCache 100).run duplicateKeyScenario).pq.deref h).key = k) ∧
    (¬ ∀ k, ((NewGDSFCache 100 1).run duplicateKeyScenarioLarge).Has k = true ↔
        ∃ h, h ∈ ((NewGDSFCache 100 1).run duplicateKeyScenarioLarge).queue.slots ∧
          (((NewGDSFCache 100 1).run duplicateKeyScenarioLarge).queue.deref h).key = k) := by
  refine ⟨fun h1 => ?_, fun h1 => ?_, fun h1 => ?_⟩
  · have h := (h1 "key1").2 ⟨1, by decide, by decide⟩
    revert h
    decide
  · have h := (h1 "key1").2 ⟨1, by decide, by decide⟩
    revert h
    decide
  · have h := (h1 "key1").2 ⟨1, by decide, by decide⟩
    revert h
    decide

namespace PtrSlice

variable {N : Type} [HeapNode N]

theorem Bound.pop (keyOf : N → String) {q q2 : PtrSlice N} {byKey : KeyMap}
    {x : Nat} (hb : q.Bound keyOf byKey) (hnd : q.slots.Nodup)
    (hp : q.slots.Perm (x :: q2.slots)) (hk : ∀ h, keyOf (q2.deref h) = keyOf (q.deref h)) :
    q2.Bound keyOf (mapDelete byKey (keyOf (q2.deref x))) := by
  intro h hm
  have hmq : h ∈ q.slots := hp.mem_iff.2 (List.mem_cons_of_mem _ hm)
  have hxq : x ∈ q.slots := hp.mem_iff.2 (List.mem_cons_self _ _)
  have hnd2 := hp.nodup_iff.1 hnd
  have hne : h ≠ x := by
    intro heq
    exact (List.nodup_cons.1 hnd2).1 (heq ▸ hm)
  have b1 := hb h hmq
  rw [hk h, hk x, mapGet_mapDelete, if_neg]
  · exact b1
  · intro heq
    have b3 := hb x hxq
    rw [← heq, b1] at b3
    exact hne (Option.some.inj b3)

theorem Bound.insert (keyOf : N → String) {q q2 : PtrSlice N} {byKey : KeyMap}
    {x : Nat} {key : String} (hb : q.Bound keyOf byKey)
    (hp : q2.slots.Perm (x :: q.slots))
    (hold : ∀ h, h ∈ q.slots → keyOf (q2.deref h) = keyOf (q.deref h))
    (hnew : keyOf (q2.deref x) = key) (hfresh : mapGet byKey key = none) :
    q2.Bound keyOf (mapSet byKey key x) := by
  intro h hm
  have hm2 := hp.mem_iff.1 hm
  simp only [List.mem_cons] at hm2
  rcases hm2 with hm2 | hm2
  · subst hm2
    rw [hnew, mapGet_mapSet, if_pos rfl]
  · have b1 := hb h hm2
    rw [hold h hm2, mapGet_mapSet, if_neg]
    · exact b1
    · intro heq
      rw [heq, hfresh] at b1
      exact Option.noConfusion b1

theorem Bound.bound_congr (keyOf : N → String) {q q2 : PtrSlice N} {byKey : KeyMap}
    (hb : q.Bound keyOf byKey) (hp : q2.slots.Perm q.slots)
    (hk : ∀ h, keyOf (q2.deref h) = keyOf (q.deref h)) :
    q2.Bound keyOf byKey := by
  intro h hm
  rw [hk h]
  exact hb h (hp.mem_iff.1 hm)

end PtrSlice

namespace heap

variable {N : Type} [HeapNode N]

/-- After the allocation and `heap.Push` of a node, a pointer held before leads to the node it
led to, up to its `index` field. -/
theorem insert_deref_old {α : Type} (f : N → α) (hf : IndexFree f) {q : PtrSlice N}
    (hw : q.WF) (nd : N) (h : Nat) (hm : h ∈ q.slots) :
    f ((Push (q.alloc nd) q.nodes.length).deref h) = f (q.deref h) := by
  rw [heapPush_deref_indexFree f hf, PtrSlice.alloc_deref _ _ _ (hw.mem_inRange hm)]

theorem insert_deref_new {α : Type} (f : N → α) (hf : IndexFree f) (q : PtrSlice N) (nd : N) :
    f ((Push (q.alloc nd) q.nodes.length).deref q.nodes.length) = f nd := by
  rw [heapPush_deref_indexFree f hf, PtrSlice.alloc_deref_new]

theorem heapInsert_perm (q : PtrSlice N) (nd : N) :
    (Push (q.alloc nd) q.nodes.length).slots.Perm (q.nodes.length :: q.slots) :=
  Push_perm _ _

end heap

theorem Op.unbound_put {has : String → Bool} {key : String} {value : Bytes} {now : Nat}
    (h : Op.unbound has (.put key value now) = true) : has key = false := by
  simpa [Op.unbound] using h

theorem isSome_eq_false {o : Option Nat} (h : o.isSome = false) : o = none := by
  cases o with
  | none => rfl
  | some x => simp at h

/-! ### LRU -/

theorem LRUCache.lru_keyInv_evict {c : LRUCache} (hi : c.KeyInv) : c.evict.KeyInv := by
  refine ⟨LRUCache.tableInv_evict hi.inv, ?_⟩
  unfold LRUCache.evict
  split
  · rename_i hlen
    intro e he
    have hem : e ∈ c.list := List.mem_of_mem_erase he
    have hne : e ≠ listBack c.list := ((hi.inv.nodup.mem_erase_iff).1 he).1
    have hb := hi.bound e hem
    have hback := hi.bound _ (listBack_mem c.list hlen)
    show mapGet (mapDelete c.byKey (c.elems.getD (listBack c.list) default).key) (c.keyOf e)
      = some e
    rw [mapGet_mapDelete, if_neg]
    · exact hb
    · intro heq
      simp only [LRUCache.keyOf] at hb hback heq
      rw [heq, hback] at hb
      exact hne (Option.some.inj hb).symm
  · exact hi.bound

theorem LRUCache.lru_evict_unbound (c : LRUCache) (key : String)
    (hf : mapGet c.byKey key = none) : mapGet c.evict.byKey key = none := by
  unfold LRUCache.evict
  split
  · show mapGet (mapDelete c.byKey _) key = none
    rw [mapGet_mapDelete]
    split
    · rfl
    · exact hf
  · exact hf

theorem LRUCache.lru_keyInv_put {c : LRUCache} (hi : c.KeyInv) (key : String) (value : Bytes)
    (now : Nat) (hf : mapGet c.byKey key = none) : (c.Put key value now).1.KeyInv := by
  refine ⟨LRUCache.tableInv_put hi.inv key value now, ?_⟩
  have h0 : (if (value.length : Int) + c.currSize > c.maxSize then c.evict else c).KeyInv ∧
      mapGet (if (value.length : Int) + c.currSize > c.maxSize then c.evict else c).byKey key
        = none := by
    split
    · exact ⟨LRUCache.lru_keyInv_evict hi, LRUCache.lru_evict_unbound c key hf⟩
    · exact ⟨hi, hf⟩
  simp only [LRUCache.Put]
  generalize (if (value.length : Int) + c.currSize > c.maxSize then c.evict else c) = c0 at h0
  obtain ⟨h0, hf0⟩ := h0
  intro e he
  simp only [List.mem_cons] at he
  simp only [LRUCache.keyOf]
  rcases he with he | he
  · subst he
    simp [List.getD_eq_getElem?_getD, mapGet_mapSet]
  · have hb := h0.bound e he
    have hr := h0.inv.inRange e he
    simp only [LRUCache.keyOf] at hb
    have hd : (c0.elems ++ [({ key := key, value := value, lastUsed := now } : node)]).getD e
        default = c0.elems.getD e default := by
      simp [List.getD_eq_getElem?_getD, List.getElem?_append_left hr]
    rw [hd, mapGet_mapSet, if_neg]
    · exact hb
    · intro heq
      rw [heq, hf0] at hb
      exact Option.noConfusion hb

theorem LRUCache.lru_keyInv_get {c : LRUCache} (hi : c.KeyInv) (key : String) (now : Nat) :
    (c.Get key now).1.KeyInv := by
  refine ⟨LRUCache.tableInv_get hi.inv key now, ?_⟩
  cases hg : mapGet c.byKey key with
  | none =>
    simp only [LRUCache.Get, hg]
    exact hi.bound
  | some x =>
    obtain ⟨hm, _⟩ := hi.inv.table key x hg
    simp only [LRUCache.Get, hg, listMoveToFront, if_pos hm]
    intro e he
    exact hi.bound e ((List.perm_cons_erase hm).mem_iff.2 he)

theorem LRUCache.lru_keyInv_run {c : LRUCache} (hi : c.KeyInv) (ops : List Op)
    (hu : c.putsUnbound ops = true) : (c.run ops).KeyInv := by
  induction ops generalizing c with
  | nil => exact hi
  | cons op ops ih =>
    simp only [LRUCache.putsUnbound, Bool.and_eq_true] at hu
    apply ih ?_ hu.2
    cases op with
    | put key value now =>
      exact LRUCache.lru_keyInv_put hi key value now (isSome_eq_false (Op.unbound_put hu.1))
    | get key now => exact LRUCache.lru_keyInv_get hi key now
    | has key => exact hi

/-! ### LFU -/

theorem LFUCache.lfu_keyInv_evict {c : LFUCache} (hi : c.KeyInv) : c.evict.KeyInv := by
  refine ⟨LFUCache.lfu_inv_evict hi.inv, ?_⟩
  by_cases hq : 0 < c.pq.Len
  · rw [LFUCache.evict_of_pos c hq]
    exact hi.bound.pop lfuNode.key hi.inv.wf.nodup (heap.Pop_perm c.pq hq)
      (heap.heapPop_deref_indexFree (fun nd : lfuNode => nd.key) lfu_indexFree_key c.pq hq)
  · rw [LFUCache.evict_of_empty c hq]
    exact hi.bound

theorem LFUCache.lfu_evict_unbound (c : LFUCache) (key : String)
    (hf : mapGet c.byKey key = none) : mapGet c.evict.byKey key = none := by
  by_cases hq : 0 < c.pq.Len
  · rw [LFUCache.evict_of_pos c hq]
    show mapGet (mapDelete c.byKey _) key = none
    rw [mapGet_mapDelete]
    split
    · rfl
    · exact hf
  · rw [LFUCache.evict_of_empty c hq]
    exact hf

theorem LFUCache.lfu_keyInv_put {c : LFUCache} (hi : c.KeyInv) (key : String)
    (value : Bytes) (now : Nat) (hf : mapGet c.byKey key = none) :
    (c.Put key value now).1.KeyInv := by
  refine ⟨LFUCache.lfu_inv_put hi.inv key value now, ?_⟩
  have h0 : (if (value.length : Int) + c.currSize > c.maxSize then c.evict else c).KeyInv ∧
      mapGet (if (value.length : Int) + c.currSize > c.maxSize then c.evict else c).byKey key
        = none := by
    split
    · exact ⟨LFUCache.lfu_keyInv_evict hi, LFUCache.lfu_evict_unbound c key hf⟩
    · exact ⟨hi, hf⟩
  rw [LFUCache.Put_eq]
  generalize (if (value.length : Int) + c.currSize > c.maxSize then c.evict else c) = c0 at h0
  exact h0.1.bound.insert lfuNode.key (heap.heapInsert_perm c0.pq _)
    (fun h hm => heap.insert_deref_old (fun nd : lfuNode => nd.key) lfu_indexFree_key
      h0.1.inv.wf _ h hm)
    (heap.insert_deref_new (fun nd : lfuNode => nd.key) lfu_indexFree_key c0.pq _)
    h0.2

theorem LFUCache.lfu_keyInv_get {c : LFUCache} (hi : c.KeyInv) (key : String)
    (now : Nat) : (c.Get key now).1.KeyInv := by
  refine ⟨LFUCache.lfu_inv_get hi.inv key now, ?_⟩
  cases hg : mapGet c.byKey key with
  | none =>
    rw [LFUCache.lfu_Get_miss c key now hg]
    exact hi.bound
  | some x =>
    obtain ⟨i, hil, _, hidx⟩ := LFUCache.lfu_Get_index hi.inv key now x hg
    rw [LFUCache.lfu_Get_hit c key now x hg, hidx]
    have hil2 : ((i : Nat) : Int) < ((c.pq.update x (lfuNode.touch now)).Len : Int) := by
      have : (c.pq.update x (lfuNode.touch now)).Len = c.pq.Len := rfl
      rw [this]
      exact_mod_cast hil
    have hs := heap.FixAt_swaps (c.pq.update x (lfuNode.touch now)) (i : Int) hil2
    apply hi.bound.bound_congr lfuNode.key hs.perm
    intro h
    rw [hs.deref_indexFree (fun nd => nd.key) lfu_indexFree_key,
      PtrSlice.update_deref_fixed (fun nd : lfuNode => nd.key) (lfuNode.touch now)
        (fun _ => rfl)]

theorem LFUCache.lfu_keyInv_run {c : LFUCache} (hi : c.KeyInv) (ops : List Op)
    (hu : c.putsUnbound ops = true) : (c.run ops).KeyInv := by
  induction ops generalizing c with
  | nil => exact hi
  | cons op ops ih =>
    simp only [LFUCache.putsUnbound, Bool.and_eq_true] at hu
    apply ih ?_ hu.2
    cases op with
    | put key value now =>
      exact LFUCache.lfu_keyInv_put hi key value now (isSome_eq_false (Op.unbound_put hu.1))
    | get key now => exact LFUCache.lfu_keyInv_get hi key now
    | has key => exact hi

/-! ### GDSF -/

theorem GDSFCache.inv_afterPop {c : GDSFCache} (hi : c.Inv) (hq : 0 < c.queue.Len) (i : Nat) :
    (c.afterPop i).Inv :=
  GDSFCache.inv_pop hi hq _

theorem GDSFCache.gdsf_keyInv_evict {c : GDSFCache} (hi : c.KeyInv) (k : Nat) :
    (c.evict k).KeyInv := by
  induction k generalizing c with
  | zero => exact hi
  | succ i ih =>
    by_cases hq : 0 < c.queue.Len
    · rw [GDSFCache.evict_afterPop c i hq]
      apply ih
      refine ⟨GDSFCache.inv_afterPop hi.inv hq i, ?_⟩
      exact hi.bound.pop gdsfNode.key hi.inv.wf.nodup (heap.Pop_perm c.queue hq)
        (heap.heapPop_deref_indexFree gdsfNode.key gdsf_indexFree_key c.queue hq)
    · rw [GDSFCache.evict_empty c _ hq]
      exact hi

theorem GDSFCache.gdsf_evict_unbound (c : GDSFCache) (k : Nat) (key : String)
    (hf : mapGet c.byKey key = none) : mapGet (c.evict k).byKey key = none := by
  induction k generalizing c with
  | zero => exact hf
  | succ i ih =>
    by_cases hq : 0 < c.queue.Len
    · rw [GDSFCache.evict_afterPop c i hq]
      apply ih
      show mapGet (mapDelete c.byKey _) key = none
      rw [mapGet_mapDelete]
      split
      · rfl
      · exact hf
    · rw [GDSFCache.evict_empty c _ hq]
      exact hf

theorem GDSFCache.gdsf_keyInv_insert {c : GDSFCache} (hi : c.KeyInv)
    (key : String) (value : Bytes) (now : Nat) (hf : mapGet c.byKey key = none) :
    (c.insert key value now).KeyInv := by
  refine ⟨GDSFCache.gdsf_inv_insert hi.inv key value now, ?_⟩
  exact hi.bound.insert gdsfNode.key (heap.heapInsert_perm c.queue _)
    (fun h hm => heap.insert_deref_old gdsfNode.key gdsf_indexFree_key hi.inv.wf _ h hm)
    (heap.insert_deref_new gdsfNode.key gdsf_indexFree_key c.queue _)
    hf

theorem GDSFCache.gdsf_keyInv_put {c : GDSFCache} (hi : c.KeyInv) (key : String)
    (value : Bytes) (now : Nat) (hf : mapGet c.byKey key = none) :
    (c.Put key value now).1.KeyInv := by
  rcases GDSFCache.Put_cases c key value now with h | h
  · rw [h.2]
    exact GDSFCache.gdsf_keyInv_insert (GDSFCache.gdsf_keyInv_evict hi _) key value now
      (GDSFCache.gdsf_evict_unbound c _ key hf)
  · rw [h.2.1]
    exact hi

theorem GDSFCache.gdsf_keyInv_get {c : GDSFCache} (hi : c.KeyInv) (key : String)
    (now : Nat) : (c.Get key now).1.KeyInv := by
  refine ⟨GDSFCache.gdsf_inv_get hi.inv key now, ?_⟩
  cases hg : mapGet c.byKey key with
  | none =>
    rw [GDSFCache.gdsf_Get_miss c key now hg]
    exact hi.bound
  | some x =>
    have hs := GDSFCache.Get_swaps hi.inv key now x hg
    have hbk : (c.Get key now).1.byKey = c.byKey := by
      rw [GDSFCache.gdsf_Get_hit c key now x hg]
    rw [hbk]
    apply hi.bound.bound_congr gdsfNode.key hs.perm
    intro h
    rw [hs.deref_indexFree gdsfNode.key gdsf_indexFree_key,
      PtrSlice.update_deref_fixed gdsfNode.key (c.touch now) (fun _ => rfl)]

theorem GDSFCache.gdsf_keyInv_run {c : GDSFCache} (hi : c.KeyInv) (ops : List Op)
    (hu : c.putsUnbound ops = true) : (c.run ops).KeyInv := by
  induction ops generalizing c with
  | nil => exact hi
  | cons op ops ih =>
    simp only [GDSFCache.putsUnbound, Bool.and_eq_true] at hu
    apply ih ?_ hu.2
    cases op with
    | put key value now =>
      exact GDSFCache.gdsf_keyInv_put hi key value now (isSome_eq_false (Op.unbound_put hu.1))
    | get key now => exact GDSFCache.gdsf_keyInv_get hi key now
    | has key => exact hi

/-- C12, amended. After any calls on a fresh cache, a key for which `Has` is true has an entry
that carries it in the recency list, respectively in the heap, namely the entry the table
binds to it; when every `Put` was called with a key for which `Has` was false at the time of
the call, `Has(key)` is true exactly when an entry with that key is in the list, respectively
in the heap. -/
theorem table_keys_are_held (ops : List Op) :
    (∀ size : Int,
      (∀ k, ((NewLRUCache size).run ops).Has k = true →
        ∃ e, e ∈ ((NewLRUCache size).run ops).list ∧
          ((NewLRUCache size).run ops).keyOf e = k ∧
          mapGet ((NewLRUCache size).run ops).byKey k = some e) ∧
      ((NewLRUCache size).putsUnbound ops = true →
        ∀ k, ((NewLRUCache size).run ops).Has k = true ↔
          ∃ e, e ∈ ((NewLRUCache size).run ops).list ∧
            ((NewLRUCache size).run ops).keyOf e = k)) ∧
    (∀ size : Int,
      (∀ k, ((NewLFUCache size).run ops).Has k = true →
        ∃ h, h ∈ ((NewLFUCache size).run ops).pq.slots ∧
          (((NewLFUCache size).run ops).pq.deref h).key = k ∧
          mapGet ((NewLFUCache size).run ops).byKey k = some h) ∧
      ((NewLFUCache size).putsUnbound ops = true →
        ∀ k, ((NewLFUCache size).run ops).Has k = true ↔
          ∃ h, h ∈ ((NewLFUCache size).run ops).pq.slots ∧
            (((NewLFUCache size).run ops).pq.deref h).key = k)) ∧
    (∀ size maxEvictions : Int,
      (∀ k, ((NewGDSFCache size maxEvictions).run ops).Has k = true →
        ∃ h, h ∈ ((NewGDSFCache size maxEvictions).run ops).queue.slots ∧
          (((NewGDSFCache size maxEvictions).run ops).queue.deref h).key = k ∧
          mapGet ((NewGDSFCache size maxEvictions).run ops).byKey k = some h) ∧
      ((NewGDSFCache size maxEvictions).putsUnbound ops = true →
        ∀ k, ((NewGDSFCache size maxEvictions).run ops).Has k = true ↔
          ∃ h, h ∈ ((NewGDSFCache size maxEvictions).run ops).queue.slots ∧
            (((NewGDSFCache size maxEvictions).run ops).queue.deref h).key = k)) := by
  refine ⟨fun size => ⟨?_, ?_⟩, fun size => ⟨?_, ?_⟩, fun size maxEvictions => ⟨?_, ?_⟩⟩
  · have hi := LRUCache.tableInv_run size ops
    generalize (NewLRUCache size).run ops = c at hi
    intro k hk
    obtain ⟨e, he⟩ := Option.isSome_iff_exists.1 hk
    exact ⟨e, (hi.table k e he).1, (hi.table k e he).2, he⟩
  · intro hu
    have hnew : (NewLRUCache size).KeyInv :=
      ⟨⟨by simp [NewLRUCache], fun e he => by simp [NewLRUCache] at he,
          fun k h hk => by simp [NewLRUCache, mapGet] at hk⟩,
        fun e he => by simp [NewLRUCache] at he⟩
    have hi := LRUCache.lru_keyInv_run hnew ops hu
    generalize (NewLRUCache size).run ops = c at hi
    intro k
    simp only [LRUCache.Has, Option.isSome_iff_exists]
    constructor
    · rintro ⟨h, hh⟩
      exact ⟨h, hi.inv.table k h hh⟩
    · rintro ⟨h, hm, hk⟩
      exact ⟨h, hk ▸ hi.bound h hm⟩
  · have hi := LFUCache.lfu_inv_run size ops
    generalize (NewLFUCache size).run ops = c at hi
    intro k hk
    obtain ⟨e, he⟩ := Option.isSome_iff_exists.1 hk
    exact ⟨e, (hi.table k e he).1, (hi.table k e he).2, he⟩
  · intro hu
    have hnew : (NewLFUCache size).KeyInv :=
      ⟨LFUCache.lfu_inv_new size, fun h hm => by simp [NewLFUCache] at hm⟩
    have hi := LFUCache.lfu_keyInv_run hnew ops hu
    generalize (NewLFUCache size).run ops = c at hi
    intro k
    simp only [LFUCache.Has, Option.isSome_iff_exists]
    constructor
    · rintro ⟨h, hh⟩
      exact ⟨h, hi.inv.table k h hh⟩
    · rintro ⟨h, hm, hk⟩
      exact ⟨h, hk ▸ hi.bound h hm⟩
  · have hi := GDSFCache.gdsf_inv_run size maxEvictions ops
    generalize (NewGDSFCache size maxEvictions).run ops = c at hi
    intro k hk
    obtain ⟨e, he⟩ := Option.isSome_iff_exists.1 hk
    exact ⟨e, (hi.table k e he).1, (hi.table k e he).2, he⟩
  · intro hu
    have hnew : (NewGDSFCache size maxEvictions).KeyInv :=
      ⟨GDSFCache.gdsf_inv_new size maxEvictions, fun h hm => by simp [NewGDSFCache] at hm⟩
    have hi := GDSFCache.gdsf_keyInv_run hnew ops hu
    generalize (NewGDSFCache size maxEvictions).run ops = c at hi
    intro k
    simp only [GDSFCache.Has, Option.isSome_iff_exists]
    constructor
    · rintro ⟨h, hh⟩
      exact ⟨h, hi.inv.table k h hh⟩
    · rintro ⟨h, hm, hk⟩
      exact ⟨h, hk ▸ hi.bound h hm⟩

theorem table_keys_are_held_witness :
    ¬ (reputScenario.filterMap Op.putKey).Nodup ∧
    (NewLFUCache 100).putsUnbound reputScenario = true ∧
    ((NewLFUCache 100).run reputScenario).pq.Len = 2 ∧
    ((NewLFUCache 100).run reputScenario).Has "key1" = true ∧
    ∀ k, ((NewLFUCache 100).run reputScenario).Has k = true ↔
      ∃ h, h ∈ ((NewLFUCache 100).run reputScenario).pq.slots ∧
        (((NewLFUCache 100).run reputScenario).pq.deref h).key = k :=
  ⟨by decide, by decide, by decide, by decide,
    ((table_keys_are_held reputScenario).2.1 100).2 (by decide)⟩

/-! ## `Put` of a key that is present -/

theorem LRUCache.lru_put_keeps_all {c : LRUCache} (hi : c.TableInv) (key : String)
    (value : Bytes) (now : Nat)
    (hkeep : ∀ e, e ∈ c.list → e ∈ (c.Put key value now).1.list) :
    (c.Put key value now).1.list = c.elems.length :: c.list ∧
    (c.Put key value now).1.Size = c.Size + (value.length : Int) ∧
    (c.Put key value now).1.elems =
      c.elems ++ [{ key := key, value := value, lastUsed := now }] := by
  obtain ⟨h1, h2⟩ := LRUCache.lru_put_effect c key value now
  by_cases hc : (value.length : Int) + c.currSize > c.maxSize ∧ c.list ≠ []
  · exfalso
    obtain ⟨e, he, hl, _⟩ := h1 hc
    have := hkeep e he
    rw [hl, List.mem_cons] at this
    rcases this with h | h
    · have := hi.inRange e he
      omega
    · exact ((hi.nodup.mem_erase_iff).1 h).1 rfl
  · refine ⟨(h2 hc).1, (h2 hc).2, ?_⟩
    have h0 : (if (value.length : Int) + c.currSize > c.maxSize then c.evict else c) = c := by
      split
      · rename_i hover
        have hnil : c.list = [] := by
          by_contra hne
          exact hc ⟨hover, hne⟩
        simp [LRUCache.evict, hnil]
      · rfl
    simp only [LRUCache.Put, h0]

theorem LFUCache.lfu_put_keeps_all {c : LFUCache} (hi : c.Inv) (key : String)
    (value : Bytes) (now : Nat)
    (hkeep : ∀ e, e ∈ c.pq.slots → e ∈ (c.Put key value now).1.pq.slots) :
    (if (value.length : Int) + c.currSize > c.maxSize then c.evict else c) = c := by
  obtain ⟨h1, _⟩ := LFUCache.lfu_put_effect c key value now
  by_cases hc : (value.length : Int) + c.currSize > c.maxSize ∧ 0 < c.pq.Len
  · exfalso
    obtain ⟨e, he, hl, _⟩ := h1 hc
    have := hl.mem_iff.1 (hkeep e he)
    rw [List.mem_cons] at this
    rcases this with h | h
    · have := hi.wf.mem_inRange he
      omega
    · exact ((hi.wf.nodup.mem_erase_iff).1 h).1 rfl
  · split
    · rename_i hover
      exact LFUCache.evict_of_empty c (fun hq => hc ⟨hover, hq⟩)
    · rfl

theorem GDSFCache.gdsf_put_keeps_all {c : GDSFCache} (hi : c.Inv) (key : String)
    (value : Bytes) (now : Nat) (hok : (c.Put key value now).2 = none)
    (hkeep : ∀ e, e ∈ c.queue.slots → e ∈ (c.Put key value now).1.queue.slots) :
    (c.Put key value now).1 = c.insert key value now := by
  rcases GDSFCache.Put_cases c key value now with h | h
  · obtain ⟨hp, hl, hn⟩ := GDSFCache.evict_perm c (c.putBatch value)
    have hb : c.putBatch value = 0 := by
      by_contra hne
      have hpos : 0 < (c.evicted (c.putBatch value)).length := by
        rw [hl]
        rcases GDSFCache.putBatch_bound c value with h0 | h0
        · exact absurd h0 hne
        · omega
      obtain ⟨e, he⟩ := List.exists_mem_of_length_pos hpos
      have hec : e ∈ c.queue.slots := hp.mem_iff.2 (List.mem_append_left _ he)
      have hnd : (c.evicted (c.putBatch value) ++ (c.evict (c.putBatch value)).queue.slots).Nodup :=
        hp.nodup_iff.1 hi.wf.nodup
      have hnr : e ∉ (c.evict (c.putBatch value)).queue.slots :=
        fun hr => (List.nodup_append.1 hnd).2.2 he hr
      have := hkeep e hec
      rw [h.2] at this
      have := (GDSFCache.insert_perm _ key value now).mem_iff.1 this
      rw [List.mem_cons] at this
      rcases this with h3 | h3
      · have := hi.wf.mem_inRange hec
        omega
      · exact hnr h3
    rw [h.2, hb, GDSFCache.evict_zero]
  · exact absurd hok h.1

/-- C14, as stated, fails for the GDSF cache. With `maxEvictions` 0 and `key1` held with a
50-byte value, `Put(key1, 60 bytes)` evicts nothing and returns the error: the heap gains no
entry, `Size()` stays 50 and `Get(key1)` returns the old value. -/
theorem gdsf_put_of_present_key_can_fail :
    ¬ (((NewGDSFCache 100 0).run singleScenario).Has "key1" = true →
        (∀ e, e ∈ ((NewGDSFCache 100 0).run singleScenario).queue.slots →
          e ∈ (((NewGDSFCache 100 0).run singleScenario).Put "key1" (blob 60) 2).1.queue.slots) →
        (((NewGDSFCache 100 0).run singleScenario).Put "key1" (blob 60) 2).1.queue.Len =
            ((NewGDSFCache 100 0).run singleScenario).queue.Len + 1 ∧
          (((NewGDSFCache 100 0).run singleScenario).Put "key1" (blob 60) 2).1.Size =
            ((NewGDSFCache 100 0).run singleScenario).Size + 60 ∧
          ((((NewGDSFCache 100 0).run singleScenario).Put "key1" (blob 60) 2).1.Get
            "key1" 3).2 = (blob 60, true)) := by
  intro h
  have h2 := h (by decide) (by decide)
  revert h2
  decide

/-- C14, amended. After any calls on a fresh cache, let `key` be bound to the entry `h` and let
`Put(key, value)` return `nil` and remove no entry.  Then `h` is still in the list,
respectively the heap, with its key and its value, the structure holds the entries it held
and one new entry different from `h`, `Size()` has grown by `len(value)`, and `Get(key)` returns
`value`. -/
theorem put_of_present_key_is_independent_admission (ops : List Op) (key : String)
    (value : Bytes) (now now2 : Nat) (h : Nat) :
    (∀ size : Int,
      mapGet ((NewLRUCache size).run ops).byKey key = some h →
      (((NewLRUCache size).run ops).Put key value now).2 = none →
      (∀ e, e ∈ ((NewLRUCache size).run ops).list →
        e ∈ (((NewLRUCache size).run ops).Put key value now).1.list) →
      h ∈ (((NewLRUCache size).run ops).Put key value now).1.list ∧
      (((NewLRUCache size).run ops).Put key value now).1.keyOf h = key ∧
      ((((NewLRUCache size).run ops).Put key value now).1.elems.getD h default).value =
        (((NewLRUCache size).run ops).elems.getD h default).value ∧
      (((NewLRUCache size).run ops).Put key value now).1.list =
        ((NewLRUCache size).run ops).elems.length :: ((NewLRUCache size).run ops).list ∧
      h ≠ ((NewLRUCache size).run ops).elems.length ∧
      (((NewLRUCache size).run ops).Put key value now).1.Size =
        ((NewLRUCache size).run ops).Size + (value.length : Int) ∧
      ((((NewLRUCache size).run ops).Put key value now).1.Get key now2).2 = (value, true)) ∧
    (∀ size : Int,
      mapGet ((NewLFUCache size).run ops).byKey key = some h →
      (((NewLFUCache size).run ops).Put key value now).2 = none →
      (∀ e, e ∈ ((NewLFUCache size).run ops).pq.slots →
        e ∈ (((NewLFUCache size).run ops).Put key value now).1.pq.slots) →
      h ∈ (((NewLFUCache size).run ops).Put key value now).1.pq.slots ∧
      ((((NewLFUCache size).run ops).Put key value now).1.pq.deref h).key = key ∧
      ((((NewLFUCache size).run ops).Put key value now).1.pq.deref h).value =
        (((NewLFUCache size).run ops).pq.deref h).value ∧
      (((NewLFUCache size).run ops).Put key value now).1.pq.slots.Perm
        (((NewLFUCache size).run ops).pq.nodes.length :: ((NewLFUCache size).run ops).pq.slots) ∧
      h ≠ ((NewLFUCache size).run ops).pq.nodes.length ∧
      (((NewLFUCache size).run ops).Put key value now).1.Size =
        ((NewLFUCache size).run ops).Size + (value.length : Int) ∧
      ((((NewLFUCache size).run ops).Put key value now).1.Get key now2).2 = (value, true)) ∧
    (∀ size maxEvictions : Int,
      mapGet ((NewGDSFCache size maxEvictions).run ops).byKey key = some h →
      (((NewGDSFCache size maxEvictions).run ops).Put key value now).2 = none →
      (∀ e, e ∈ ((NewGDSFCache size maxEvictions).run ops).queue.slots →
        e ∈ (((NewGDSFCache size maxEvictions).run ops).Put key value now).1.queue.slots) →
      h ∈ (((NewGDSFCache size maxEvictions).run ops).Put key value now).1.queue.slots ∧
      ((((NewGDSFCache size maxEvictions).run ops).Put key value now).1.queue.deref h).key
        = key ∧
      ((((NewGDSFCache size maxEvictions).run ops).Put key value now).1.queue.deref h).value =
        (((NewGDSFCache size maxEvictions).run ops).queue.deref h).value ∧
      (((NewGDSFCache size maxEvictions).run ops).Put key value now).1.queue.slots.Perm
        (((NewGDSFCache size maxEvictions).run ops).queue.nodes.length ::
          ((NewGDSFCache size maxEvictions).run ops).queue.slots) ∧
      h ≠ ((NewGDSFCache size maxEvictions).run ops).queue.nodes.length ∧
      (((NewGDSFCache size maxEvictions).run ops).Put key value now).1.Size =
        ((NewGDSFCache size maxEvictions).run ops).Size + (value.length : Int) ∧
      ((((NewGDSFCache size maxEvictions).run ops).Put key value now).1.Get key now2).2
        = (value, true)) := by
  refine ⟨fun size => ?_, fun size => ?_, fun size maxEvictions => ?_⟩
  · have hi := LRUCache.tableInv_run size ops
    generalize (NewLRUCache size).run ops = c at hi
    intro hg _ hkeep
    obtain ⟨hl, hs, he⟩ := LRUCache.lru_put_keeps_all hi key value now hkeep
    obtain ⟨hm, hk⟩ := hi.table key h hg
    have hr := hi.inRange h hm
    have hd : (c.Put key value now).1.elems.getD h default = c.elems.getD h default := by
      rw [he]
      simp [List.getD_eq_getElem?_getD, List.getElem?_append_left hr]
    refine ⟨?_, ?_, ?_, hl, by omega, hs, LRUCache.lru_get_after_put c key value now now2⟩
    · rw [hl]
      exact List.mem_cons_of_mem _ hm
    · simp only [LRUCache.keyOf] at hk ⊢
      rw [hd, hk]
    · rw [hd]
  · have hi := LFUCache.lfu_inv_run size ops
    generalize (NewLFUCache size).run ops = c at hi
    intro hg _ hkeep
    have h0 := LFUCache.lfu_put_keeps_all hi key value now hkeep
    obtain ⟨hm, hk⟩ := hi.table key h hg
    have hr := hi.wf.mem_inRange hm
    have hput : (c.Put key value now).1 =
        { c with
          byKey := mapSet c.byKey key c.pq.nodes.length
          pq := heap.Push
            (c.pq.alloc { key := key, value := value, count := 1, index := 0, lastUsed := now })
            c.pq.nodes.length
          currSize := c.currSize + (value.length : Int) } := by
      rw [LFUCache.Put_eq, h0]
    have hperm : (c.Put key value now).1.pq.slots.Perm (c.pq.nodes.length :: c.pq.slots) := by
      rw [hput]
      exact heap.heapInsert_perm c.pq _
    refine ⟨hperm.mem_iff.2 (List.mem_cons_of_mem _ hm), ?_, ?_, hperm, by omega, ?_,
      LFUCache.lfu_get_after_put c key value now now2⟩
    · rw [hput]
      exact (heap.insert_deref_old (fun nd : lfuNode => nd.key) lfu_indexFree_key hi.wf _ h
        hm).trans hk
    · rw [hput]
      exact heap.insert_deref_old (fun nd : lfuNode => nd.value) lfu_indexFree_value hi.wf _ h hm
    · rw [hput]
      rfl
  · have hi := GDSFCache.gdsf_inv_run size maxEvictions ops
    generalize (NewGDSFCache size maxEvictions).run ops = c at hi
    intro hg hok hkeep
    have hput := GDSFCache.gdsf_put_keeps_all hi key value now hok hkeep
    obtain ⟨hm, hk⟩ := hi.table key h hg
    have hr := hi.wf.mem_inRange hm
    have hperm : (c.Put key value now).1.queue.slots.Perm
        (c.queue.nodes.length :: c.queue.slots) := by
      rw [hput]
      exact GDSFCache.insert_perm c key value now
    refine ⟨hperm.mem_iff.2 (List.mem_cons_of_mem _ hm), ?_, ?_, hperm, by omega, ?_, ?_⟩
    · rw [hput]
      exact (heap.insert_deref_old gdsfNode.key gdsf_indexFree_key hi.wf _ h hm).trans hk
    · rw [hput]
      exact heap.insert_deref_old (fun nd : gdsfNode => nd.value) gdsf_indexFree_value hi.wf _
        h hm
    · rw [hput]
      rfl
    · rw [hput]
      exact GDSFCache.get_after_insert c key value now now2

theorem put_of_present_key_is_independent_admission_witness :
    mapGet ((NewGDSFCache 100 100).run singleScenario).byKey "key1" = some 0 ∧
    (((NewGDSFCache 100 100).run singleScenario).Put "key1" (blob 40) 2).1.Size = 90 ∧
    (((NewGDSFCache 100 100).run singleScenario).Put "key1" (blob 40) 2).1.queue.Len = 2 ∧
    0 ∈ (((NewGDSFCache 100 100).run singleScenario).Put "key1" (blob 40) 2).1.queue.slots ∧
    ((((NewGDSFCache 100 100).run singleScenario).Put "key1" (blob 40) 2).1.Get "key1" 3).2
      = (blob 40, true) :=
  ⟨by decide, by decide, by decide,
    ((put_of_present_key_is_independent_admission singleScenario "key1" (blob 40) 2 3 0).2.2
      100 100 (by decide) (by decide) (by decide)).1,
    by decide⟩

/-! ## GDSF: heap order and the inflation value -/

theorem F64.le_iff (a b : F64) :
    F64.le a b = true ↔ ∃ x y : Int, a = .val x ∧ b = .val y ∧ x ≤ y := by
  cases a <;> cases b <;> simp [F64.le]

theorem F64.le_trans {a b c : F64} (h1 : F64.le a b = true) (h2 : F64.le b c = true) :
    F64.le a c = true := by
  obtain ⟨x, y, rfl, rfl, hxy⟩ := (F64.le_iff _ _).1 h1
  obtain ⟨y2, z, hy, rfl, hyz⟩ := (F64.le_iff _ _).1 h2
  cases hy
  simp only [F64.le, decide_eq_true_eq]
  omega

theorem F64.le_of_not_lt {a b : F64} {x y : Int} (ha : a = .val x) (hb : b = .val y)
    (h : F64.lt b a = false) : F64.le a b = true := by
  subst ha hb
  simp only [F64.lt, decide_eq_false_iff_not] at h
  simp only [F64.le, decide_eq_true_eq]
  omega

theorem gdsf_indexFree_priority : IndexFree (fun nd : gdsfNode => nd.priority) :=
  fun _ _ => rfl

theorem gdsf_indexFree_count : IndexFree (fun nd : gdsfNode => nd.count) := fun _ _ => rfl

/-- On a queue whose priorities are numbers, `Less` is a strict weak order. -/
theorem gdsf_lessOrder (q : gdsfPQ)
    (hn : ∀ h, h ∈ q.slots → ∃ p : Int, (q.deref h).priority = .val p) : q.LessOrder := by
  have hnode : ∀ a, a < q.Len → ∃ p : Int, (q.node a).priority = .val p := by
    intro a ha
    exact hn _ ((mem_iff_getD _ _).2 ⟨a, ha, rfl⟩)
  constructor
  · intro a b ha hb
    obtain ⟨pa, hpa⟩ := hnode a ha
    obtain ⟨pb, hpb⟩ := hnode b hb
    simp only [PtrSlice.Less, HeapNode.less, gdsfNode.less, hpa, hpb, F64.lt,
      decide_eq_true_eq, decide_eq_false_iff_not]
    omega
  · intro a b c ha hb hc
    obtain ⟨pa, hpa⟩ := hnode a ha
    obtain ⟨pb, hpb⟩ := hnode b hb
    obtain ⟨pc, hpc⟩ := hnode c hc
    simp only [PtrSlice.Less, HeapNode.less, gdsfNode.less, hpa, hpb, hpc, F64.lt,
      decide_eq_true_eq]
    omega
  · intro a b c ha hb hc
    obtain ⟨pa, hpa⟩ := hnode a ha
    obtain ⟨pb, hpb⟩ := hnode b hb
    obtain ⟨pc, hpc⟩ := hnode c hc
    simp only [PtrSlice.Less, HeapNode.less, gdsfNode.less, hpa, hpb, hpc, F64.lt,
      decide_eq_false_iff_not]
    omega

theorem GDSFCache.OrdInv.priorities {c : GDSFCache} (hi : c.OrdInv) :
    ∀ h, h ∈ c.queue.slots → ∃ p : Int, (c.queue.deref h).priority = .val p := by
  intro h hm
  obtain ⟨_, y, _, hy, _⟩ := (F64.le_iff _ _).1 (hi.floor h hm)
  exact ⟨y, hy⟩

theorem GDSFCache.ordInv_new (size maxEvictions : Int) :
    (NewGDSFCache size maxEvictions).OrdInv := by
  refine ⟨GDSFCache.gdsf_inv_new size maxEvictions, ?_, ⟨0, rfl⟩, ?_, ?_, ?_⟩
  · intro i _ hi
    simp [NewGDSFCache, PtrSlice.Len] at hi
  all_goals
    intro h hm
    simp [NewGDSFCache] at hm

/-- The node that `heap.Pop` returns has the least priority of the queue. -/
theorem GDSFCache.OrdInv.popped_min {c : GDSFCache} (hi : c.OrdInv) (hq : 0 < c.queue.Len) :
    (heap.Pop c.queue).2 ∈ c.queue.slots ∧
    ∀ h, h ∈ c.queue.slots →
      F64.le (c.queue.deref (heap.Pop c.queue).2).priority (c.queue.deref h).priority = true := by
  have ho := gdsf_lessOrder c.queue hi.priorities
  have hpop := (heap.Pop_heapOrdered c.queue hq hi.heap ho).2
  have hm0 : (heap.Pop c.queue).2 ∈ c.queue.slots := by
    rw [hpop]
    exact (mem_iff_getD _ _).2 ⟨0, hq, rfl⟩
  refine ⟨hm0, ?_⟩
  intro h hm
  obtain ⟨i, hil, hix⟩ := (mem_iff_getD _ _).1 hm
  have hmin := hi.heap.root_min ho (Nat.le_refl _) i hil
  obtain ⟨p0, hp0⟩ := hi.priorities _ hm0
  obtain ⟨p, hp⟩ := hi.priorities _ hm
  apply F64.le_of_not_lt hp0 hp
  simp only [PtrSlice.Less, PtrSlice.node, HeapNode.less, gdsfNode.less, hix, ← hpop] at hmin
  exact hmin

theorem F64.le_refl_of_val {a : F64} (h : ∃ l : Int, a = .val l) : F64.le a a = true := by
  obtain ⟨l, rfl⟩ := h
  simp [F64.le]

/-- One iteration of the loop of `evict` keeps the invariant and does not lower `L`. -/
theorem GDSFCache.ordInv_afterPop {c : GDSFCache} (hi : c.OrdInv) (hq : 0 < c.queue.Len)
    (i : Nat) : (c.afterPop i).OrdInv ∧ F64.le c.L (c.afterPop i).L = true := by
  have ho := gdsf_lessOrder c.queue hi.priorities
  have hperm := heap.Pop_perm c.queue hq
  have hlen := heap.Pop_Len c.queue hq
  obtain ⟨hm0, hmin⟩ := hi.popped_min hq
  have hprio := heap.heapPop_deref_indexFree (fun nd : gdsfNode => nd.priority)
    gdsf_indexFree_priority c.queue hq
  have hcount := heap.heapPop_deref_indexFree (fun nd : gdsfNode => nd.count)
    gdsf_indexFree_count c.queue hq
  have hsize := heap.heapPop_deref_indexFree gdsfNode.size gdsf_indexFree_size c.queue hq
  simp only at hprio hcount
  have hmem : ∀ h, h ∈ (heap.Pop c.queue).1.slots → h ∈ c.queue.slots :=
    fun h hm => hperm.mem_iff.2 (List.mem_cons_of_mem _ hm)
  have hL : (c.afterPop i).L =
      if i + 1 = 1 then (c.queue.deref (heap.Pop c.queue).2).priority else c.L := by
    simp only [GDSFCache.afterPop, hprio]
  have hmono : F64.le c.L (c.afterPop i).L = true := by
    rw [hL]
    split
    · exact hi.floor _ hm0
    · exact F64.le_refl_of_val hi.numeric
  refine ⟨⟨GDSFCache.inv_afterPop hi.inv hq i, ?_, ?_, ?_, ?_, ?_⟩, hmono⟩
  · have h1 := (heap.Pop_heapOrdered c.queue hq hi.heap ho).1
    have h2 : (c.afterPop i).queue.Len = c.queue.Len - 1 := by
      show (heap.Pop c.queue).1.Len = _
      omega
    rw [h2]
    exact h1
  · obtain ⟨_, y, _, hy, _⟩ := (F64.le_iff _ _).1 hmono
    exact ⟨y, hy⟩
  · intro h hm
    have hm2 := hmem h hm
    show F64.le (c.afterPop i).L ((heap.Pop c.queue).1.deref h).priority = true
    rw [hL, hprio]
    split
    · exact hmin h hm2
    · exact hi.floor h hm2
  · intro h hm
    show 0 ≤ ((heap.Pop c.queue).1.deref h).count
    rw [hcount]
    exact hi.count h (hmem h hm)
  · intro h hm
    show ((heap.Pop c.queue).1.deref h).size ≠ 0
    rw [hsize]
    exact hi.sizeNZ h (hmem h hm)

theorem GDSFCache.ordInv_evict {c : GDSFCache} (hi : c.OrdInv) (k : Nat) :
    (c.evict k).OrdInv ∧ F64.le c.L (c.evict k).L = true := by
  induction k generalizing c with
  | zero => exact ⟨hi, F64.le_refl_of_val hi.numeric⟩
  | succ i ih =>
    by_cases hq : 0 < c.queue.Len
    · rw [GDSFCache.evict_afterPop c i hq]
      obtain ⟨h1, h2⟩ := GDSFCache.ordInv_afterPop hi hq i
      obtain ⟨h3, h4⟩ := ih h1
      exact ⟨h3, F64.le_trans h2 h4⟩
    · rw [GDSFCache.evict_empty c _ hq]
      exact ⟨hi, F64.le_refl_of_val hi.numeric⟩

/-- The insertion that ends `Put` keeps the invariant when the value is not empty; it leaves
`L` as it is. -/
theorem GDSFCache.ordInv_insert {c : GDSFCache} (hi : c.OrdInv) (key : String) (value : Bytes)
    (now : Nat) (hv : value ≠ []) :
    (c.insert key value now).OrdInv ∧ (c.insert key value now).L = c.L := by
  refine ⟨?_, rfl⟩
  obtain ⟨l, hl⟩ := hi.numeric
  have hsz : (value.length : Int) ≠ 0 := by
    have := List.length_pos.2 hv
    omega
  have hcost : c.cost 1 (value.length : Int) = .val (l + 1) := by
    rw [GDSFCache.cost_eq, if_neg hsz, hl]
    rfl
  have hperm := GDSFCache.insert_perm c key value now
  have hold : ∀ {α : Type} (f : gdsfNode → α), IndexFree f → ∀ h, h ∈ c.queue.slots →
      f ((c.insert key value now).queue.deref h) = f (c.queue.deref h) :=
    fun f hf h hm => heap.insert_deref_old f hf hi.inv.wf _ h hm
  have hnew : ∀ {α : Type} (f : gdsfNode → α), IndexFree f →
      f ((c.insert key value now).queue.deref c.queue.nodes.length) =
        f { key := key, value := value, count := 1, index := 0,
            priority := c.cost 1 (value.length : Int), size := (value.length : Int),
            lastUsed := now } :=
    fun f hf => heap.insert_deref_new f hf c.queue _
  have hfloor : ∀ h, h ∈ (c.insert key value now).queue.slots →
      F64.le c.L ((c.insert key value now).queue.deref h).priority = true := by
    intro h hm
    have hm2 := hperm.mem_iff.1 hm
    simp only [List.mem_cons] at hm2
    rcases hm2 with hm2 | hm2
    · subst hm2
      rw [hnew (fun nd => nd.priority) gdsf_indexFree_priority, hcost, hl]
      simp [F64.le]
    · rw [hold (fun nd => nd.priority) gdsf_indexFree_priority h hm2]
      exact hi.floor h hm2
  refine ⟨GDSFCache.gdsf_inv_insert hi.inv key value now, ?_, ⟨l, hl⟩, hfloor, ?_, ?_⟩
  · have hlen : (c.insert key value now).queue.Len = c.queue.Len + 1 := by
      have := hperm.length_eq
      simpa [PtrSlice.Len] using this
    rw [hlen]
    have hpush := @heap.Push_heapOrdered gdsfNode _ _ (c.queue.alloc
      { key := key, value := value, count := 1, index := 0,
        priority := c.cost 1 (value.length : Int), size := (value.length : Int),
        lastUsed := now }) c.queue.nodes.length
    apply hpush
    · intro k hk0 hkn
      have hkn2 : k < c.queue.Len := hkn
      rw [PtrSlice.Less_alloc hi.inv.wf _ _ _ hkn2 (by omega)]
      exact hi.heap k hk0 hkn2
    · apply gdsf_lessOrder
      intro h hm
      have hm3 : h ∈ (c.insert key value now).queue.slots := by
        apply hperm.mem_iff.2
        rw [PtrSlice.Push_slots] at hm
        simp only [List.mem_append, List.mem_singleton, PtrSlice.alloc] at hm
        simp only [List.mem_cons]
        exact hm.symm
      obtain ⟨_, y, _, hy, _⟩ := (F64.le_iff _ _).1 (hfloor h hm3)
      refine ⟨y, ?_⟩
      rw [← hy]
      have h1 := heap.heapPush_deref_indexFree (fun nd : gdsfNode => nd.priority)
        gdsf_indexFree_priority (c.queue.alloc
          { key := key, value := value, count := 1, index := 0,
            priority := c.cost 1 (value.length : Int), size := (value.length : Int),
            lastUsed := now }) c.queue.nodes.length h
      have h2 := PtrSlice.Push_deref_indexFree (fun nd : gdsfNode => nd.priority)
        gdsf_indexFree_priority (c.queue.alloc
          { key := key, value := value, count := 1, index := 0,
            priority := c.cost 1 (value.length : Int), size := (value.length : Int),
            lastUsed := now }) c.queue.nodes.length h
      exact h2.trans h1.symm
  · intro h hm
    have hm2 := hperm.mem_iff.1 hm
    simp only [List.mem_cons] at hm2
    rcases hm2 with hm2 | hm2
    · subst hm2
      rw [hnew (fun nd => nd.count) gdsf_indexFree_count]
      exact Int.zero_le_ofNat 1
    · rw [hold (fun nd => nd.count) gdsf_indexFree_count h hm2]
      exact hi.count h hm2
  · intro h hm
    have hm2 := hperm.mem_iff.1 hm
    simp only [List.mem_cons] at hm2
    rcases hm2 with hm2 | hm2
    · subst hm2
      rw [hnew gdsfNode.size gdsf_indexFree_size]
      exact hsz
    · rw [hold gdsfNode.size gdsf_indexFree_size h hm2]
      exact hi.sizeNZ h hm2

/-- The node that `Get` has updated has a priority that is a number not below `L`. -/
theorem GDSFCache.OrdInv.touched {c : GDSFCache} (hi : c.OrdInv) (now x : Nat) :
    ∀ h, h ∈ c.queue.slots →
      F64.le c.L ((c.queue.update x (c.touch now)).deref h).priority = true ∧
      0 ≤ ((c.queue.update x (c.touch now)).deref h).count ∧
      ((c.queue.update x (c.touch now)).deref h).size ≠ 0 := by
  intro h hm
  obtain ⟨l, hl⟩ := hi.numeric
  rw [PtrSlice.deref_update]
  split
  · rename_i hx
    obtain ⟨rfl, _⟩ := hx
    have hc := hi.count h hm
    have hs := hi.sizeNZ h hm
    refine ⟨?_, ?_, hs⟩
    · show F64.le c.L (c.cost ((c.queue.deref h).count + 1) (c.queue.deref h).size) = true
      rw [GDSFCache.cost_eq, if_neg hs, hl]
      simp only [F64.add, F64.le, decide_eq_true_eq]
      omega
    · show 0 ≤ (c.queue.deref h).count + 1
      omega
  · exact ⟨hi.floor h hm, hi.count h hm, hi.sizeNZ h hm⟩

theorem GDSFCache.ordInv_get {c : GDSFCache} (hi : c.OrdInv) (key : String) (now : Nat) :
    (c.Get key now).1.OrdInv ∧ (c.Get key now).1.L = c.L := by
  cases hg : mapGet c.byKey key with
  | none =>
    rw [GDSFCache.gdsf_Get_miss c key now hg]
    exact ⟨hi, rfl⟩
  | some x =>
    have hs := GDSFCache.Get_swaps hi.inv key now x hg
    have hperm : (c.Get key now).1.queue.slots.Perm c.queue.slots := hs.perm
    have hL : (c.Get key now).1.L = c.L := by
      rw [GDSFCache.gdsf_Get_hit c key now x hg]
    have ht := hi.touched now x
    have hnum1 : ∀ h, h ∈ (c.queue.update x (c.touch now)).slots →
        ∃ p : Int, ((c.queue.update x (c.touch now)).deref h).priority = .val p := by
      intro h hm
      obtain ⟨_, y, _, hy, _⟩ := (F64.le_iff _ _).1 (ht h hm).1
      exact ⟨y, hy⟩
    refine ⟨⟨GDSFCache.gdsf_inv_get hi.inv key now, ?_, ?_, ?_, ?_, ?_⟩, hL⟩
    · obtain ⟨i, hil, hix, hidx⟩ := GDSFCache.gdsf_Get_index hi.inv key now x hg
      have hq : (c.Get key now).1.queue = heap.Fix (c.queue.update x (c.touch now)) i := by
        rw [GDSFCache.gdsf_Get_hit c key now x hg]
        simp only [hidx]
        simp [heap.FixAt]
      have hil2 : i < (c.queue.update x (c.touch now)).Len := hil
      have hlen : (c.Get key now).1.queue.Len = (c.queue.update x (c.touch now)).Len :=
        hs.Len_eq
      rw [hlen, hq]
      have hinv := PtrSlice.FixInv.of_update hi.inv.wf hi.heap
        (gdsf_lessOrder c.queue hi.priorities) i hil (c.touch now)
      rw [hix] at hinv
      exact heap.Fix_heapOrdered (c.queue.update x (c.touch now)) i hil2
        (gdsf_lessOrder _ hnum1) hinv
    · rw [hL]
      exact hi.numeric
    · intro h hm
      rw [hL, hs.deref_indexFree (fun nd => nd.priority) gdsf_indexFree_priority]
      exact (ht h (hperm.mem_iff.1 hm)).1
    · intro h hm
      rw [hs.deref_indexFree (fun nd => nd.count) gdsf_indexFree_count]
      exact (ht h (hperm.mem_iff.1 hm)).2.1
    · intro h hm
      rw [hs.deref_indexFree gdsfNode.size gdsf_indexFree_size]
      exact (ht h (hperm.mem_iff.1 hm)).2.2

theorem GDSFCache.ordInv_put {c : GDSFCache} (hi : c.OrdInv) (key : String) (value : Bytes)
    (now : Nat) (hv : value ≠ []) :
    (c.Put key value now).1.OrdInv ∧ F64.le c.L (c.Put key value now).1.L = true := by
  rcases GDSFCache.Put_cases c key value now with h | h
  · rw [h.2]
    obtain ⟨h1, h2⟩ := GDSFCache.ordInv_evict hi (c.putBatch value)
    obtain ⟨h3, h4⟩ := GDSFCache.ordInv_insert h1 key value now hv
    exact ⟨h3, by rw [h4]; exact h2⟩
  · rw [h.2.1]
    exact ⟨hi, F64.le_refl_of_val hi.numeric⟩

theorem GDSFCache.ordInv_step {c : GDSFCache} (hi : c.OrdInv) (op : Op)
    (hop : op.nonEmpty = true) :
    (c.step op).OrdInv ∧ F64.le c.L (c.step op).L = true := by
  cases op with
  | put key value now =>
    exact GDSFCache.ordInv_put hi key value now (by simpa [Op.nonEmpty] using hop)
  | get key now =>
    obtain ⟨h1, h2⟩ := GDSFCache.ordInv_get hi key now
    exact ⟨h1, by rw [show (c.step (.get key now)).L = c.L from h2]
                  exact F64.le_refl_of_val hi.numeric⟩
  | has key => exact ⟨hi, F64.le_refl_of_val hi.numeric⟩

theorem GDSFCache.ordInv_run_from {c : GDSFCache} (hi : c.OrdInv) (ops : List Op)
    (hne : ∀ o, o ∈ ops → o.nonEmpty = true) : (c.run ops).OrdInv := by
  induction ops generalizing c with
  | nil => exact hi
  | cons op ops ih =>
    exact ih (GDSFCache.ordInv_step hi op (hne op (List.mem_cons_self _ _))).1
      (fun o ho => hne o (List.mem_cons_of_mem _ ho))

theorem GDSFCache.ordInv_run (size maxEvictions : Int) (ops : List Op)
    (hne : ∀ o, o ∈ ops → o.nonEmpty = true) :
    ((NewGDSFCache size maxEvictions).run ops).OrdInv :=
  GDSFCache.ordInv_run_from (GDSFCache.ordInv_new size maxEvictions) ops hne

/-- C15. For a GDSF cache to which no empty value is put, after any calls on a fresh cache the
value of `L` is a number, and the value of `L` after the next call is a number that is not
smaller: `L` never decreases. -/
theorem gdsf_inflation_never_decreases (size maxEvictions : Int) (ops : List Op) (op : Op)
    (hne : ∀ o, o ∈ ops ++ [op] → o.nonEmpty = true) :
    F64.le ((NewGDSFCache size maxEvictions).run ops).L
      (((NewGDSFCache size maxEvictions).run ops).step op).L = true ∧
    ((NewGDSFCache size maxEvictions).run (ops ++ [op])).L =
      (((NewGDSFCache size maxEvictions).run ops).step op).L := by
  have hi := GDSFCache.ordInv_run size maxEvictions ops
    (fun o ho => hne o (List.mem_append_left _ ho))
  refine ⟨(GDSFCache.ordInv_step hi op (hne op (by simp))).2, ?_⟩
  simp [GDSFCache.run, List.foldl_append]

theorem gdsf_inflation_never_decreases_witness :
    F64.le ((NewGDSFCache 100 100).run fullScenario).L
      (((NewGDSFCache 100 100).run fullScenario).step (.put "key3" (blob 90) 3)).L = true ∧
    ((NewGDSFCache 100 100).run fullScenario).L = .val 0 ∧
    (((NewGDSFCache 100 100).run fullScenario).step (.put "key3" (blob 90) 3)).L = .val 1 :=
  ⟨(gdsf_inflation_never_decreases 100 100 fullScenario (.put "key3" (blob 90) 3)
      (by decide)).1, by decide, by decide⟩

theorem getLastD_of_ne_nil (l : List Nat) (a b : Nat) (h : l ≠ []) :
    l.getLastD a = l.getLastD b := by
  cases l with
  | nil => exact absurd rfl h
  | cons x l => rw [List.getLastD_cons, List.getLastD_cons]

theorem GDSFCache.evicted_succ (c : GDSFCache) (i : Nat) (hq : 0 < c.queue.Len) :
    c.evicted (i + 1) = (heap.Pop c.queue).2 :: (c.afterPop i).evicted i := by
  simp [GDSFCache.evicted, hq]

/-- The nodes that `evict(k)` pops from a queue of `k` nodes or more leave in non-decreasing
order of priority, and `L` becomes the priority of the last one. -/
theorem GDSFCache.evicted_sorted {c : GDSFCache} (hi : c.OrdInv) (k : Nat)
    (hk : k ≤ c.queue.Len) :
    (c.evicted k).Pairwise
      (fun a b => F64.le (c.queue.deref a).priority (c.queue.deref b).priority = true) ∧
    (∀ e, e ∈ c.evicted k → e ∈ c.queue.slots) ∧
    (1 ≤ k → (c.evict k).L = (c.queue.deref ((c.evicted k).getLastD 0)).priority) := by
  induction k generalizing c with
  | zero => exact ⟨by simp [GDSFCache.evicted], by simp [GDSFCache.evicted], by omega⟩
  | succ i ih =>
    have hq : 0 < c.queue.Len := by omega
    have hlen := heap.Pop_Len c.queue hq
    have hlen2 : (c.afterPop i).queue.Len + 1 = c.queue.Len := hlen
    have hperm := heap.Pop_perm c.queue hq
    obtain ⟨hm0, hmin⟩ := hi.popped_min hq
    have hprio : ∀ h, ((c.afterPop i).queue.deref h).priority = (c.queue.deref h).priority :=
      heap.heapPop_deref_indexFree (fun nd : gdsfNode => nd.priority)
        gdsf_indexFree_priority c.queue hq
    have hmem : ∀ h, h ∈ (c.afterPop i).queue.slots → h ∈ c.queue.slots :=
      fun h hm => hperm.mem_iff.2 (List.mem_cons_of_mem _ hm)
    obtain ⟨h1, h2, h3⟩ := ih (GDSFCache.ordInv_afterPop hi hq i).1 (by omega)
    rw [GDSFCache.evicted_succ c i hq, GDSFCache.evict_afterPop c i hq]
    refine ⟨?_, ?_, ?_⟩
    · rw [List.pairwise_cons]
      refine ⟨fun e he => hmin e (hmem e (h2 e he)), ?_⟩
      apply h1.imp
      intro a b hab
      rw [hprio, hprio] at hab
      exact hab
    · intro e he
      simp only [List.mem_cons] at he
      rcases he with he | he
      · rw [he]
        exact hm0
      · exact hmem e (h2 e he)
    · intro _
      rw [List.getLastD_cons]
      by_cases h0 : i = 0
      · subst h0
        simp only [GDSFCache.evicted, GDSFCache.evict_zero, List.getLastD_nil]
        exact hprio _
      · have hne : (c.afterPop i).evicted i ≠ [] := by
          intro hnil
          have hl := (GDSFCache.evict_perm (c.afterPop i) i).2.1
          rw [hnil] at hl
          simp only [List.length_nil] at hl
          omega
        rw [h3 (by omega), hprio, getLastD_of_ne_nil _ (heap.Pop c.queue).2 0 hne]

/-- C16. Let `c` be a GDSF cache reached from a fresh one by calls that put no empty value, and
let `1 ≤ k ≤ queue.Len()`.  Then `evict(k)` removes exactly the `k` entries `c.evicted k`, in
non-decreasing order of priority, `L` afterwards is the priority of the last entry removed, and
no removed entry has a priority above it.  A `Put` whose loop calls `evict(k)` succeeds,
removes these entries and leaves `L` as `evict(k)` has set it. -/
theorem gdsf_batch_leaves_in_priority_order (size maxEvictions : Int) (ops : List Op)
    (c : GDSFCache) (k : Nat)
    (hc : c = (NewGDSFCache size maxEvictions).run ops)
    (hne : ∀ o, o ∈ ops → o.nonEmpty = true)
    (hk1 : 1 ≤ k) (hk : k ≤ c.queue.Len) :
    (c.evicted k).length = k ∧
    c.queue.slots.Perm (c.evicted k ++ (c.evict k).queue.slots) ∧
    (c.evicted k).Pairwise
      (fun a b => F64.le (c.queue.deref a).priority (c.queue.deref b).priority = true) ∧
    (c.evict k).L = (c.queue.deref ((c.evicted k).getLastD 0)).priority ∧
    (∀ e, e ∈ c.evicted k → F64.le (c.queue.deref e).priority (c.evict k).L = true) ∧
    (∀ (key : String) (value : Bytes) (now : Nat), c.putBatch value = k →
      (c.Put key value now).2 = none ∧
      (c.Put key value now).1.queue.slots.Perm
        (c.queue.nodes.length :: (c.evict k).queue.slots) ∧
      (c.Put key value now).1.L = (c.evict k).L) := by
  have hi : c.OrdInv := by
    rw [hc]
    exact GDSFCache.ordInv_run size maxEvictions ops hne
  obtain ⟨hperm, hcount, hnodes⟩ := GDSFCache.evict_perm c k
  obtain ⟨hsorted, hmem, hL⟩ := GDSFCache.evicted_sorted hi k hk
  refine ⟨by omega, hperm, hsorted, hL hk1, ?_, ?_⟩
  · intro e he
    rw [hL hk1]
    by_cases hlast : e = (c.evicted k).getLastD 0
    · rw [← hlast]
      exact F64.le_refl_of_val (hi.priorities e (hmem e he))
    · exact pairwise_getLastD (c.evicted k) 0 hsorted e he hlast
  · intro key value now hb
    have hput : (c.Put key value now).2 = none ∧
        (c.Put key value now).1 = (c.evict k).insert key value now := by
      rcases GDSFCache.Put_cases c key value now with h | h
      · rw [hb] at h
        exact h
      · omega
    refine ⟨hput.1, ?_, ?_⟩
    · rw [hput.2, ← hnodes]
      exact GDSFCache.insert_perm (c.evict k) key value now
    · rw [hput.2]
      rfl

theorem gdsf_batch_leaves_in_priority_order_witness :
    ((NewGDSFCache 100 100).run threeEntryScenario).queue.Len = 3 ∧
    ((NewGDSFCache 100 100).run threeEntryScenario).evicted 2 = [2, 1] ∧
    (((NewGDSFCache 100 100).run threeEntryScenario).evicted 2).map
      (fun e => (((NewGDSFCache 100 100).run threeEntryScenario).queue.deref e).priority)
      = [.val 1, .val 2] ∧
    (((NewGDSFCache 100 100).run threeEntryScenario).evict 2).L = .val 2 ∧
    (((NewGDSFCache 100 100).run threeEntryScenario).evict 2).L =
      (((NewGDSFCache 100 100).run threeEntryScenario).queue.deref
        ((((NewGDSFCache 100 100).run threeEntryScenario).evicted 2).getLastD 0)).priority :=
  ⟨by decide, by decide, by decide, by decide,
    (gdsf_batch_leaves_in_priority_order 100 100 threeEntryScenario
      ((NewGDSFCache 100 100).run threeEntryScenario) 2 rfl (by decide)
      (by decide) (by decide)).2.2.2.1⟩

/-- Once the test of the loop of `Put` has failed, it fails in every later iteration:
`evictSize` only grows. -/
theorem GDSFCache.batch_zero_of_le {c : GDSFCache} (hi : c.Inv) (size : Int) (fuel it : Nat)
    (es : Int) (hle : size + c.usedSize - es ≤ c.maxSize) : c.batch size fuel it es = 0 := by
  induction fuel generalizing it es with
  | zero => rfl
  | succ fuel ih =>
    simp only [GDSFCache.batch]
    split
    · rename_i hcond
      simp only [Bool.and_eq_true, decide_eq_true_eq] at hcond
      have hm : c.queue.slots.getD (c.queue.Len - (it - 1) - 1) 0 ∈ c.queue.slots :=
        (mem_iff_getD _ _).2 ⟨_, by simp only [PtrSlice.Len] at hcond ⊢; omega, rfl⟩
      have hs := hi.sizeField _ hm
      have hnn : 0 ≤ (c.queue.kth (it - 1)).size := by
        simp only [PtrSlice.kth, PtrSlice.node]
        rw [hs]
        exact Int.ofNat_nonneg _
      rw [if_neg (by omega)]
      exact ih _ _ (by omega)
    · rfl

/-- In a state that satisfies the invariant, `Put` calls `evict` with the argument 1 or not at
all. -/
theorem GDSFCache.putBatch_le_one {c : GDSFCache} (hi : c.Inv) (value : Bytes) :
    c.putBatch value ≤ 1 := by
  simp only [GDSFCache.putBatch]
  split
  · cases hlen : c.queue.Len with
    | zero => simp [GDSFCache.batch]
    | succ n =>
      simp only [GDSFCache.batch]
      split
      · split
        · exact Nat.le_refl _
        · rename_i hle
          rw [GDSFCache.batch_zero_of_le hi _ _ _ _ (by omega)]
          exact Nat.zero_le _
      · exact Nat.zero_le _
  · exact Nat.zero_le _

end Cache
